import Mathlib

/-!
# Code-generation evaluator (`evaluate/code-generator`)

A shallow embedding of the evaluation pipeline: the metrics aggregator
(`testdata/metrics.go`), the template transformers and `TransformCaller`
(`coderuntime/*_transformer.go`), `ExtractResult` / `ExecuteCode`
(`coderuntime/code-execute.go`) and the body of the evaluation loop
(`cmd/main.go`).

Conventions.
* A Go `string` / `[]byte` holding text is a `List Char` (valid UTF-8 text, indexed by
  code point; every offset the source computes comes from searching for ASCII tokens).
* A Go function that may stop with a run-time panic returns `Go α`.
* A Go `error` is a `GoError`; `(T, error)` results are `Except GoError T`.
* The standard library (`strings`, `encoding/json`, `encoding/base64`) is modelled by
  executable definitions in the namespaces `Strings`, `Json`, `Base64`; the bytes that
  base64 works on are the UTF-8 bytes of the text (`Utf8`); `strconv`'s float64 text
  conversion is a parameter (`Json.FloatCodec`). `json.Unmarshal` is its two passes:
  the scanner (`checkValid`: syntax and the limit of 10000 nested arrays and objects),
  then the conversion of the scanned document into Go values.
* The network (code generation service, sandbox service) and the process environment
  are the fields of `World`.
* Which texts are JSON is said by the grammar of RFC 8259 (`Json.Doc`), defined apart
  from the decoder; that the decoder reads every text of the grammar as the grammar says
  is proved (`Json.parseDocument_text`).
-/

namespace Dify

/-! ## Go run-time outcomes -/

/-- Outcome of evaluating a Go expression or call: a value, or a run-time panic. -/
inductive Go (α : Type) where
  | ret (a : α)
  | sliceBoundsPanic (lo hi len : Int)
  deriving DecidableEq, Repr

/-- Sequencing: a panic unwinds through the caller. -/
def Go.bind {α β : Type} : Go α → (α → Go β) → Go β
  | .ret a, f => f a
  | .sliceBoundsPanic lo hi len, _ => .sliceBoundsPanic lo hi len

/-! ## `strings` -/

namespace Strings

/-- Offset of the first occurrence of `sep` in `s`, if any. -/
def indexOf (sep : List Char) : List Char → Option Nat
  | [] => if sep.isPrefixOf [] then some 0 else none
  | c :: s =>
    if sep.isPrefixOf (c :: s) then some 0
    else (indexOf sep s).map (· + 1)

/-- Offset of the last occurrence of `sep` in `s`, if any. -/
def lastIndexOf (sep : List Char) : List Char → Option Nat
  | [] => if sep.isPrefixOf [] then some 0 else none
  | c :: s =>
    match lastIndexOf sep s with
    | some i => some (i + 1)
    | none => if sep.isPrefixOf (c :: s) then some 0 else none

/-- Go `strings.Index(s, sep)`: index of the first instance of `sep` in `s`, or `-1`. -/
def Index (s sep : List Char) : Int :=
  match indexOf sep s with
  | some i => (i : Int)
  | none => -1

/-- Go `strings.LastIndex(s, sep)`: index of the last instance of `sep` in `s`, or `-1`. -/
def LastIndex (s sep : List Char) : Int :=
  match lastIndexOf sep s with
  | some i => (i : Int)
  | none => -1

/-- Go `strings.Contains(s, sep)`. -/
def Contains (s sep : List Char) : Bool := (indexOf sep s).isSome

/-- Go slice expression `s[lo:hi]` on a string: panics unless `0 ≤ lo ≤ hi ≤ len(s)`. -/
def slice (s : List Char) (lo hi : Int) : Go (List Char) :=
  if 0 ≤ lo ∧ lo ≤ hi ∧ hi ≤ (s.length : Int) then
    .ret ((s.take hi.toNat).drop lo.toNat)
  else .sliceBoundsPanic lo hi s.length

/-- Left-to-right replacement of the non-overlapping occurrences of a non-empty `old`;
`skip` counts the characters of a matched occurrence still to be dropped. -/
def replaceGo (old new : List Char) : Nat → List Char → List Char
  | _, [] => []
  | k + 1, _ :: s => replaceGo old new k s
  | 0, c :: s =>
    if old.isPrefixOf (c :: s) then new ++ replaceGo old new (old.length - 1) s
    else c :: replaceGo old new 0 s

/-- Go `strings.ReplaceAll(s, old, new)`: `s` with all non-overlapping instances of `old`
replaced by `new`; an empty `old` matches before every character and at the end. -/
def ReplaceAll (s old new : List Char) : List Char :=
  if old = new then s
  else if old = [] then new ++ s.flatMap (fun c => c :: new)
  else replaceGo old new 0 s

/-- Go `unicode.IsSpace`. -/
def isSpace (c : Char) : Bool :=
  let n := c.toNat
  (9 ≤ n ∧ n ≤ 13) ∨ n = 0x20 ∨ n = 0x85 ∨ n = 0xA0 ∨ n = 0x1680 ∨
    (0x2000 ≤ n ∧ n ≤ 0x200a) ∨ n = 0x2028 ∨ n = 0x2029 ∨ n = 0x202f ∨
    n = 0x205f ∨ n = 0x3000

/-- Go `bytes.TrimSpace` / `strings.TrimSpace`: leading and trailing white space removed. -/
def TrimSpace (s : List Char) : List Char :=
  ((s.dropWhile isSpace).reverse.dropWhile isSpace).reverse

end Strings

/-! ## Errors -/

/-- Errors returned by `encoding/json`. -/
inductive JsonError where
  /-- The scanner rejects the input (`SyntaxError`): it is not a JSON document, or its
  arrays and objects are nested deeper than the scanner allows
  (`exceeded max depth`). -/
  | malformed
  /-- A number literal of the document has no float64 value (`UnmarshalTypeError` with
  value `number <literal>`, from `convertNumber`). -/
  | numberRange
  /-- The document is a JSON value of the named kind that the target type cannot hold
  (`UnmarshalTypeError`). -/
  | cannotUnmarshal (kind : String)
  /-- A value without JSON encoding was met while encoding (`UnsupportedValueError`). -/
  | unsupportedValue
  deriving DecidableEq, Repr

/-- Go `error` values of the program. -/
inductive GoError where
  /-- An error whose message is the given text (`fmt.Errorf` with a constant format and
  string arguments). -/
  | text (msg : List Char)
  /-- The wrapping `fmt.Errorf("<pfx>%v", inner)` of another error. -/
  | wrapped (pfx : List Char) (inner : GoError)
  /-- An error of `encoding/json`. -/
  | json (e : JsonError)
  /-- An error of `net/http` or `io`: building the request, the round trip, reading the
  body. -/
  | transport (stage : String)
  deriving DecidableEq, Repr

/-! ## `encoding/json` -/

namespace Json

/-- The dynamic values `encoding/json` stores in an `interface{}`: `nil`, `bool`, `float64`,
`string`, `[]interface{}` and `map[string]interface{}`; these are the values the inputs of
a test case (loaded by `LoadTestCases`) and an extracted result can hold. `F` is the type
of float64 values (see `FloatCodec`). A map is represented by its entries in increasing key
order, the order in which the encoder visits them (it sorts the keys).

The same shape with `F := List Char` is the syntax tree of a JSON document as the scanner
reads it: number literals as written, the members of an object in the order of the text,
repeated keys included. -/
inductive Value (F : Type) where
  | null
  | bool (b : Bool)
  | num (f : F)
  | str (s : List Char)
  | arr (xs : List (Value F))
  | obj (ms : List (List Char × Value F))

/-- The text conversions of float64 that `encoding/json` takes from `strconv`:
`parse` is `strconv.ParseFloat(lit, 64)` on a JSON number literal (`none`: value out of
range), `format` is the encoder's float formatting (`none`: NaN and ±Inf, which have no
JSON encoding). -/
structure FloatCodec (F : Type) where
  parse : List Char → Option F
  format : F → Option (List Char)

/-- Go `map[string]interface{}`: the nil map, or a map with its entries. -/
inductive GoMap (F : Type) where
  | nil
  | mk (ms : List (List Char × Value F))

/-! ### Encoder -/

/-- Lower-case hexadecimal digit, `hex[n]` of the encoder. -/
def hexDigit (n : Nat) : Char := Char.ofNat (if n < 10 then 48 + n else 87 + n)

/-- Encoding of one character inside a JSON string (`appendString`): `"` and `\` get a
backslash, control characters their short or `\u00XX` escape, with `escapeHTML` also
`<`, `>`, `&`; U+2028 and U+2029 are always escaped. -/
def escapeChar (escapeHTML : Bool) (c : Char) : List Char :=
  if c = '"' ∨ c = '\\' then ['\\', c]
  else if c = '\x08' then ['\\', 'b']
  else if c = '\x0c' then ['\\', 'f']
  else if c = '\n' then ['\\', 'n']
  else if c = '\r' then ['\\', 'r']
  else if c = '\t' then ['\\', 't']
  else if c.toNat < 0x20 ∨ (escapeHTML = true ∧ (c = '<' ∨ c = '>' ∨ c = '&')) then
    ['\\', 'u', '0', '0', hexDigit (c.toNat / 16), hexDigit (c.toNat % 16)]
  else if c = Char.ofNat 0x2028 then ['\\', 'u', '2', '0', '2', '8']
  else if c = Char.ofNat 0x2029 then ['\\', 'u', '2', '0', '2', '9']
  else [c]

/-- A JSON string literal for `s`. -/
def encodeString (escapeHTML : Bool) (s : List Char) : List Char :=
  '"' :: s.flatMap (escapeChar escapeHTML) ++ ['"']

/-- White space the encoder puts between tokens: `lineBreak d` before an item nested `d`
deep and before the bracket closing a container at depth `d`; `colon` between key and
value. -/
structure Layout where
  lineBreak : Nat → List Char
  colon : List Char

/-- Output of `Marshal` and `Encoder.Encode`: no white space. -/
def Layout.compact : Layout := ⟨fun _ => [], [':']⟩

/-- Output after `json.Indent(dst, src, pfx, indent)`: each element on a line of its own
that starts with `pfx` and one `indent` per nesting level, and a space after each colon. -/
def Layout.indented (pfx indent : List Char) : Layout :=
  ⟨fun d => '\n' :: pfx ++ (List.replicate d indent).flatten, [':', ' ']⟩

mutual
/-- Encoding of a value at nesting depth `d`; `none` when some float has no encoding. -/
def encode {F : Type} (C : FloatCodec F) (esc : Bool) (lay : Layout) :
    Nat → Value F → Option (List Char)
  | _, .null => some ['n', 'u', 'l', 'l']
  | _, .bool b => some (if b then ['t', 'r', 'u', 'e'] else ['f', 'a', 'l', 's', 'e'])
  | _, .num f => C.format f
  | _, .str s => some (encodeString esc s)
  | d, .arr xs =>
    match xs with
    | [] => some ['[', ']']
    | _ :: _ =>
      match encodeElems C esc lay (d + 1) xs with
      | some body => some ('[' :: lay.lineBreak (d + 1) ++ body ++ lay.lineBreak d ++ [']'])
      | none => none
  | d, .obj ms =>
    match ms with
    | [] => some ['{', '}']
    | _ :: _ =>
      match encodeMembers C esc lay (d + 1) ms with
      | some body => some ('{' :: lay.lineBreak (d + 1) ++ body ++ lay.lineBreak d ++ ['}'])
      | none => none
/-- The elements of a non-empty array, separated by commas. -/
def encodeElems {F : Type} (C : FloatCodec F) (esc : Bool) (lay : Layout) :
    Nat → List (Value F) → Option (List Char)
  | _, [] => some []
  | d, x :: xs =>
    match encode C esc lay d x with
    | none => none
    | some a =>
      match xs with
      | [] => some a
      | _ :: _ =>
        match encodeElems C esc lay d xs with
        | some b => some (a ++ ',' :: lay.lineBreak d ++ b)
        | none => none
/-- The members of a non-empty object, separated by commas. -/
def encodeMembers {F : Type} (C : FloatCodec F) (esc : Bool) (lay : Layout) :
    Nat → List (List Char × Value F) → Option (List Char)
  | _, [] => some []
  | d, (k, v) :: ms =>
    match encode C esc lay d v with
    | none => none
    | some a =>
      match ms with
      | [] => some (encodeString esc k ++ lay.colon ++ a)
      | _ :: _ =>
        match encodeMembers C esc lay d ms with
        | some b => some (encodeString esc k ++ lay.colon ++ a ++ ',' :: lay.lineBreak d ++ b)
        | none => none
end

/-- The dynamic value of a map: `nil` encodes as `null`. -/
def GoMap.toValue {F : Type} : GoMap F → Value F
  | .nil => .null
  | .mk ms => .obj ms

/-- Go `json.Marshal(m)` for a `map[string]interface{}`: compact, HTML characters
escaped; an error when a value has no JSON encoding. -/
def Marshal {F : Type} (C : FloatCodec F) (m : GoMap F) : Except GoError (List Char) :=
  match encode C true Layout.compact 0 m.toValue with
  | some t => .ok t
  | none => .error (.json .unsupportedValue)

/-- Go `json.MarshalIndent(m, pfx, indent)`: `Marshal` followed by `Indent`. -/
def MarshalIndent {F : Type} (C : FloatCodec F) (m : GoMap F) (pfx indent : List Char) :
    Except GoError (List Char) :=
  match encode C true (Layout.indented pfx indent) 0 m.toValue with
  | some t => .ok t
  | none => .error (.json .unsupportedValue)

/-- Go `(*Encoder).Encode(m)` into a buffer, after `SetEscapeHTML(escapeHTML)`: the compact
encoding followed by a newline. -/
def EncoderEncode {F : Type} (C : FloatCodec F) (escapeHTML : Bool) (m : GoMap F) :
    Except GoError (List Char) :=
  match encode C escapeHTML Layout.compact 0 m.toValue with
  | some t => .ok (t ++ ['\n'])
  | none => .error (.json .unsupportedValue)

/-! ### Decoder -/

/-- JSON insignificant white space. -/
def isWS (c : Char) : Bool := c = ' ' ∨ c = '\t' ∨ c = '\r' ∨ c = '\n'

/-- Input with leading white space dropped. -/
def skipWS (cs : List Char) : List Char := cs.dropWhile isWS

/-- Value of a hexadecimal digit of either case. -/
def hexVal (c : Char) : Option Nat :=
  let n := c.toNat
  if 48 ≤ n ∧ n ≤ 57 then some (n - 48)
  else if 97 ≤ n ∧ n ≤ 102 then some (n - 87)
  else if 65 ≤ n ∧ n ≤ 70 then some (n - 55)
  else none

/-- Four hexadecimal digits (`getu4`, after the `\u`). -/
def getu4 : List Char → Option (Nat × List Char)
  | a :: b :: c :: d :: rest =>
    match hexVal a, hexVal b, hexVal c, hexVal d with
    | some x, some y, some z, some w => some (((x * 16 + y) * 16 + z) * 16 + w, rest)
    | _, _, _, _ => none
  | _ => none

/-- The character denoted by an escape sequence, read after its backslash (`unquote`):
a `\uXXXX` in the surrogate range combines with a following low surrogate, and stands
for U+FFFD when it cannot. -/
def unescape : List Char → Option (Char × List Char)
  | [] => none
  | c :: rest =>
    if c = 'u' then
      match getu4 rest with
      | none => none
      | some (rr, rest1) =>
        if 0xd800 ≤ rr ∧ rr < 0xe000 then
          match rest1 with
          | '\\' :: 'u' :: rest2 =>
            match getu4 rest2 with
            | some (rr1, rest3) =>
              if rr < 0xdc00 ∧ 0xdc00 ≤ rr1 ∧ rr1 < 0xe000 then
                some (Char.ofNat ((rr - 0xd800) * 0x400 + (rr1 - 0xdc00) + 0x10000), rest3)
              else some (Char.ofNat 0xfffd, rest1)
            | none => some (Char.ofNat 0xfffd, rest1)
          | _ => some (Char.ofNat 0xfffd, rest1)
        else some (Char.ofNat rr, rest1)
    else if c = '"' ∨ c = '\\' ∨ c = '/' then some (c, rest)
    else if c = 'b' then some ('\x08', rest)
    else if c = 'f' then some ('\x0c', rest)
    else if c = 'n' then some ('\n', rest)
    else if c = 'r' then some ('\r', rest)
    else if c = 't' then some ('\t', rest)
    else none

/-- A string literal read after its opening quote: the decoded text and the input after
the closing quote. Raw control characters and bad escapes are rejected. -/
def parseString : Nat → List Char → Option (List Char × List Char)
  | 0, _ => none
  | _ + 1, [] => none
  | n + 1, c :: rest =>
    if c = '"' then some ([], rest)
    else if c = '\\' then
      match unescape rest with
      | none => none
      | some (r, rest1) =>
        match parseString n rest1 with
        | some (s, rest2) => some (r :: s, rest2)
        | none => none
    else if c.toNat < 0x20 then none
    else
      match parseString n rest with
      | some (s, rest1) => some (c :: s, rest1)
      | none => none

/-- Characters a number literal is made of. -/
def isNumChar (c : Char) : Bool :=
  c.isDigit ∨ c = '-' ∨ c = '+' ∨ c = '.' ∨ c = 'e' ∨ c = 'E'

/-- One or more digits and nothing else. -/
def isDigits (ds : List Char) : Bool := ds ≠ [] ∧ ds.all Char.isDigit

/-- Exponent part of a number literal, or nothing. -/
def isExponentOpt : List Char → Bool
  | [] => true
  | e :: rest =>
    if e = 'e' ∨ e = 'E' then
      match rest with
      | [] => false
      | s :: ds => if s = '+' ∨ s = '-' then isDigits ds else isDigits (s :: ds)
    else false

/-- Fraction and exponent parts of a number literal, or nothing. -/
def isFractionOpt : List Char → Bool
  | '.' :: d :: rest => if d.isDigit then isExponentOpt (rest.dropWhile Char.isDigit) else false
  | rest => isExponentOpt rest

/-- A number literal without sign: `(0 | [1-9][0-9]*) (. [0-9]+)? ([eE] [+-]? [0-9]+)?`. -/
def isUnsignedLiteral : List Char → Bool
  | [] => false
  | d :: rest =>
    if d = '0' then isFractionOpt rest
    else if d.isDigit then isFractionOpt (rest.dropWhile Char.isDigit)
    else false

/-- The JSON number grammar: an optional minus sign and an unsigned literal. -/
def isNumberLiteral : List Char → Bool
  | '-' :: t => isUnsignedLiteral t
  | t => isUnsignedLiteral t

/-- Strict order of map keys, as `strings.Compare` orders them. -/
def keyLt : List Char → List Char → Bool
  | [], [] => false
  | [], _ :: _ => true
  | _ :: _, [] => false
  | a :: as, b :: bs => a.toNat < b.toNat ∨ (a = b ∧ keyLt as bs)

/-- The map `ms`, built from the members that follow in the text, with the entry `k ↦ v`
of an earlier member: a later member with the same key overrides it. -/
def putMember {F : Type} (k : List Char) (v : Value F) :
    List (List Char × Value F) → List (List Char × Value F)
  | [] => [(k, v)]
  | (k1, v1) :: ms =>
    if keyLt k k1 then (k, v) :: (k1, v1) :: ms
    else if k = k1 then (k1, v1) :: ms
    else (k1, v1) :: putMember k v ms

mutual
/-- One JSON value at the head of the input (white space already skipped) and the input
after it: the syntax tree of the value, its number literals passed through `num`, the
members of an object in the order of the text. The first number argument bounds the number
of nested calls. -/
def parseValue {F : Type} (num : List Char → Option F) :
    Nat → List Char → Option (Value F × List Char)
  | 0, _ => none
  | _ + 1, [] => none
  | n + 1, c :: rest =>
    if c = '{' then
      match skipWS rest with
      | [] => none
      | c1 :: rest1 =>
        if c1 = '}' then some (.obj [], rest1)
        else
          match parseMembers num n (c1 :: rest1) with
          | some (ms, rest2) => some (.obj ms, rest2)
          | none => none
    else if c = '[' then
      match skipWS rest with
      | [] => none
      | c1 :: rest1 =>
        if c1 = ']' then some (.arr [], rest1)
        else
          match parseElems num n (c1 :: rest1) with
          | some (xs, rest2) => some (.arr xs, rest2)
          | none => none
    else if c = '"' then
      match parseString (rest.length + 1) rest with
      | some (s, rest1) => some (.str s, rest1)
      | none => none
    else if ['t', 'r', 'u', 'e'].isPrefixOf (c :: rest) then some (.bool true, rest.drop 3)
    else if ['f', 'a', 'l', 's', 'e'].isPrefixOf (c :: rest) then
      some (.bool false, rest.drop 4)
    else if ['n', 'u', 'l', 'l'].isPrefixOf (c :: rest) then some (.null, rest.drop 3)
    else if c = '-' ∨ c.isDigit then
      let lit := (c :: rest).takeWhile isNumChar
      if isNumberLiteral lit then
        match num lit with
        | some f => some (.num f, (c :: rest).dropWhile isNumChar)
        | none => none
      else none
    else none
/-- The elements of a non-empty array up to and with its closing bracket. -/
def parseElems {F : Type} (num : List Char → Option F) :
    Nat → List Char → Option (List (Value F) × List Char)
  | 0, _ => none
  | n + 1, cs =>
    match parseValue num n cs with
    | none => none
    | some (v, rest) =>
      match skipWS rest with
      | [] => none
      | c :: rest1 =>
        if c = ',' then
          match parseElems num n (skipWS rest1) with
          | some (vs, rest2) => some (v :: vs, rest2)
          | none => none
        else if c = ']' then some ([v], rest1)
        else none
/-- The members of a non-empty object up to and with its closing brace. -/
def parseMembers {F : Type} (num : List Char → Option F) :
    Nat → List Char → Option (List (List Char × Value F) × List Char)
  | 0, _ => none
  | _ + 1, [] => none
  | n + 1, q :: rest =>
    if q = '"' then
      match parseString (rest.length + 1) rest with
      | none => none
      | some (k, rest1) =>
        match skipWS rest1 with
        | [] => none
        | c :: rest2 =>
          if c = ':' then
            match parseValue num n (skipWS rest2) with
            | none => none
            | some (v, rest3) =>
              match skipWS rest3 with
              | [] => none
              | c1 :: rest4 =>
                if c1 = ',' then
                  match parseMembers num n (skipWS rest4) with
                  | some (ms, rest5) => some ((k, v) :: ms, rest5)
                  | none => none
                else if c1 = '}' then some ([(k, v)], rest4)
                else none
          else none
    else none
end

/-- A whole JSON document by the grammar alone: one value with optional white space around
it. The scanner's limit on nesting is not applied here but by `checkValid`, on the tree
this function returns. The bound on nested calls, twice the length of the input plus two,
only makes the recursion structural: no parse needs more
(`parseDocument_of_parseValue`). -/
def parseDocument {F : Type} (num : List Char → Option F) (data : List Char) :
    Option (Value F) :=
  match parseValue num (2 * data.length + 2) (skipWS data) with
  | some (v, rest) => if skipWS rest = [] then some v else none
  | none => none

mutual
/-- The number of arrays and objects open at the deepest point of a value: the height the
scanner's `parseState` stack reaches while it reads the value. -/
def Value.depth {F : Type} : Value F → Nat
  | .arr xs => elemsDepth xs + 1
  | .obj ms => membersDepth ms + 1
  | _ => 0
/-- The greatest depth among the elements. -/
def elemsDepth {F : Type} : List (Value F) → Nat
  | [] => 0
  | x :: xs => max x.depth (elemsDepth xs)
/-- The greatest depth among the member values. -/
def membersDepth {F : Type} : List (List Char × Value F) → Nat
  | [] => 0
  | (_, v) :: ms => max v.depth (membersDepth ms)
end

/-- The scanner's `maxNestingDepth`. -/
def maxNestingDepth : Nat := 10000

mutual
/-- The Go value the decoder stores in an `interface{}` for a scanned value
(`valueInterface`): number literals converted by `convertNumber`, objects turned into
maps, where a later member overrides an earlier one with the same key. `none` when some
number literal has no float64 value. -/
def decodeValue {F : Type} (C : FloatCodec F) : Value (List Char) → Option (Value F)
  | .null => some .null
  | .bool b => some (.bool b)
  | .num lit =>
    match C.parse lit with
    | some f => some (.num f)
    | none => none
  | .str s => some (.str s)
  | .arr xs =>
    match decodeElems C xs with
    | some ys => some (.arr ys)
    | none => none
  | .obj ms =>
    match decodeMembers C ms with
    | some entries => some (.obj entries)
    | none => none
/-- The decoded elements of an array. -/
def decodeElems {F : Type} (C : FloatCodec F) : List (Value (List Char)) → Option (List (Value F))
  | [] => some []
  | x :: xs =>
    match decodeValue C x, decodeElems C xs with
    | some y, some ys => some (y :: ys)
    | _, _ => none
/-- The map built from the members of an object. -/
def decodeMembers {F : Type} (C : FloatCodec F) :
    List (List Char × Value (List Char)) → Option (List (List Char × Value F))
  | [] => some []
  | (k, v) :: ms =>
    match decodeValue C v, decodeMembers C ms with
    | some y, some entries => some (putMember k y entries)
    | _, _ => none
end

/-- Go `checkValid(data, &d.scan)`, the scanner's pass over the whole input: the syntax
tree of the document, or `none` where the scanner reports a `SyntaxError`, on text that is
not a JSON document and on a document whose arrays and objects are nested deeper than
`maxNestingDepth`. -/
def checkValid (data : List Char) : Option (Value (List Char)) :=
  match parseDocument (fun lit => some lit) data with
  | none => none
  | some tree => if maxNestingDepth < tree.depth then none else some tree

/-- Go `json.Unmarshal(data, &m)` for `var m map[string]interface{}` (initially nil).
First `checkValid`; then the document is stored into the map: an object fills it, `null`
leaves it nil, a value of another kind is a type error, and so is a number literal inside
the object that has no float64 value. -/
def Unmarshal {F : Type} (C : FloatCodec F) (data : List Char) :
    Except JsonError (GoMap F) :=
  match checkValid data with
  | none => .error .malformed
  | some tree =>
    match tree with
    | .null => .ok .nil
    | .obj ms =>
      match decodeMembers C ms with
      | some entries => .ok (.mk entries)
      | none => .error .numberRange
    | .bool _ => .error (.cannotUnmarshal "bool")
    | .num _ => .error (.cannotUnmarshal "number")
    | .str _ => .error (.cannotUnmarshal "string")
    | .arr _ => .error (.cannotUnmarshal "array")

/-- Digits of `n`, most significant first, put in front of `acc`. -/
def intDigits : Nat → Nat → List Char → List Char
  | 0, _, acc => acc
  | fuel + 1, n, acc =>
    if n / 10 = 0 then Char.ofNat (48 + n % 10) :: acc
    else intDigits fuel (n / 10) (Char.ofNat (48 + n % 10) :: acc)

/-- Decimal numeral of a natural number. -/
def natToText (n : Nat) : List Char := intDigits (n + 1) n []

/-- Value of a decimal numeral. -/
def textToNat (ds : List Char) : Nat := ds.foldl (fun acc c => acc * 10 + (c.toNat - 48)) 0

/-- A codec for running the model on concrete documents: integers written in plain
decimal. Number literals with a fraction or an exponent are outside it. -/
def intCodec : FloatCodec Int where
  parse := fun lit =>
    match lit with
    | '-' :: ds => if isDigits ds then some (-(textToNat ds : Int)) else none
    | ds => if isDigits ds then some (textToNat ds : Int) else none
  format := fun n => some (if n < 0 then '-' :: natToText n.natAbs else natToText n.toNat)

end Json

/-! ## `encoding/base64` and UTF-8 -/

namespace Base64

/-- The standard alphabet `A–Z a–z 0–9 + /`. -/
def alphabetChar (n : Nat) : Char :=
  if n < 26 then Char.ofNat (65 + n)
  else if n < 52 then Char.ofNat (71 + n)
  else if n < 62 then Char.ofNat (n - 4)
  else if n = 62 then '+'
  else '/'

/-- Go `base64.StdEncoding.EncodeToString`: standard alphabet, `=` padding, no line
breaks. Bytes are numbers below 256. -/
def EncodeToString : List Nat → List Char
  | [] => []
  | [a] => [alphabetChar (a / 4), alphabetChar (a % 4 * 16), '=', '=']
  | [a, b] =>
    [alphabetChar (a / 4), alphabetChar (a % 4 * 16 + b / 16), alphabetChar (b % 16 * 4), '=']
  | a :: b :: c :: rest =>
    alphabetChar (a / 4) :: alphabetChar (a % 4 * 16 + b / 16) ::
      alphabetChar (b % 16 * 4 + c / 64) :: alphabetChar (c % 64) :: EncodeToString rest

/-- Index of a character in the standard alphabet. -/
def alphabetVal (c : Char) : Option Nat :=
  let n := c.toNat
  if 65 ≤ n ∧ n ≤ 90 then some (n - 65)
  else if 97 ≤ n ∧ n ≤ 122 then some (n - 71)
  else if 48 ≤ n ∧ n ≤ 57 then some (n + 4)
  else if c = '+' then some 62
  else if c = '/' then some 63
  else none

/-- Decoding of padded standard base64 text (`b64decode`, `Buffer.from(.., 'base64')`). -/
def DecodeString : List Char → Option (List Nat)
  | [] => some []
  | a :: b :: c :: d :: rest =>
    match alphabetVal a, alphabetVal b with
    | some x, some y =>
      if d = '=' ∧ rest = [] then
        if c = '=' then some [x * 4 + y / 16]
        else
          match alphabetVal c with
          | some z => some [x * 4 + y / 16, y % 16 * 16 + z / 4]
          | none => none
      else
        match alphabetVal c, alphabetVal d, DecodeString rest with
        | some z, some w, some bs =>
          some ((x * 4 + y / 16) :: (y % 16 * 16 + z / 4) :: (z % 4 * 64 + w) :: bs)
        | _, _, _ => none
    | _, _ => none
  | _ => none

end Base64

namespace Utf8

/-- The UTF-8 bytes of one character. -/
def encodeChar (c : Char) : List Nat :=
  let n := c.toNat
  if n < 0x80 then [n]
  else if n < 0x800 then [0xC0 + n / 64, 0x80 + n % 64]
  else if n < 0x10000 then [0xE0 + n / 4096, 0x80 + n / 64 % 64, 0x80 + n % 64]
  else [0xF0 + n / 262144, 0x80 + n / 4096 % 64, 0x80 + n / 64 % 64, 0x80 + n % 64]

/-- The bytes of a text (`[]byte(s)`). -/
def encode (s : List Char) : List Nat := s.flatMap encodeChar

/-- A continuation byte `10xxxxxx`. -/
def isCont (b : Nat) : Bool := 0x80 ≤ b ∧ b < 0xC0

/-- The character that starts with byte `b0` and continues in `rest`, and the number of
continuation bytes it takes; `none` when the sequence is ill-formed (a stray continuation
byte, a truncated or overlong sequence, a surrogate, a value past U+10FFFF). -/
def decodeFirst (b0 : Nat) (rest : List Nat) : Option (Char × Nat) :=
  if b0 < 0x80 then some (Char.ofNat b0, 0)
  else if b0 < 0xC0 then none
  else if b0 < 0xE0 then
    match rest with
    | b1 :: _ =>
      if isCont b1 ∧ 0x80 ≤ (b0 - 0xC0) * 64 + (b1 - 0x80) then
        some (Char.ofNat ((b0 - 0xC0) * 64 + (b1 - 0x80)), 1)
      else none
    | _ => none
  else if b0 < 0xF0 then
    match rest with
    | b1 :: b2 :: _ =>
      if isCont b1 ∧ isCont b2 ∧ 0x800 ≤ (b0 - 0xE0) * 4096 + (b1 - 0x80) * 64 + (b2 - 0x80) ∧
          ((b0 - 0xE0) * 4096 + (b1 - 0x80) * 64 + (b2 - 0x80)).isValidChar then
        some (Char.ofNat ((b0 - 0xE0) * 4096 + (b1 - 0x80) * 64 + (b2 - 0x80)), 2)
      else none
    | _ => none
  else if b0 < 0xF8 then
    match rest with
    | b1 :: b2 :: b3 :: _ =>
      if isCont b1 ∧ isCont b2 ∧ isCont b3 ∧
          0x10000 ≤ (b0 - 0xF0) * 262144 + (b1 - 0x80) * 4096 + (b2 - 0x80) * 64 + (b3 - 0x80) ∧
          ((b0 - 0xF0) * 262144 + (b1 - 0x80) * 4096 + (b2 - 0x80) * 64 +
            (b3 - 0x80)).isValidChar then
        some (Char.ofNat
          ((b0 - 0xF0) * 262144 + (b1 - 0x80) * 4096 + (b2 - 0x80) * 64 + (b3 - 0x80)), 3)
      else none
    | _ => none
  else none

/-- Decoding with `skip` continuation bytes of the current character still to pass. -/
def decodeGo : Nat → List Nat → Option (List Char)
  | _, [] => some []
  | k + 1, _ :: rest => decodeGo k rest
  | 0, b0 :: rest =>
    match decodeFirst b0 rest with
    | none => none
    | some (c, k) =>
      match decodeGo k rest with
      | some s => some (c :: s)
      | none => none

/-- The text of a UTF-8 byte sequence (`.decode('utf-8')`); `none` on ill-formed input. -/
def decode (bytes : List Nat) : Option (List Char) := decodeGo 0 bytes

end Utf8

/-! ## `coderuntime`: template transformers -/

/-- The implementations of `TemplateTransformer`. -/
inductive Transformer where
  | python3
  | javascript
  deriving DecidableEq, Repr

/-- `NewBaseTemplateTransformer`: `CodePlaceholder`. -/
def CodePlaceholder : List Char := "{{code}}".toList

/-- `NewBaseTemplateTransformer`: `InputsPlaceholder`. -/
def InputsPlaceholder : List Char := "{{inputs}}".toList

/-- `(*Python3TemplateTransformer).GetRunnerScript`, line by line. -/
def python3RunnerScript : List Char :=
  ("\n" ++
   "# declare main function\n" ++
   "{{code}}\n" ++
   "\n" ++
   "import json\n" ++
   "from base64 import b64decode\n" ++
   "\n" ++
   "# decode and prepare input dict\n" ++
   "inputs_obj = json.loads(b64decode('{{inputs}}').decode('utf-8'))\n" ++
   "\n" ++
   "# execute main function\n" ++
   "output_obj = main(**inputs_obj)\n" ++
   "\n" ++
   "# convert output to json and print\n" ++
   "output_json = json.dumps(output_obj, indent=4)\n" ++
   "result = f'''<<RESULT>>{output_json}<<RESULT>>'''\n" ++
   "print(result)\n" ++
   "\t").toList

/-- `(*JavaScriptTemplateTransformer).GetRunnerScript`, line by line. -/
def javascriptRunnerScript : List Char :=
  ("\n" ++
   "// declare main function\n" ++
   "{{code}}\n" ++
   "\n" ++
   "// decode and prepare input object\n" ++
   "const inputs_obj = JSON.parse(Buffer.from('{{inputs}}', 'base64').toString('utf-8'))\n" ++
   "\n" ++
   "// execute main function\n" ++
   "const output_obj = main(inputs_obj)\n" ++
   "\n" ++
   "// convert output to json and print\n" ++
   "const output_json = JSON.stringify(output_obj, null, 4)\n" ++
   "const result = '<<RESULT>>' + output_json + '<<RESULT>>'\n" ++
   "console.log(result)\n" ++
   "\t").toList

/-- `GetRunnerScript` of the transformer behind the interface. -/
def Transformer.GetRunnerScript : Transformer → List Char
  | .python3 => python3RunnerScript
  | .javascript => javascriptRunnerScript

/-- `(*BaseTemplateTransformer).GetPreloadScript`; no variant overrides it. -/
def GetPreloadScript : List Char := []

/-- The text `TransformCaller` substitutes for the inputs placeholder: the inputs encoded
by an `Encoder` with HTML escaping off, white space trimmed, in base64. The `json.Marshal`
call before it only decides whether the function fails. -/
def inputsBase64 {F : Type} (C : Json.FloatCodec F) (inputs : Json.GoMap F) :
    Except GoError (List Char) :=
  match Json.Marshal C inputs with
  | .error err => .error err
  | .ok _ =>
    match Json.EncoderEncode C false inputs with
    | .error err => .error err
    | .ok buf =>
      let inputsJSON := Strings.TrimSpace buf
      .ok (Base64.EncodeToString (Utf8.encode inputsJSON))

/-- `(*BaseTemplateTransformer).TransformCaller`: the runner script with the code and the
encoded inputs substituted, and the preload script. -/
def TransformCaller {F : Type} (C : Json.FloatCodec F) (t : Transformer) (code : List Char)
    (inputs : Json.GoMap F) : Except GoError (List Char × List Char) :=
  match inputsBase64 C inputs with
  | .error err => .error err
  | .ok b64 =>
    let runnerScript := t.GetRunnerScript
    let runnerScript := Strings.ReplaceAll runnerScript CodePlaceholder code
    let runnerScript := Strings.ReplaceAll runnerScript InputsPlaceholder b64
    let preloadScript := GetPreloadScript
    .ok (runnerScript, preloadScript)

/-! ## `coderuntime`: result extraction and sandbox execution -/

/-- `ExtractResult`: the text between the first and the last result tag, decoded as a JSON
object and re-encoded with four-space indentation. -/
def ExtractResult {F : Type} (C : Json.FloatCodec F) (response : List Char) :
    Go (Except GoError (List Char)) :=
  let resultTag := "<<RESULT>>".toList
  let startIndex := Strings.Index response resultTag + (resultTag.length : Int)
  let endIndex := Strings.LastIndex response resultTag
  if startIndex = -1 ∨ endIndex = -1 then
    .ret (.error (.text "invalid result format".toList))
  else
    (Strings.slice response startIndex endIndex).bind fun jsonStr =>
      match Json.Unmarshal C jsonStr with
      | .error err => .ret (.error (.wrapped "failed to parse JSON: ".toList (.json err)))
      | .ok result =>
        match Json.MarshalIndent C result [] "    ".toList with
        | .error err => .ret (.error (.wrapped "failed to format JSON: ".toList err))
        | .ok prettyJSON => .ret (.ok prettyJSON)

/-- `SandboxRequest`. -/
structure SandboxRequest where
  Language : List Char
  Code : List Char
  Preload : List Char
  EnableNetwork : Bool
  deriving DecidableEq, Repr

/-- `ExecutionResult`; `Error` is `none` for Go's nil. -/
structure ExecutionResult where
  StatusCode : Int
  Body : List Char
  Error : Option GoError
  deriving DecidableEq, Repr

/-- The envelope `ExecuteCode` decodes a 200 response into:
`{code, message, data: {error, stdout}}`. -/
structure SandboxEnvelope where
  Code : Int
  Message : List Char
  DataError : List Char
  DataStdout : List Char
  deriving DecidableEq, Repr

/-- What one HTTP exchange with the sandbox comes to. -/
inductive HttpOutcome where
  /-- `http.NewRequest` fails. -/
  | requestError
  /-- `client.Do` fails (connection error, the 10 s timeout). -/
  | sendError
  /-- `io.ReadAll` of the body fails. -/
  | readError
  /-- A response with its status code and body. -/
  | response (status : Int) (body : List Char)
  deriving DecidableEq, Repr

/-- `GenerateCodeRequest`, without the constant completion parameters. -/
structure GenerateCodeRequest where
  Instruction : List Char
  CodeLanguage : List Char
  NoVariable : Bool
  Provider : List Char
  Name : List Char
  Mode : List Char
  deriving DecidableEq, Repr

/-- `GenerateCodeResponse`. -/
structure GenerateCodeResponse where
  Code : List Char
  Error : List Char
  Language : List Char
  deriving DecidableEq, Repr

/-- Everything the program reads from outside itself: environment variables, the code
generation service, the sandbox service, and the decoding of the sandbox's envelope
(`json.Unmarshal` into the anonymous struct of `ExecuteCode`). -/
structure World where
  apiKey : List Char
  endpoint : List Char
  modelProvider : List Char
  modelName : List Char
  accessToken : List Char
  generate : GenerateCodeRequest → List Char → Except GoError GenerateCodeResponse
  post : List Char → List Char → SandboxRequest → HttpOutcome
  decodeEnvelope : List Char → Except JsonError SandboxEnvelope

/-- The `switch request.Language` of `ExecuteCode`: the transformer for a language name,
`none` in the default case. -/
def selectTransformer (language : List Char) : Option Transformer :=
  if language = "python3".toList then some .python3
  else if language = "javascript".toList then some .javascript
  else none

/-- `ExecuteCode`: both results of the Go function, the `ExecutionResult` and the `error`
(`none` for nil). -/
def ExecuteCode {F : Type} (C : Json.FloatCodec F) (w : World) (request : SandboxRequest)
    (inputs : Json.GoMap F) : Go (ExecutionResult × Option GoError) :=
  let apiKey := w.apiKey
  let endpoint := w.endpoint
  if apiKey = [] ∨ endpoint = [] then
    .ret (⟨0, [], none⟩, some (.text "missing required environment variables".toList))
  else
    match selectTransformer request.Language with
    | none =>
      .ret (⟨0, [], none⟩, some (.text ("unsupported language: ".toList ++ request.Language)))
    | some transformer =>
      match TransformCaller C transformer request.Code inputs with
      | .error err =>
        .ret (⟨0, [], none⟩, some (.wrapped "failed to transform code: ".toList err))
      | .ok (finalCode, preload) =>
        let execRequest : SandboxRequest :=
          { Language := request.Language, Code := finalCode, Preload := preload,
            EnableNetwork := request.EnableNetwork }
        let url := endpoint ++ "/v1/sandbox/run".toList
        match w.post url apiKey execRequest with
        | .requestError =>
          .ret (⟨0, [], none⟩,
            some (.wrapped "failed to create request: ".toList (.transport "request")))
        | .sendError =>
          .ret (⟨0, [], none⟩,
            some (.wrapped "failed to send request: ".toList (.transport "send")))
        | .readError =>
          .ret (⟨0, [], none⟩,
            some (.wrapped "failed to read response: ".toList (.transport "read")))
        | .response status body =>
          let result : ExecutionResult := { StatusCode := status, Body := body, Error := none }
          if status = 200 then
            match w.decodeEnvelope body with
            | .error err =>
              .ret (result, some (.wrapped "failed to parse response: ".toList (.json err)))
            | .ok response =>
              if response.DataError ≠ [] then
                .ret ({ result with
                  Error := some (.text ("execution error: ".toList ++ response.DataError)) },
                  none)
              else
                (ExtractResult C response.DataStdout).bind fun extracted =>
                  match extracted with
                  | .error err =>
                    .ret ({ result with
                      Error := some (.wrapped "failed to process result: ".toList err) }, none)
                  | .ok prettyResult => .ret ({ result with Body := prettyResult }, none)
          else .ret (result, none)

/-! ## `testdata`: test cases, results, metrics -/

/-- `TestCase`. -/
structure TestCase (F : Type) where
  Name : List Char
  Inputs : Json.GoMap F
  Instruction : List Char
  CodeLanguage : List Char
  GroundTruth : List Char

/-- `TestResult`; `Error` is `none` for Go's nil. -/
structure TestResult (F : Type) where
  TestCase : TestCase F
  Success : Bool
  ActualValue : List Char
  Error : Option GoError

/-- `TestMetrics`; times are readings of the clock. -/
structure TestMetrics (F : Type) where
  TotalTests : Nat
  SuccessfulTests : Nat
  FailedTests : Nat
  StartTime : Nat
  EndTime : Nat
  Results : List (TestResult F)

/-- `NewTestMetrics`, called when the clock reads `now`. -/
def NewTestMetrics (F : Type) (now : Nat) : TestMetrics F :=
  { TotalTests := 0, SuccessfulTests := 0, FailedTests := 0, StartTime := now, EndTime := 0,
    Results := [] }

/-- `(*TestMetrics).AddResult`. -/
def TestMetrics.AddResult {F : Type} (m : TestMetrics F) (result : TestResult F) :
    TestMetrics F :=
  let m := { m with TotalTests := m.TotalTests + 1 }
  let m :=
    if result.Success then { m with SuccessfulTests := m.SuccessfulTests + 1 }
    else { m with FailedTests := m.FailedTests + 1 }
  { m with Results := m.Results ++ [result] }

/-- `(*TestMetrics).Finish`, called when the clock reads `now`. -/
def TestMetrics.Finish {F : Type} (m : TestMetrics F) (now : Nat) : TestMetrics F :=
  { m with EndTime := now }

/-! ## `cmd/main.go`: the evaluation loop -/

/-- The comparison step at the end of the loop body: both texts with spaces and newlines
replaced by nothing, compared for equality. -/
def compareResult {F : Type} (tc : TestCase F) (result : ExecutionResult) : TestResult F :=
  let normalizedResult :=
    Strings.ReplaceAll (Strings.ReplaceAll result.Body [' '] []) ['\n'] []
  let normalizedTruth :=
    Strings.ReplaceAll (Strings.ReplaceAll tc.GroundTruth [' '] []) ['\n'] []
  { TestCase := tc, Success := decide (normalizedResult = normalizedTruth),
    ActualValue := result.Body, Error := none }

/-- The `codegenRequest` the loop builds for a test case. -/
def codegenRequestFor {F : Type} (w : World) (tc : TestCase F) : GenerateCodeRequest :=
  { Instruction := tc.Instruction, CodeLanguage := tc.CodeLanguage, NoVariable := false,
    Provider := w.modelProvider, Name := w.modelName, Mode := "chat".toList }

/-- The `request` the loop builds from the generated code: `python` becomes `python3`. -/
def sandboxRequestFor (generatedCode : GenerateCodeResponse) : SandboxRequest :=
  let language :=
    if generatedCode.Language = "python".toList then generatedCode.Language ++ "3".toList
    else generatedCode.Language
  { Language := language, Code := generatedCode.Code, Preload := [], EnableNetwork := true }

/-- The body of the loop of `main` for one test case: the `TestResult` it passes to
`AddResult`. The `error` returned by `ExecuteCode` is assigned and not read. -/
def evaluateCase {F : Type} (C : Json.FloatCodec F) (w : World) (tc : TestCase F) :
    Go (TestResult F) :=
  match w.generate (codegenRequestFor w tc) w.accessToken with
  | .error err => .ret { TestCase := tc, Success := false, ActualValue := [], Error := some err }
  | .ok generatedCode =>
    let request := sandboxRequestFor generatedCode
    (ExecuteCode C w request tc.Inputs).bind fun (result, _) =>
      match result.Error with
      | some err =>
        .ret { TestCase := tc, Success := false, ActualValue := [], Error := some err }
      | none => .ret (compareResult tc result)

/-- The loop of `main` over the test cases, from the metrics so far. -/
def evaluateAll {F : Type} (C : Json.FloatCodec F) (w : World) :
    List (TestCase F) → TestMetrics F → Go (TestMetrics F)
  | [], metrics => .ret metrics
  | tc :: rest, metrics =>
    (evaluateCase C w tc).bind fun result => evaluateAll C w rest (metrics.AddResult result)

/-! ## Occurrences of a token -/

namespace Strings

/-- `old` and `b` differ at a position both have. -/
def clash : List Char → List Char → Bool
  | x :: xs, y :: ys => x != y || clash xs ys
  | _, _ => false

/-- No occurrence of `old` starts inside `a`, whatever text follows `a`. -/
def noStartIn (old : List Char) : List Char → Bool
  | [] => true
  | c :: a => clash old (c :: a) && noStartIn old a

/-- No occurrence of `old` in `a ++ s` starts inside `a`. -/
def NoStart (old : List Char) : List Char → List Char → Prop
  | [], _ => True
  | c :: a, s => old.isPrefixOf (c :: a ++ s) = false ∧ NoStart old a s

end Strings

/-! ## The comparison policy in the words of the specification -/

/-- A text with every space and every newline character deleted. -/
def deleteSpacesAndNewlines (s : List Char) : List Char :=
  s.filter (fun c => c != ' ' && c != '\n')

/-! ## Concrete worlds and test cases -/

namespace Example

/-- The member of an object that the decoder stores for a field: the last one with the
field's name. -/
def member (name : String) : List (List Char × Json.Value Int) → Option (Json.Value Int)
  | [] => none
  | (k, v) :: ms =>
    match member name ms with
    | some x => some x
    | none => if k = name.toList then some v else none

/-- A field of type `string`: an absent member and `null` leave it empty. -/
def stringField : Option (Json.Value Int) → Option (List Char)
  | none => some []
  | some .null => some []
  | some (.str s) => some s
  | some _ => none

/-- A field of type `int`: an absent member and `null` leave it zero. -/
def intField : Option (Json.Value Int) → Option Int
  | none => some 0
  | some .null => some 0
  | some (.num n) => some n
  | some _ => none

/-- The fields `error` and `stdout` of the member `data`. -/
def dataField : Option (Json.Value Int) → Option (List Char × List Char)
  | none => some ([], [])
  | some .null => some ([], [])
  | some (.obj ds) =>
    match stringField (member "error" ds), stringField (member "stdout" ds) with
    | some e, some o => some (e, o)
    | _, _ => none
  | some _ => none

/-- The decoding of a response body into the envelope of `ExecuteCode`
(`{code, message, data: {error, stdout}}`), for documents whose member names are written
as the field tags are: members of other names are skipped, a member of the wrong kind is
an error. -/
def decodeEnvelope (body : List Char) : Except JsonError SandboxEnvelope :=
  match Json.parseDocument Json.intCodec.parse body with
  | none => .error .malformed
  | some .null => .ok ⟨0, [], [], []⟩
  | some (.obj ms) =>
    match intField (member "code" ms), stringField (member "message" ms),
      dataField (member "data" ms) with
    | some code, some message, some (e, o) => .ok ⟨code, message, e, o⟩
    | _, _, _ => .error (.cannotUnmarshal "field")
  | some _ => .error (.cannotUnmarshal "value")

/-- The body of a sandbox response that reports the given `data.error` and
`data.stdout`. -/
def envelopeText (error stdout : String) : List Char :=
  "\x7b\"code\":0,\"message\":\"success\",\"data\":\x7b\"error\":".toList ++
    Json.encodeString false error.toList ++ ",\"stdout\":".toList ++
    Json.encodeString false stdout.toList ++ "\x7d\x7d".toList

/-- A world with the configuration present, a generator that answers with code in the
given language, and a sandbox that answers 200 with a body that reports the given
`data.error` and `data.stdout`. -/
def world (language error stdout : String) : World where
  apiKey := "key".toList
  endpoint := "http://sandbox".toList
  modelProvider := "provider".toList
  modelName := "model".toList
  accessToken := "token".toList
  generate := fun _ _ => .ok ⟨"def main(a, b): return a + b".toList, [], language.toList⟩
  post := fun _ _ _ => .response 200 (envelopeText error stdout)
  decodeEnvelope := decodeEnvelope

/-- The test case `add` with inputs `{a: 1, b: 2}` and the given ground truth. -/
def addCase (groundTruth : String) : TestCase Int where
  Name := "add".toList
  Inputs := .mk [("a".toList, .num 1), ("b".toList, .num 2)]
  Instruction := "add two numbers".toList
  CodeLanguage := "python".toList
  GroundTruth := groundTruth.toList

end Example

/-! ## The runner scripts around their placeholders -/

/-- The part of the runner script before `{{code}}`. -/
def Transformer.scriptPre : Transformer → List Char
  | .python3 => "\n# declare main function\n".toList
  | .javascript => "\n// declare main function\n".toList

/-- The part of the runner script between `{{code}}` and `{{inputs}}`. -/
def Transformer.scriptMid : Transformer → List Char
  | .python3 =>
    ("\n\nimport json\nfrom base64 import b64decode\n\n# decode and prepare input dict\n" ++
      "inputs_obj = json.loads(b64decode('").toList
  | .javascript =>
    ("\n\n// decode and prepare input object\n" ++
      "const inputs_obj = JSON.parse(Buffer.from('").toList

/-- The part of the runner script after `{{inputs}}`. -/
def Transformer.scriptPost : Transformer → List Char
  | .python3 =>
    ("').decode('utf-8'))\n\n# execute main function\noutput_obj = main(**inputs_obj)\n\n" ++
      "# convert output to json and print\noutput_json = json.dumps(output_obj, indent=4)\n" ++
      "result = f'''<<RESULT>>{output_json}<<RESULT>>'''\nprint(result)\n\t").toList
  | .javascript =>
    ("', 'base64').toString('utf-8'))\n\n// execute main function\n" ++
      "const output_obj = main(inputs_obj)\n\n// convert output to json and print\n" ++
      "const output_json = JSON.stringify(output_obj, null, 4)\n" ++
      "const result = '<<RESULT>>' + output_json + '<<RESULT>>'\nconsole.log(result)\n\t").toList

/-! ## Well-formedness conditions of the JSON development -/

namespace Json

/-- What `encoding/json` relies on from `strconv`: the text of a float is a JSON number
literal that parses back to the same float (shortest round-trip formatting), and every
float that comes out of parsing is finite, so has a text. -/
structure FloatCodec.Lawful {F : Type} (C : FloatCodec F) : Prop where
  format_literal : ∀ f s, C.format f = some s → isNumberLiteral s = true
  parse_format : ∀ f s, C.format f = some s → C.parse s = some f
  format_of_parse : ∀ lit f, C.parse lit = some f → (C.format f).isSome = true

/-- A layout that only inserts white space. -/
structure Layout.Valid (lay : Layout) : Prop where
  lineBreak_ws : ∀ d, ∀ c ∈ lay.lineBreak d, isWS c = true
  colon_ws : ∃ ws, lay.colon = ':' :: ws ∧ ∀ c ∈ ws, isWS c = true

/-- The keys of the entries are strictly increasing: the representation of a Go map. -/
def membersIncreasing {α : Type} : List (List Char × α) → Bool
  | [] => true
  | [_] => true
  | (k1, _) :: (k2, v2) :: ms => keyLt k1 k2 && membersIncreasing ((k2, v2) :: ms)

mutual
/-- Every map inside the value has strictly increasing keys. -/
def Value.canonical {F : Type} : Value F → Bool
  | .arr xs => elemsCanonical xs
  | .obj ms => membersIncreasing ms && membersCanonical ms
  | _ => true
/-- All elements are canonical. -/
def elemsCanonical {F : Type} : List (Value F) → Bool
  | [] => true
  | x :: xs => x.canonical && elemsCanonical xs
/-- All member values are canonical. -/
def membersCanonical {F : Type} : List (List Char × Value F) → Bool
  | [] => true
  | (_, v) :: ms => v.canonical && membersCanonical ms
end

mutual
/-- Every float inside the value has a text. -/
def Value.encodable {F : Type} (C : FloatCodec F) : Value F → Bool
  | .num f => (C.format f).isSome
  | .arr xs => elemsEncodable C xs
  | .obj ms => membersEncodable C ms
  | _ => true
/-- All elements are encodable. -/
def elemsEncodable {F : Type} (C : FloatCodec F) : List (Value F) → Bool
  | [] => true
  | x :: xs => x.encodable C && elemsEncodable C xs
/-- All member values are encodable. -/
def membersEncodable {F : Type} (C : FloatCodec F) : List (List Char × Value F) → Bool
  | [] => true
  | (_, v) :: ms => v.encodable C && membersEncodable C ms
end

/-- A map whose entries, at every level, are in strictly increasing key order. -/
def GoMap.canonical {F : Type} (m : GoMap F) : Bool := m.toValue.canonical

mutual
/-- Nested calls the decoder makes for a value. -/
def Value.fuel {F : Type} : Value F → Nat
  | .arr xs => elemsFuel xs + 1
  | .obj ms => membersFuel ms + 1
  | _ => 1
/-- Nested calls the decoder makes for the elements of an array. -/
def elemsFuel {F : Type} : List (Value F) → Nat
  | [] => 0
  | x :: xs => x.fuel + elemsFuel xs + 1
/-- Nested calls the decoder makes for the members of an object. -/
def membersFuel {F : Type} : List (List Char × Value F) → Nat
  | [] => 0
  | (_, v) :: ms => v.fuel + membersFuel ms + 1
end

mutual
/-- A value with every float replaced by its image under `g`. -/
def Value.mapNum {F G : Type} (g : F → G) : Value F → Value G
  | .null => .null
  | .bool b => .bool b
  | .num f => .num (g f)
  | .str s => .str s
  | .arr xs => .arr (elemsMapNum g xs)
  | .obj ms => .obj (membersMapNum g ms)
/-- The elements with every float replaced. -/
def elemsMapNum {F G : Type} (g : F → G) : List (Value F) → List (Value G)
  | [] => []
  | x :: xs => x.mapNum g :: elemsMapNum g xs
/-- The members with every float replaced. -/
def membersMapNum {F G : Type} (g : F → G) :
    List (List Char × Value F) → List (List Char × Value G)
  | [] => []
  | (k, v) :: ms => (k, v.mapNum g) :: membersMapNum g ms
end

/-- The text the encoder writes for a float (empty for a float without encoding). -/
def FloatCodec.literal {F : Type} (C : FloatCodec F) (f : F) : List Char :=
  (C.format f).getD []

/-- The input after a number literal does not continue it. -/
def EndsNumber (rest : List Char) : Prop := ∀ c, rest.head? = some c → isNumChar c = false

/-- A character a JSON value can start with. -/
def isValueStart (c : Char) : Bool :=
  c = 'n' ∨ c = 't' ∨ c = 'f' ∨ c = '"' ∨ c = '[' ∨ c = '{' ∨ c = '-' ∨ c.isDigit

end Json

/-! ## The JSON grammar (RFC 8259), for stating which texts are JSON -/

namespace Json

/-- One item of the text of a string literal, between its quotes. -/
inductive StrItem where
  /-- A character written as it is. -/
  | plain (c : Char)
  /-- A backslash and one of `"`, `\`, `/`, `b`, `f`, `n`, `r`, `t`. -/
  | escape (c : Char)
  /-- The escape `\u` with four hexadecimal digits. -/
  | unicode (a b c d : Char)
  deriving DecidableEq, Repr

/-- The text of an item. -/
def StrItem.text : StrItem → List Char
  | .plain c => [c]
  | .escape c => ['\\', c]
  | .unicode a b c d => ['\\', 'u', a, b, c, d]

/-- An item the grammar allows: no raw quote, backslash or control character; a known
escape letter; hexadecimal digits. -/
def StrItem.wellFormed : StrItem → Bool
  | .plain c => c ≠ '"' ∧ c ≠ '\\' ∧ 0x20 ≤ c.toNat
  | .escape c =>
    c = '"' ∨ c = '\\' ∨ c = '/' ∨ c = 'b' ∨ c = 'f' ∨ c = 'n' ∨ c = 'r' ∨ c = 't'
  | .unicode a b c d =>
    (hexVal a).isSome ∧ (hexVal b).isSome ∧ (hexVal c).isSome ∧ (hexVal d).isSome

/-- The text of a string literal between its quotes. -/
def itemsText (items : List StrItem) : List Char := items.flatMap StrItem.text

/-- The number four hexadecimal digits stand for. -/
def hex4 (a b c d : Char) : Nat :=
  (((hexVal a).getD 0 * 16 + (hexVal b).getD 0) * 16 + (hexVal c).getD 0) * 16 +
    (hexVal d).getD 0

/-- The character a two-character escape stands for. -/
def escapeValue (c : Char) : Char :=
  if c = 'b' then '\x08'
  else if c = 'f' then '\x0c'
  else if c = 'n' then '\n'
  else if c = 'r' then '\r'
  else if c = 't' then '\t'
  else c

/-- The character of a surrogate pair: a high surrogate `rr` combined with the `\u` escape
of a low surrogate at the head of the items that follow, if there is one. -/
def surrogatePair (rr : Nat) : List StrItem → Option Char
  | .unicode a b c d :: _ =>
    if rr < 0xdc00 ∧ 0xdc00 ≤ hex4 a b c d ∧ hex4 a b c d < 0xe000 then
      some (Char.ofNat ((rr - 0xd800) * 0x400 + (hex4 a b c d - 0xdc00) + 0x10000))
    else none
  | _ => none

/-- The string the items stand for; with `skip` the first item is the second half of a
surrogate pair that has been read already. -/
def itemsValueGo : Bool → List StrItem → List Char
  | _, [] => []
  | true, _ :: t => itemsValueGo false t
  | false, .plain c :: t => c :: itemsValueGo false t
  | false, .escape c :: t => escapeValue c :: itemsValueGo false t
  | false, .unicode a b c d :: t =>
    if 0xd800 ≤ hex4 a b c d ∧ hex4 a b c d < 0xe000 then
      match surrogatePair (hex4 a b c d) t with
      | some pair => pair :: itemsValueGo true t
      | none => Char.ofNat 0xfffd :: itemsValueGo false t
    else Char.ofNat (hex4 a b c d) :: itemsValueGo false t

/-- The string a literal stands for. A `\u` escape of a high surrogate followed by one of
a low surrogate stands for the character of the pair; any other surrogate escape stands
for U+FFFD, as Go reads it. -/
def itemsValue (items : List StrItem) : List Char := itemsValueGo false items

/-- A JSON text as written: the grammar of RFC 8259, with the white space between tokens
and the spelling of strings and numbers. -/
inductive Doc where
  | null
  | bool (b : Bool)
  /-- A number literal. -/
  | num (lit : List Char)
  /-- A string literal. -/
  | str (items : List StrItem)
  /-- An array: the bracket, white space, the elements separated by commas, the closing
  bracket. -/
  | arr (ws : List Char) (elems : List Doc)
  /-- An object: the brace, white space, the members separated by commas, the closing
  brace. A member is white space, the key, white space, the colon and the value. -/
  | obj (ws : List Char) (members : List (List Char × List StrItem × List Char × Doc))
  /-- A value with white space before and after it. -/
  | pad (before : List Char) (value : Doc) (after : List Char)

mutual
/-- The text of a document. -/
def Doc.text : Doc → List Char
  | .null => ['n', 'u', 'l', 'l']
  | .bool b => if b then ['t', 'r', 'u', 'e'] else ['f', 'a', 'l', 's', 'e']
  | .num lit => lit
  | .str items => '"' :: itemsText items ++ ['"']
  | .arr ws elems => '[' :: ws ++ elemsText elems ++ [']']
  | .obj ws members => '{' :: ws ++ membersText members ++ ['}']
  | .pad before value after => before ++ value.text ++ after
/-- The text of the elements of an array. -/
def elemsText : List Doc → List Char
  | [] => []
  | e :: es =>
    match es with
    | [] => e.text
    | _ :: _ => e.text ++ ',' :: elemsText es
/-- The text of the members of an object. -/
def membersText : List (List Char × List StrItem × List Char × Doc) → List Char
  | [] => []
  | (before, key, after, value) :: ms =>
    match ms with
    | [] => before ++ '"' :: itemsText key ++ '"' :: after ++ ':' :: value.text
    | _ :: _ =>
      before ++ '"' :: itemsText key ++ '"' :: after ++ ':' :: value.text ++
        ',' :: membersText ms
end

mutual
/-- The grammar's side conditions: white space is white space, number literals follow the
number grammar, string items are well formed. -/
def Doc.wellFormed : Doc → Bool
  | .null => true
  | .bool _ => true
  | .num lit => isNumberLiteral lit
  | .str items => items.all StrItem.wellFormed
  | .arr ws elems => ws.all isWS && elemsWellFormed elems
  | .obj ws members => ws.all isWS && membersWellFormed members
  | .pad before value after => before.all isWS && value.wellFormed && after.all isWS
/-- All elements are well formed. -/
def elemsWellFormed : List Doc → Bool
  | [] => true
  | e :: es => e.wellFormed && elemsWellFormed es
/-- All members are well formed. -/
def membersWellFormed : List (List Char × List StrItem × List Char × Doc) → Bool
  | [] => true
  | (before, key, after, value) :: ms =>
    before.all isWS && key.all StrItem.wellFormed && after.all isWS && value.wellFormed &&
      membersWellFormed ms
end

mutual
/-- The syntax tree of a document: white space dropped, strings read, number literals
kept as written, members in the order of the text. -/
def Doc.tree : Doc → Value (List Char)
  | .null => .null
  | .bool b => .bool b
  | .num lit => .num lit
  | .str items => .str (itemsValue items)
  | .arr _ elems => .arr (elemsTree elems)
  | .obj _ members => .obj (membersTree members)
  | .pad _ value _ => value.tree
/-- The syntax trees of the elements. -/
def elemsTree : List Doc → List (Value (List Char))
  | [] => []
  | e :: es => e.tree :: elemsTree es
/-- The keys and syntax trees of the members. -/
def membersTree :
    List (List Char × List StrItem × List Char × Doc) → List (List Char × Value (List Char))
  | [] => []
  | (_, key, _, value) :: ms => (itemsValue key, value.tree) :: membersTree ms
end

mutual
/-- The number literals of a document, in the order of the text. -/
def Doc.numbers : Doc → List (List Char)
  | .num lit => [lit]
  | .arr _ elems => elemsNumbers elems
  | .obj _ members => membersNumbers members
  | .pad _ value _ => value.numbers
  | _ => []
/-- The number literals of the elements. -/
def elemsNumbers : List Doc → List (List Char)
  | [] => []
  | e :: es => e.numbers ++ elemsNumbers es
/-- The number literals of the members. -/
def membersNumbers : List (List Char × List StrItem × List Char × Doc) → List (List Char)
  | [] => []
  | (_, _, _, value) :: ms => value.numbers ++ membersNumbers ms
end

/-- The input after a value inside a document: nothing, or a comma or closing bracket. -/
def Delimited (rest : List Char) : Prop :=
  rest = [] ∨ ∃ c tl, rest = c :: tl ∧ (c = ',' ∨ c = ']' ∨ c = '}')

/-- The specification's "parsing the bytes as JSON": the value a JSON text stands for,
read by the grammar alone, without the limit on nesting that Go's scanner adds; number
literals and objects become Go values as in `decodeValue`. -/
def parseAsJSON {F : Type} (C : FloatCodec F) (text : List Char) : Option (Value F) :=
  match parseDocument (fun lit => some lit) text with
  | some tree => decodeValue C tree
  | none => none

end Json

/-! # Properties -/

set_option maxRecDepth 100000

/-! ## Metrics -/

theorem addResult_fields {F : Type} (m : TestMetrics F) (r : TestResult F) :
    (m.AddResult r).TotalTests = m.TotalTests + 1 ∧
    (m.AddResult r).SuccessfulTests = m.SuccessfulTests + (if r.Success then 1 else 0) ∧
    (m.AddResult r).FailedTests = m.FailedTests + (if r.Success then 0 else 1) ∧
    (m.AddResult r).Results = m.Results ++ [r] := by
  unfold TestMetrics.AddResult
  cases r.Success <;> simp

theorem foldl_addResult_invariant {F : Type} (rs : List (TestResult F)) :
    ∀ m : TestMetrics F,
      m.TotalTests = m.SuccessfulTests + m.FailedTests → m.TotalTests = m.Results.length →
      (rs.foldl TestMetrics.AddResult m).TotalTests =
          (rs.foldl TestMetrics.AddResult m).SuccessfulTests +
            (rs.foldl TestMetrics.AddResult m).FailedTests ∧
        (rs.foldl TestMetrics.AddResult m).TotalTests =
          (rs.foldl TestMetrics.AddResult m).Results.length ∧
        (rs.foldl TestMetrics.AddResult m).Results = m.Results ++ rs := by
  induction rs with
  | nil => intro m h1 h2; exact ⟨h1, h2, by simp⟩
  | cons r rs ih =>
    intro m h1 h2
    obtain ⟨a, b, c, d⟩ := addResult_fields m r
    have := ih (m.AddResult r) (by rw [a, b, c]; split <;> omega) (by rw [a, d]; simp [h2])
    simp only [List.foldl_cons]
    refine ⟨this.1, this.2.1, ?_⟩
    rw [this.2.2, d]; simp

/-- C1. From the metrics built by `NewTestMetrics`, after `AddResult` has been called
with each element of any finite list of results, in order, `TotalTests` equals
`SuccessfulTests + FailedTests` and equals `len(Results)` (and `Results` is that list);
and every single `AddResult` adds one to `TotalTests` and one to exactly one of
`SuccessfulTests` / `FailedTests`, chosen by `result.Success`. -/
theorem metrics_invariant {F : Type} (now : Nat) (results : List (TestResult F)) :
    ((results.foldl TestMetrics.AddResult (NewTestMetrics F now)).TotalTests =
        (results.foldl TestMetrics.AddResult (NewTestMetrics F now)).SuccessfulTests +
          (results.foldl TestMetrics.AddResult (NewTestMetrics F now)).FailedTests ∧
      (results.foldl TestMetrics.AddResult (NewTestMetrics F now)).TotalTests =
        (results.foldl TestMetrics.AddResult (NewTestMetrics F now)).Results.length ∧
      (results.foldl TestMetrics.AddResult (NewTestMetrics F now)).Results = results) ∧
    ∀ (m : TestMetrics F) (r : TestResult F),
      (m.AddResult r).TotalTests = m.TotalTests + 1 ∧
      (m.AddResult r).SuccessfulTests = m.SuccessfulTests + (if r.Success then 1 else 0) ∧
      (m.AddResult r).FailedTests = m.FailedTests + (if r.Success then 0 else 1) ∧
      (m.AddResult r).Results = m.Results ++ [r] := by
  refine ⟨?_, addResult_fields⟩
  have := foldl_addResult_invariant results (NewTestMetrics F now) rfl rfl
  simpa [NewTestMetrics] using this

/-! ## Replacement of a single character by nothing -/

namespace Strings

theorem replaceGo_single_nil (c : Char) (s : List Char) :
    replaceGo [c] [] 0 s = s.filter (fun x => x != c) := by
  induction s with
  | nil => rfl
  | cons x s ih =>
    by_cases h : c = x
    · subst h; simp [replaceGo, List.isPrefixOf, ih]
    · have h1 : x ≠ c := fun e => h e.symm
      simp [replaceGo, List.isPrefixOf, ih, h, h1]

theorem ReplaceAll_single_nil (c : Char) (s : List Char) :
    ReplaceAll s [c] [] = s.filter (fun x => x != c) := by
  simp [ReplaceAll, replaceGo_single_nil]

end Strings

theorem normalise_eq_delete (s : List Char) :
    Strings.ReplaceAll (Strings.ReplaceAll s [' '] []) ['\n'] [] = deleteSpacesAndNewlines s := by
  rw [Strings.ReplaceAll_single_nil, Strings.ReplaceAll_single_nil, List.filter_filter]
  unfold deleteSpacesAndNewlines
  congr 1
  funext c
  exact Bool.and_comm _ _

/-! ## The evaluation loop -/

theorem evaluateAll_cons {F : Type} (C : Json.FloatCodec F) (w : World) (tc : TestCase F)
    (rest : List (TestCase F)) (metrics : TestMetrics F) (r : TestResult F)
    (h : evaluateCase C w tc = .ret r) :
    evaluateAll C w (tc :: rest) metrics = evaluateAll C w rest (metrics.AddResult r) := by
  simp only [evaluateAll, h, Go.bind]

theorem evaluateAll_append {F : Type} (C : Json.FloatCodec F) (w : World)
    (after : List (TestCase F)) : ∀ (before : List (TestCase F)) (metrics m1 : TestMetrics F),
      evaluateAll C w before metrics = .ret m1 →
      evaluateAll C w (before ++ after) metrics = evaluateAll C w after m1
  | [], metrics, m1, h => by
    simp only [evaluateAll, Go.ret.injEq] at h
    subst h; rfl
  | tc :: before, metrics, m1, h => by
    cases hc : evaluateCase C w tc with
    | sliceBoundsPanic lo hi len => simp [evaluateAll, hc, Go.bind] at h
    | ret r =>
      rw [evaluateAll_cons C w tc before metrics r hc] at h
      rw [List.cons_append, evaluateAll_cons C w tc (before ++ after) metrics r hc]
      exact evaluateAll_append C w after before (metrics.AddResult r) m1 h

theorem evaluateAll_results {F : Type} (C : Json.FloatCodec F) (w : World) :
    ∀ (cases : List (TestCase F)) (metrics final : TestMetrics F),
      evaluateAll C w cases metrics = .ret final →
      ∃ rs, final.Results = metrics.Results ++ rs
  | [], metrics, final, h => by
    simp only [evaluateAll, Go.ret.injEq] at h
    subst h; exact ⟨[], by simp⟩
  | tc :: rest, metrics, final, h => by
    cases hc : evaluateCase C w tc with
    | sliceBoundsPanic lo hi len => simp [evaluateAll, hc, Go.bind] at h
    | ret r =>
      rw [evaluateAll_cons C w tc rest metrics r hc] at h
      obtain ⟨rs, hrs⟩ := evaluateAll_results C w rest (metrics.AddResult r) final h
      exact ⟨r :: rs, by rw [hrs, (addResult_fields metrics r).2.2.2]; simp⟩

/-- The loop at a case whose body returns the result `r`: wherever the case stands in the
list, once the loop has come through the cases before it with the metrics `m1`, it calls
`AddResult` with `r` and goes on with the cases after it; `r` is counted by its `Success`
and stands in the results of the finished run right after those of `m1`. -/
theorem evaluateAll_records {F : Type} (C : Json.FloatCodec F) (w : World) (tc : TestCase F)
    (r : TestResult F) (h : evaluateCase C w tc = .ret r) (before after : List (TestCase F))
    (metrics m1 : TestMetrics F) (hbefore : evaluateAll C w before metrics = .ret m1) :
    evaluateAll C w (before ++ tc :: after) metrics =
        evaluateAll C w after (m1.AddResult r) ∧
      (m1.AddResult r).Results = m1.Results ++ [r] ∧
      (m1.AddResult r).TotalTests = m1.TotalTests + 1 ∧
      (m1.AddResult r).SuccessfulTests = m1.SuccessfulTests + (if r.Success then 1 else 0) ∧
      (m1.AddResult r).FailedTests = m1.FailedTests + (if r.Success then 0 else 1) ∧
      ∀ final, evaluateAll C w (before ++ tc :: after) metrics = .ret final →
        ∃ rs, final.Results = m1.Results ++ r :: rs := by
  have h1 : evaluateAll C w (before ++ tc :: after) metrics =
      evaluateAll C w after (m1.AddResult r) := by
    rw [evaluateAll_append C w (tc :: after) before metrics m1 hbefore,
      evaluateAll_cons C w tc after m1 r h]
  obtain ⟨a, b, c, d⟩ := addResult_fields m1 r
  refine ⟨h1, d, a, b, c, fun final hf => ?_⟩
  rw [h1] at hf
  obtain ⟨rs, hrs⟩ := evaluateAll_results C w after (m1.AddResult r) final hf
  exact ⟨rs, by rw [hrs, d]; simp⟩

/-- C10. When the generator answers and `ExecuteCode` comes back with an `ExecutionResult`
whose `Error` is nil, the loop records a result whose `Success` is true exactly when the
body and the ground truth are equal once every space and newline is deleted (so two texts
that become the same text by that deletion are recorded as a success), whose `ActualValue`
is the body as it is, and whose `Error` is nil. Recording: wherever the case stands in the
list of test cases, the loop calls `AddResult` with that result and goes on with the cases
after it, and the result stands in the results of the finished run. -/
theorem comparison_normalisation {F : Type} (C : Json.FloatCodec F) (w : World)
    (tc : TestCase F) (g : GenerateCodeResponse) (result : ExecutionResult)
    (err : Option GoError)
    (hgen : w.generate (codegenRequestFor w tc) w.accessToken = .ok g)
    (hexec : ExecuteCode C w (sandboxRequestFor g) tc.Inputs = .ret (result, err))
    (hnil : result.Error = none) :
    ∃ r : TestResult F, evaluateCase C w tc = .ret r ∧
      (r.Success = true ↔
        deleteSpacesAndNewlines result.Body = deleteSpacesAndNewlines tc.GroundTruth) ∧
      (deleteSpacesAndNewlines result.Body = deleteSpacesAndNewlines tc.GroundTruth →
        r.Success = true) ∧
      r.ActualValue = result.Body ∧ r.Error = none ∧ r.TestCase = tc ∧
      ∀ (before after : List (TestCase F)) (metrics m1 : TestMetrics F),
        evaluateAll C w before metrics = .ret m1 →
        evaluateAll C w (before ++ tc :: after) metrics =
            evaluateAll C w after (m1.AddResult r) ∧
          (m1.AddResult r).Results = m1.Results ++ [r] ∧
          (m1.AddResult r).TotalTests = m1.TotalTests + 1 ∧
          (m1.AddResult r).SuccessfulTests =
            m1.SuccessfulTests + (if r.Success then 1 else 0) ∧
          (m1.AddResult r).FailedTests = m1.FailedTests + (if r.Success then 0 else 1) ∧
          ∀ final, evaluateAll C w (before ++ tc :: after) metrics = .ret final →
            ∃ rs, final.Results = m1.Results ++ r :: rs := by
  have hcase : evaluateCase C w tc = .ret (compareResult tc result) := by
    simp only [evaluateCase, hgen, hexec, Go.bind, hnil]
  refine ⟨compareResult tc result, hcase, ?_, ?_, rfl, rfl, rfl, ?_⟩
  · simp [compareResult, normalise_eq_delete]
  · intro h; simp [compareResult, normalise_eq_delete, h]
  · intro before after metrics m1 hb
    exact evaluateAll_records C w tc _ hcase before after metrics m1 hb

/-- Witness of `comparison_normalisation`: the case `add`, sandbox output
`<<RESULT>>{"a": 1}<<RESULT>>`, ground truth `{"a":1}`. -/
theorem comparison_normalisation_witness :
    ∃ r : TestResult Int,
      evaluateCase Json.intCodec (Example.world "python" "" "<<RESULT>>\x7b\"a\": 1\x7d<<RESULT>>")
        (Example.addCase "\x7b\"a\":1\x7d") = .ret r ∧
      (r.Success = true ↔
        deleteSpacesAndNewlines "\x7b\n    \"a\": 1\n\x7d".toList =
          deleteSpacesAndNewlines (Example.addCase "\x7b\"a\":1\x7d").GroundTruth) ∧
      (deleteSpacesAndNewlines "\x7b\n    \"a\": 1\n\x7d".toList =
          deleteSpacesAndNewlines (Example.addCase "\x7b\"a\":1\x7d").GroundTruth →
        r.Success = true) ∧
      r.ActualValue = "\x7b\n    \"a\": 1\n\x7d".toList ∧ r.Error = none ∧
      r.TestCase = Example.addCase "\x7b\"a\":1\x7d" ∧
      ∀ (before after : List (TestCase Int)) (metrics m1 : TestMetrics Int),
        evaluateAll Json.intCodec
            (Example.world "python" "" "<<RESULT>>\x7b\"a\": 1\x7d<<RESULT>>") before metrics =
          .ret m1 →
        evaluateAll Json.intCodec
            (Example.world "python" "" "<<RESULT>>\x7b\"a\": 1\x7d<<RESULT>>")
            (before ++ Example.addCase "\x7b\"a\":1\x7d" :: after) metrics =
            evaluateAll Json.intCodec
              (Example.world "python" "" "<<RESULT>>\x7b\"a\": 1\x7d<<RESULT>>") after
              (m1.AddResult r) ∧
          (m1.AddResult r).Results = m1.Results ++ [r] ∧
          (m1.AddResult r).TotalTests = m1.TotalTests + 1 ∧
          (m1.AddResult r).SuccessfulTests =
            m1.SuccessfulTests + (if r.Success then 1 else 0) ∧
          (m1.AddResult r).FailedTests = m1.FailedTests + (if r.Success then 0 else 1) ∧
          ∀ final, evaluateAll Json.intCodec
              (Example.world "python" "" "<<RESULT>>\x7b\"a\": 1\x7d<<RESULT>>")
              (before ++ Example.addCase "\x7b\"a\":1\x7d" :: after) metrics = .ret final →
            ∃ rs, final.Results = m1.Results ++ r :: rs :=
  comparison_normalisation Json.intCodec
    (Example.world "python" "" "<<RESULT>>\x7b\"a\": 1\x7d<<RESULT>>") (Example.addCase "\x7b\"a\":1\x7d")
    ⟨"def main(a, b): return a + b".toList, [], "python".toList⟩
    ⟨200, "\x7b\n    \"a\": 1\n\x7d".toList, none⟩ none rfl rfl rfl

/-- C9. When the sandbox answers 200 and the decoded envelope has a non-empty `data.error`
`e`, then whatever `data.stdout` holds (also one on which the extractor would fail or
panic) `ExecuteCode` returns the result with `Error` set to the error `execution error: e`
and a nil `error`, and the body of the loop builds the result `r` with `Success = false`,
that error and an empty `ActualValue`, whatever the ground truth is. Recording: wherever
the case stands in the list of test cases, the loop calls `AddResult` with `r`, which adds
one to `TotalTests` and to `FailedTests` and nothing to `SuccessfulTests`, and goes on
with the cases after it; `r` stands in the results of the finished run. -/
theorem execution_error_recorded {F : Type} (C : Json.FloatCodec F) (w : World)
    (tc : TestCase F) (g : GenerateCodeResponse) (t : Transformer)
    (finalCode preload body : List Char) (envelope : SandboxEnvelope)
    (hgen : w.generate (codegenRequestFor w tc) w.accessToken = .ok g)
    (hkey : w.apiKey ≠ []) (hend : w.endpoint ≠ [])
    (hsel : selectTransformer (sandboxRequestFor g).Language = some t)
    (htr : TransformCaller C t (sandboxRequestFor g).Code tc.Inputs = .ok (finalCode, preload))
    (hpost : w.post (w.endpoint ++ "/v1/sandbox/run".toList) w.apiKey
      ⟨(sandboxRequestFor g).Language, finalCode, preload, (sandboxRequestFor g).EnableNetwork⟩
        = .response 200 body)
    (hdec : w.decodeEnvelope body = .ok envelope)
    (herr : envelope.DataError ≠ []) :
    ExecuteCode C w (sandboxRequestFor g) tc.Inputs =
        .ret (⟨200, body, some (.text ("execution error: ".toList ++ envelope.DataError))⟩,
          none) ∧
      ∃ r : TestResult F,
        r = ⟨tc, false, [], some (.text ("execution error: ".toList ++ envelope.DataError))⟩ ∧
        evaluateCase C w tc = .ret r ∧
        ∀ (before after : List (TestCase F)) (metrics m1 : TestMetrics F),
          evaluateAll C w before metrics = .ret m1 →
          evaluateAll C w (before ++ tc :: after) metrics =
              evaluateAll C w after (m1.AddResult r) ∧
            (m1.AddResult r).Results = m1.Results ++ [r] ∧
            (m1.AddResult r).TotalTests = m1.TotalTests + 1 ∧
            (m1.AddResult r).FailedTests = m1.FailedTests + 1 ∧
            (m1.AddResult r).SuccessfulTests = m1.SuccessfulTests ∧
            ∀ final, evaluateAll C w (before ++ tc :: after) metrics = .ret final →
              ∃ rs, final.Results = m1.Results ++ r :: rs := by
  have hexec : ExecuteCode C w (sandboxRequestFor g) tc.Inputs =
      .ret (⟨200, body, some (.text ("execution error: ".toList ++ envelope.DataError))⟩,
        none) := by
    have h0 : ¬ (w.apiKey = [] ∨ w.endpoint = []) := by simp [hkey, hend]
    simp only [ExecuteCode, if_neg h0, hsel, htr, hpost, hdec, if_pos herr, ↓reduceIte]
  have hcase : evaluateCase C w tc =
      .ret ⟨tc, false, [],
        some (.text ("execution error: ".toList ++ envelope.DataError))⟩ := by
    simp only [evaluateCase, hgen, hexec, Go.bind]
  refine ⟨hexec, _, rfl, hcase, fun before after metrics m1 hb => ?_⟩
  obtain ⟨h1, h2, h3, h4, h5, h6⟩ :=
    evaluateAll_records C w tc _ hcase before after metrics m1 hb
  exact ⟨h1, h2, h3, by simpa using h5, by simpa using h4, h6⟩

/-- Witness of `execution_error_recorded`: the sandbox answers with the body
`{"code":0,"message":"success","data":{"error":"SyntaxError","stdout":"<<RESULT>>"}}`,
whose `data.stdout` holds a single result tag. -/
theorem execution_error_recorded_witness :
    ExecuteCode Json.intCodec (Example.world "python" "SyntaxError" "<<RESULT>>")
        (sandboxRequestFor ⟨"def main(a, b): return a + b".toList, [], "python".toList⟩)
        (Example.addCase "3").Inputs =
        .ret (⟨200, Example.envelopeText "SyntaxError" "<<RESULT>>",
          some (.text ("execution error: ".toList ++ "SyntaxError".toList))⟩, none) ∧
      ∃ r : TestResult Int,
        r = ⟨Example.addCase "3", false, [],
          some (.text ("execution error: ".toList ++ "SyntaxError".toList))⟩ ∧
        evaluateCase Json.intCodec (Example.world "python" "SyntaxError" "<<RESULT>>")
          (Example.addCase "3") = .ret r ∧
        ∀ (before after : List (TestCase Int)) (metrics m1 : TestMetrics Int),
          evaluateAll Json.intCodec (Example.world "python" "SyntaxError" "<<RESULT>>")
            before metrics = .ret m1 →
          evaluateAll Json.intCodec (Example.world "python" "SyntaxError" "<<RESULT>>")
              (before ++ Example.addCase "3" :: after) metrics =
              evaluateAll Json.intCodec (Example.world "python" "SyntaxError" "<<RESULT>>")
                after (m1.AddResult r) ∧
            (m1.AddResult r).Results = m1.Results ++ [r] ∧
            (m1.AddResult r).TotalTests = m1.TotalTests + 1 ∧
            (m1.AddResult r).FailedTests = m1.FailedTests + 1 ∧
            (m1.AddResult r).SuccessfulTests = m1.SuccessfulTests ∧
            ∀ final,
              evaluateAll Json.intCodec (Example.world "python" "SyntaxError" "<<RESULT>>")
                (before ++ Example.addCase "3" :: after) metrics = .ret final →
              ∃ rs, final.Results = m1.Results ++ r :: rs :=
  execution_error_recorded Json.intCodec (Example.world "python" "SyntaxError" "<<RESULT>>")
    (Example.addCase "3") ⟨"def main(a, b): return a + b".toList, [], "python".toList⟩
    .python3
    (Transformer.python3.scriptPre ++ "def main(a, b): return a + b".toList ++
      Transformer.python3.scriptMid ++ "eyJhIjoxLCJiIjoyfQ==".toList ++
      Transformer.python3.scriptPost)
    [] (Example.envelopeText "SyntaxError" "<<RESULT>>")
    ⟨0, "success".toList, "SyntaxError".toList, "<<RESULT>>".toList⟩
    rfl (by decide) (by decide) rfl rfl rfl rfl (by decide)

/-- The body the sandbox of the witness answers with, its decoding, the decoding of the
empty object, and the extractor on the `data.stdout` of the witness: it would panic. -/
theorem decodeEnvelope_example :
    Example.envelopeText "SyntaxError" "<<RESULT>>" =
        ("\x7b\"code\":0,\"message\":\"success\",\"data\":" ++
          "\x7b\"error\":\"SyntaxError\",\"stdout\":\"<<RESULT>>\"\x7d\x7d").toList ∧
      Example.decodeEnvelope (Example.envelopeText "SyntaxError" "<<RESULT>>") =
        .ok ⟨0, "success".toList, "SyntaxError".toList, "<<RESULT>>".toList⟩ ∧
      Example.decodeEnvelope "\x7b\x7d".toList = .ok ⟨0, [], [], []⟩ ∧
      ExtractResult Json.intCodec "<<RESULT>>".toList = .sliceBoundsPanic 10 0 10 :=
  ⟨rfl, rfl, rfl, rfl⟩

/-- The loop when `ExecuteCode` stops before the request is sent: the zero
`ExecutionResult` goes to the comparison step. -/
theorem evaluateCase_of_unsupported_language {F : Type} (C : Json.FloatCodec F) (w : World)
    (tc : TestCase F) (g : GenerateCodeResponse)
    (hgen : w.generate (codegenRequestFor w tc) w.accessToken = .ok g)
    (hkey : w.apiKey ≠ []) (hend : w.endpoint ≠ [])
    (hsel : selectTransformer (sandboxRequestFor g).Language = none) :
    evaluateCase C w tc = .ret (compareResult tc ⟨0, [], none⟩) := by
  have h0 : ¬ (w.apiKey = [] ∨ w.endpoint = []) := by simp [hkey, hend]
  simp only [evaluateCase, hgen, ExecuteCode, if_neg h0, hsel, Go.bind]

/-- C2 (the code at the failing input). The generator answers with language `ruby`, for
which `ExecuteCode` returns the error `unsupported language: ruby`; the loop compares the
empty body with the ground truth and, the ground truth being empty, records
`Success = true` with a nil `Error`: the run over this one test case ends with one
successful test and no failed one. -/
theorem wrap_failure_recorded_as_success :
    ExecuteCode Json.intCodec (Example.world "ruby" "" "")
        (sandboxRequestFor ⟨"def main(a, b): return a + b".toList, [], "ruby".toList⟩)
        (Example.addCase "").Inputs =
        .ret (⟨0, [], none⟩, some (.text "unsupported language: ruby".toList)) ∧
      evaluateCase Json.intCodec (Example.world "ruby" "" "") (Example.addCase "") =
        .ret ⟨Example.addCase "", true, [], none⟩ ∧
      evaluateAll Json.intCodec (Example.world "ruby" "" "") [Example.addCase ""]
          (NewTestMetrics Int 0) =
        .ret { TotalTests := 1, SuccessfulTests := 1, FailedTests := 0, StartTime := 0,
               EndTime := 0, Results := [⟨Example.addCase "", true, [], none⟩] } :=
  ⟨rfl, rfl, rfl⟩

/-! ## Result extraction -/

/-- C3 (the code at the failing input). On `<<RESULT>>3`, where the tag occurs once,
`ExtractResult` computes `startIndex = 10`, `endIndex = 0`, passes its check and panics in
the slice expression `response[10:0]`. -/
theorem extract_single_tag_panics :
    ExtractResult Json.intCodec "<<RESULT>>3".toList = .sliceBoundsPanic 10 0 11 :=
  rfl

/-! ## Occurrences and replacement -/

namespace Strings

theorem isPrefixOf_append_of_clash : ∀ (old b s : List Char), clash old b = true →
    old.isPrefixOf (b ++ s) = false
  | [], _, _, h => by simp [clash] at h
  | _ :: _, [], _, h => by simp [clash] at h
  | x :: xs, y :: ys, s, h => by
    simp only [clash, Bool.or_eq_true, bne_iff_ne, ne_eq] at h
    simp only [List.cons_append, List.isPrefixOf, Bool.and_eq_false_iff, beq_eq_false_iff_ne, ne_eq]
    rcases h with h | h
    · exact Or.inl h
    · exact Or.inr (isPrefixOf_append_of_clash xs ys s h)

theorem NoStart_of_noStartIn (old : List Char) : ∀ (a s : List Char), noStartIn old a = true →
    NoStart old a s
  | [], _, _ => trivial
  | c :: a, s, h => by
    simp only [noStartIn, Bool.and_eq_true] at h
    exact ⟨isPrefixOf_append_of_clash old (c :: a) s h.1, NoStart_of_noStartIn old a s h.2⟩

theorem NoStart_of_head_ne (x : Char) (old : List Char) : ∀ (a s : List Char),
    (∀ c ∈ a, c ≠ x) → NoStart (x :: old) a s
  | [], _, _ => trivial
  | c :: a, s, h => by
    refine ⟨?_, NoStart_of_head_ne x old a s (fun d hd => h d (List.mem_cons_of_mem _ hd))⟩
    have : x ≠ c := fun e => h c (List.mem_cons_self _ _) e.symm
    simp [List.isPrefixOf, this]

theorem isPrefixOf_append_cons : ∀ (old b : List Char) (m : Char) (s : List Char),
    old.isPrefixOf (b ++ m :: s) = true → old.isPrefixOf b = true ∨ m ∈ old
  | [], _, _, _, _ => Or.inl (by simp [List.isPrefixOf])
  | x :: xs, [], m, s, h => by
    simp only [List.nil_append, List.isPrefixOf, Bool.and_eq_true, beq_iff_eq] at h
    exact Or.inr (by simp [h.1])
  | x :: xs, y :: ys, m, s, h => by
    simp only [List.cons_append, List.isPrefixOf, Bool.and_eq_true, beq_iff_eq] at h
    rcases isPrefixOf_append_cons xs ys m s h.2 with h1 | h1
    · exact Or.inl (by simp [List.isPrefixOf, h.1, h1])
    · exact Or.inr (List.mem_cons_of_mem _ h1)

theorem indexOf_eq_none_cons {old : List Char} {c : Char} {a : List Char}
    (h : indexOf old (c :: a) = none) :
    old.isPrefixOf (c :: a) = false ∧ indexOf old a = none := by
  simp only [indexOf] at h
  split at h
  · simp at h
  · rename_i hp
    exact ⟨Bool.eq_false_iff.mpr hp, by simpa using h⟩

theorem NoStart_of_not_contains (old : List Char) (m : Char) (hm : m ∉ old) :
    ∀ (a s : List Char), indexOf old a = none → NoStart old a (m :: s)
  | [], _, _ => trivial
  | c :: a, s, h => by
    obtain ⟨h1, h2⟩ := indexOf_eq_none_cons h
    refine ⟨?_, NoStart_of_not_contains old m hm a s h2⟩
    by_contra hc
    rw [Bool.not_eq_false] at hc
    rcases isPrefixOf_append_cons old (c :: a) m s hc with h3 | h3
    · rw [h3] at h1; exact Bool.noConfusion h1
    · exact hm h3

theorem replaceGo_append_of_NoStart (old new : List Char) : ∀ (a s : List Char),
    NoStart old a s → replaceGo old new 0 (a ++ s) = a ++ replaceGo old new 0 s
  | [], _, _ => rfl
  | c :: a, s, h => by
    obtain ⟨h1, h2⟩ := h
    simp only [List.cons_append] at h1 ⊢
    rw [replaceGo, if_neg (by simp [h1]), replaceGo_append_of_NoStart old new a s h2]

theorem replaceGo_skip (old new : List Char) : ∀ (k : Nat) (s : List Char),
    replaceGo old new k s = replaceGo old new 0 (s.drop k)
  | 0, _ => rfl
  | k + 1, [] => by simp [replaceGo]
  | k + 1, _ :: s => by simp only [replaceGo, List.drop_succ_cons]; exact replaceGo_skip old new k s

theorem isPrefixOf_self_append : ∀ (l s : List Char), l.isPrefixOf (l ++ s) = true
  | [], _ => by simp [List.isPrefixOf]
  | x :: l, s => by simp [List.isPrefixOf, isPrefixOf_self_append l s]

theorem replaceGo_match (old new s : List Char) (h : old ≠ []) :
    replaceGo old new 0 (old ++ s) = new ++ replaceGo old new 0 s := by
  cases old with
  | nil => exact absurd rfl h
  | cons x o =>
    have hp := isPrefixOf_self_append (x :: o) s
    simp only [List.cons_append] at hp ⊢
    rw [replaceGo, if_pos hp, replaceGo_skip]
    simp

theorem replaceGo_of_NoStart_nil (old new a : List Char) (h : NoStart old a []) :
    replaceGo old new 0 a = a := by
  have := replaceGo_append_of_NoStart old new a [] h
  simpa [replaceGo] using this

theorem indexOf_append_of_NoStart (old : List Char) : ∀ (a s : List Char),
    NoStart old a s → indexOf old (a ++ s) = (indexOf old s).map (· + a.length)
  | [], s, _ => by simp
  | c :: a, s, h => by
    obtain ⟨h1, h2⟩ := h
    simp only [List.cons_append] at h1 ⊢
    rw [indexOf, if_neg (by simp [h1]), indexOf_append_of_NoStart old a s h2]
    cases indexOf old s <;> simp [Nat.add_assoc]


theorem clash_comm : ∀ (a b : List Char), clash a b = clash b a
  | [], [] => rfl
  | [], _ :: _ => rfl
  | _ :: _, [] => rfl
  | x :: xs, y :: ys => by
    simp only [clash, clash_comm xs ys]
    by_cases h : x = y
    · subst h; rfl
    · have h1 : y ≠ x := fun e => h e.symm
      have e1 : (x != y) = true := by simp [h]
      have e2 : (y != x) = true := by simp [h1]
      rw [e1, e2]

theorem isPrefixOf_replaceGo (old new : List Char) : ∀ (s q : List Char),
    noStartIn new q = true → q.isPrefixOf (replaceGo old new 0 s) = true →
    q.isPrefixOf s = true
  | _, [], _, _ => by simp [List.isPrefixOf]
  | [], x :: q, _, h => by simp [replaceGo, List.isPrefixOf] at h
  | c :: s, x :: q, hq, h => by
    simp only [noStartIn, Bool.and_eq_true] at hq
    rw [replaceGo] at h
    split at h
    · rw [isPrefixOf_append_of_clash (x :: q) new _ (by rw [clash_comm]; exact hq.1)] at h
      exact Bool.noConfusion h
    · simp only [List.isPrefixOf, Bool.and_eq_true, beq_iff_eq] at h ⊢
      exact ⟨h.1, isPrefixOf_replaceGo old new s q hq.2 h.2⟩

theorem indexOf_replaceGo_eq_none (old new : List Char) (t0 : Char) (t : List Char)
    (hq : noStartIn new (t0 :: t) = true) (hnew : ∀ c ∈ new, c ≠ t0) :
    ∀ (s : List Char),
      (∀ b, b <:+ s → (t0 :: t).isPrefixOf b = true → old.isPrefixOf b = true) →
      ∀ k, indexOf (t0 :: t) (replaceGo old new k s) = none
  | [], _, k => by cases k <;> simp [replaceGo, indexOf, List.isPrefixOf]
  | c :: s, hocc, k => by
    have hocc1 : ∀ b, b <:+ s → (t0 :: t).isPrefixOf b = true → old.isPrefixOf b = true :=
      fun b hb => hocc b (hb.trans (List.suffix_cons c s))
    have ih := indexOf_replaceGo_eq_none old new t0 t hq hnew s hocc1
    cases k with
    | succ k => rw [replaceGo]; exact ih k
    | zero =>
      by_cases hm : old.isPrefixOf (c :: s) = true
      · rw [replaceGo, if_pos hm,
          indexOf_append_of_NoStart _ _ _ (NoStart_of_head_ne t0 t new _ hnew), ih]
        rfl
      · have hpre : (t0 :: t).isPrefixOf (replaceGo old new 0 (c :: s)) = false := by
          by_contra hc
          rw [Bool.not_eq_false] at hc
          exact hm (hocc _ (List.suffix_refl _) (isPrefixOf_replaceGo old new _ _ hq hc))
        rw [replaceGo, if_neg hm] at hpre ⊢
        rw [indexOf, if_neg (by simp [hpre]), ih]
        rfl

theorem isPrefixOf_of_indexOf_eq_none (t : List Char) : ∀ (s b : List Char),
    indexOf t s = none → b <:+ s → t.isPrefixOf b = false
  | [], b, h, hb => by
    have : b = [] := List.suffix_nil.mp hb
    subst this
    simp only [indexOf] at h
    split at h
    · simp at h
    · rename_i hp; exact Bool.eq_false_iff.mpr hp
  | c :: s, b, h, hb => by
    obtain ⟨h1, h2⟩ := indexOf_eq_none_cons h
    rcases List.suffix_cons_iff.mp hb with hb | hb
    · subst hb; exact h1
    · exact isPrefixOf_of_indexOf_eq_none t s b h2 hb

end Strings

/-! ## The two substitutions of TransformCaller -/

section Transform

open Strings

theorem runnerScript_eq (t : Transformer) :
    t.GetRunnerScript =
      t.scriptPre ++ (CodePlaceholder ++ (t.scriptMid ++ (InputsPlaceholder ++ t.scriptPost))) := by
  cases t <;> rfl

theorem scriptPre_noStart (t : Transformer) (s : List Char) :
    NoStart CodePlaceholder t.scriptPre s ∧ NoStart InputsPlaceholder t.scriptPre s := by
  cases t <;> exact ⟨NoStart_of_noStartIn _ _ _ (by rfl), NoStart_of_noStartIn _ _ _ (by rfl)⟩

theorem scriptMid_noStart (t : Transformer) (s : List Char) :
    NoStart CodePlaceholder t.scriptMid s ∧ NoStart InputsPlaceholder t.scriptMid s := by
  cases t <;> exact ⟨NoStart_of_noStartIn _ _ _ (by rfl), NoStart_of_noStartIn _ _ _ (by rfl)⟩

theorem scriptPost_noStart (t : Transformer) :
    NoStart CodePlaceholder t.scriptPost [] ∧ NoStart InputsPlaceholder t.scriptPost [] := by
  cases t <;> exact ⟨NoStart_of_noStartIn _ _ _ (by rfl), NoStart_of_noStartIn _ _ _ (by rfl)⟩

theorem scriptMid_head (t : Transformer) : ∃ tl, t.scriptMid = '\n' :: tl := by
  cases t <;> exact ⟨_, rfl⟩

/-- The first substitution: the code takes the place of `{{code}}`. -/
theorem replaceAll_code (t : Transformer) (code : List Char) :
    ReplaceAll t.GetRunnerScript CodePlaceholder code =
      t.scriptPre ++ (code ++ (t.scriptMid ++ (InputsPlaceholder ++ t.scriptPost))) := by
  rw [runnerScript_eq]
  unfold ReplaceAll
  split
  · rename_i h; rw [← h]
  · rw [if_neg (by decide), replaceGo_append_of_NoStart _ _ _ _ (scriptPre_noStart t _).1,
      replaceGo_match _ _ _ (by decide),
      replaceGo_append_of_NoStart _ _ _ _ (scriptMid_noStart t _).1]
    have hrest : NoStart CodePlaceholder (InputsPlaceholder ++ t.scriptPost) [] := by
      cases t <;> exact NoStart_of_noStartIn _ _ _ (by rfl)
    rw [replaceGo_of_NoStart_nil _ _ _ hrest]

/-- The second substitution when the code holds no `{{inputs}}`. -/
theorem replaceAll_inputs (t : Transformer) (code b64 : List Char)
    (hcode : Contains code InputsPlaceholder = false) :
    ReplaceAll (t.scriptPre ++ (code ++ (t.scriptMid ++ (InputsPlaceholder ++ t.scriptPost))))
        InputsPlaceholder b64 =
      t.scriptPre ++ (code ++ (t.scriptMid ++ (b64 ++ t.scriptPost))) := by
  have hnone : indexOf InputsPlaceholder code = none := by
    simpa [Contains] using hcode
  unfold ReplaceAll
  split
  · rename_i h; rw [← h]
  · obtain ⟨tl, htl⟩ := scriptMid_head t
    have hc : NoStart InputsPlaceholder code
        (t.scriptMid ++ (InputsPlaceholder ++ t.scriptPost)) := by
      rw [htl]
      exact NoStart_of_not_contains _ _ (by decide) _ _ hnone
    rw [if_neg (by decide), replaceGo_append_of_NoStart _ _ _ _ (scriptPre_noStart t _).2,
      replaceGo_append_of_NoStart _ _ _ _ hc,
      replaceGo_append_of_NoStart _ _ _ _ (scriptMid_noStart t _).2,
      replaceGo_match _ _ _ (by decide),
      replaceGo_of_NoStart_nil _ _ _ (scriptPost_noStart t).2]

/-- C5 (amended). For both transformers, every inputs mapping whose encoding succeeds (with
base64 text `b64`) and every generated code that holds no occurrence of `{{inputs}}`: the
runner script is `pre ++ "{{code}}" ++ mid ++ "{{inputs}}" ++ post`, and `TransformCaller`
returns `pre ++ code ++ mid ++ b64 ++ post` with the code verbatim, and the empty preload
script. -/
theorem transform_substitutes {F : Type} (C : Json.FloatCodec F) (t : Transformer)
    (code : List Char) (inputs : Json.GoMap F) (b64 : List Char)
    (hcode : Strings.Contains code InputsPlaceholder = false)
    (hb : inputsBase64 C inputs = .ok b64) :
    t.GetRunnerScript =
        t.scriptPre ++ CodePlaceholder ++ t.scriptMid ++ InputsPlaceholder ++ t.scriptPost ∧
      TransformCaller C t code inputs =
        .ok (t.scriptPre ++ code ++ t.scriptMid ++ b64 ++ t.scriptPost, []) := by
  refine ⟨by rw [runnerScript_eq]; simp, ?_⟩
  simp only [TransformCaller, hb, replaceAll_code, replaceAll_inputs t code b64 hcode,
    GetPreloadScript, List.append_assoc]

/-- Witness of `transform_substitutes`: the Python transformer, the code of scenario A and
the inputs `{a: 1, b: 2}`. -/
theorem transform_substitutes_witness :
    Transformer.python3.GetRunnerScript =
        Transformer.python3.scriptPre ++ CodePlaceholder ++ Transformer.python3.scriptMid ++
          InputsPlaceholder ++ Transformer.python3.scriptPost ∧
      TransformCaller Json.intCodec .python3 "def main(a, b): return a + b".toList
          (Example.addCase "3").Inputs =
        .ok (Transformer.python3.scriptPre ++ "def main(a, b): return a + b".toList ++
          Transformer.python3.scriptMid ++ "eyJhIjoxLCJiIjoyfQ==".toList ++
          Transformer.python3.scriptPost, []) :=
  transform_substitutes Json.intCodec .python3 "def main(a, b): return a + b".toList
    (Example.addCase "3").Inputs "eyJhIjoxLCJiIjoyfQ==".toList rfl rfl

/-- C5 (counterexample). The generated code `{{inputs}}` with the nil inputs map, whose
base64 text is `bnVsbA==`: the second `ReplaceAll` also rewrites the code, so the result
is `pre ++ "bnVsbA==" ++ mid ++ "bnVsbA==" ++ post` and not `pre ++ code ++ mid ++ b64 ++
post`. -/
theorem transform_rewrites_placeholder_in_code :
    inputsBase64 Json.intCodec Json.GoMap.nil = .ok "bnVsbA==".toList ∧
      TransformCaller Json.intCodec .python3 "{{inputs}}".toList Json.GoMap.nil =
        .ok (Transformer.python3.scriptPre ++ "bnVsbA==".toList ++
          Transformer.python3.scriptMid ++ "bnVsbA==".toList ++
          Transformer.python3.scriptPost, []) ∧
      Transformer.python3.scriptPre ++ "bnVsbA==".toList ++
          Transformer.python3.scriptMid ++ "bnVsbA==".toList ++
          Transformer.python3.scriptPost ≠
        Transformer.python3.scriptPre ++ "{{inputs}}".toList ++
          Transformer.python3.scriptMid ++ "bnVsbA==".toList ++
          Transformer.python3.scriptPost :=
  ⟨rfl, rfl, by decide⟩

/-- C6 (counterexample). The generated code `{{code}}`: the first `ReplaceAll` puts it in
the script and nothing removes it, so the final code holds the token `{{code}}`. -/
theorem transform_keeps_placeholder_of_code :
    TransformCaller Json.intCodec .python3 "{{code}}".toList Json.GoMap.nil =
        .ok (Transformer.python3.scriptPre ++ "{{code}}".toList ++
          Transformer.python3.scriptMid ++ "bnVsbA==".toList ++
          Transformer.python3.scriptPost, []) ∧
      Strings.Contains (Transformer.python3.scriptPre ++ "{{code}}".toList ++
          Transformer.python3.scriptMid ++ "bnVsbA==".toList ++
          Transformer.python3.scriptPost) CodePlaceholder = true :=
  ⟨rfl, by rfl⟩

end Transform

/-! ## String literals: decoding what the encoder writes -/

namespace Json

theorem hexVal_hexDigit (n : Nat) (h : n < 16) : hexVal (hexDigit n) = some n := by
  interval_cases n <;> rfl

theorem unescape_u00 (n : Nat) (h : n < 128) (rest : List Char) :
    unescape ('u' :: '0' :: '0' :: hexDigit (n / 16) :: hexDigit (n % 16) :: rest) =
      some (Char.ofNat n, rest) := by
  have e1 := hexVal_hexDigit (n / 16) (by omega)
  have e2 := hexVal_hexDigit (n % 16) (by omega)
  have e0 : hexVal '0' = some 0 := rfl
  have hv : ((0 * 16 + 0) * 16 + n / 16) * 16 + n % 16 = n := by omega
  rw [unescape, if_pos rfl]
  simp only [getu4, e0, e1, e2, hv]
  rw [if_neg (by omega)]

theorem unescape_escapeChar (esc : Bool) (c : Char) (rest : List Char) :
    (escapeChar esc c = [c] ∧ c ≠ '"' ∧ c ≠ '\\' ∧ ¬ c.toNat < 0x20) ∨
    (∃ tl, escapeChar esc c = '\\' :: tl ∧ unescape (tl ++ rest) = some (c, rest)) := by
  rw [escapeChar]
  by_cases h1 : c = '"' ∨ c = '\\'
  · rw [if_pos h1]
    right
    refine ⟨[c], rfl, ?_⟩
    rcases h1 with h | h <;> subst h <;> rfl
  rw [if_neg h1]
  by_cases h2 : c = '\x08'
  · rw [if_pos h2]; right; subst h2; exact ⟨_, rfl, rfl⟩
  rw [if_neg h2]
  by_cases h3 : c = '\x0c'
  · rw [if_pos h3]; right; subst h3; exact ⟨_, rfl, rfl⟩
  rw [if_neg h3]
  by_cases h4 : c = '\n'
  · rw [if_pos h4]; right; subst h4; exact ⟨_, rfl, rfl⟩
  rw [if_neg h4]
  by_cases h5 : c = '\r'
  · rw [if_pos h5]; right; subst h5; exact ⟨_, rfl, rfl⟩
  rw [if_neg h5]
  by_cases h6 : c = '\t'
  · rw [if_pos h6]; right; subst h6; exact ⟨_, rfl, rfl⟩
  rw [if_neg h6]
  by_cases h7 : c.toNat < 0x20 ∨ (esc = true ∧ (c = '<' ∨ c = '>' ∨ c = '&'))
  · rw [if_pos h7]
    right
    refine ⟨_, rfl, ?_⟩
    have hlt : c.toNat < 128 := by
      rcases h7 with h | ⟨_, h | h | h⟩
      · omega
      · subst h; decide
      · subst h; decide
      · subst h; decide
    have := unescape_u00 c.toNat hlt rest
    rw [Char.ofNat_toNat] at this
    exact this
  rw [if_neg h7]
  by_cases h8 : c = Char.ofNat 0x2028
  · rw [if_pos h8]; right; subst h8; exact ⟨_, rfl, rfl⟩
  rw [if_neg h8]
  by_cases h9 : c = Char.ofNat 0x2029
  · rw [if_pos h9]; right; subst h9; exact ⟨_, rfl, rfl⟩
  rw [if_neg h9]
  left
  push_neg at h1 h7
  exact ⟨rfl, h1.1, h1.2, by omega⟩

theorem parseString_escaped (esc : Bool) : ∀ (s rest : List Char) (n : Nat), s.length < n →
    parseString n (s.flatMap (escapeChar esc) ++ '"' :: rest) = some (s, rest)
  | [], rest, n + 1, _ => by simp [parseString]
  | c :: s, rest, n + 1, h => by
    have ih := parseString_escaped esc s rest n (by simpa using h)
    rw [List.flatMap_cons, List.append_assoc]
    rcases unescape_escapeChar esc c (s.flatMap (escapeChar esc) ++ '"' :: rest) with
      ⟨e, h1, h2, h3⟩ | ⟨tl, e, hu⟩
    · rw [e, List.singleton_append, parseString, if_neg h1, if_neg h2, if_neg h3, ih]
    · rw [e, List.cons_append, parseString, if_neg (by decide), if_pos rfl, hu]
      simp only [ih]

theorem parseString_encodeString (esc : Bool) (s rest : List Char) (n : Nat)
    (h : s.length < n) :
    ∃ tl, encodeString esc s ++ rest = '"' :: tl ∧ parseString n tl = some (s, rest) := by
  refine ⟨s.flatMap (escapeChar esc) ++ '"' :: rest, by simp [encodeString], ?_⟩
  exact parseString_escaped esc s rest n h

end Json

/-! ## Number literals -/

namespace Json

theorem isNumChar_of_isDigit {c : Char} (h : c.isDigit = true) : isNumChar c = true := by
  simp [isNumChar, h]

theorem all_numChar_of_dropWhile (l : List Char)
    (h : ∀ c ∈ l.dropWhile Char.isDigit, isNumChar c = true) : ∀ c ∈ l, isNumChar c = true := by
  intro c hc
  rw [← List.takeWhile_append_dropWhile Char.isDigit l, List.mem_append] at hc
  rcases hc with hc | hc
  · exact isNumChar_of_isDigit (List.mem_takeWhile_imp hc)
  · exact h c hc

theorem all_numChar_of_isDigits {ds : List Char} (h : isDigits ds = true) :
    ∀ c ∈ ds, isNumChar c = true := by
  intro c hc
  simp [isDigits] at h
  exact isNumChar_of_isDigit (h.2 c hc)

theorem all_numChar_of_isExponentOpt {r : List Char} (h : isExponentOpt r = true) :
    ∀ c ∈ r, isNumChar c = true := by
  cases r with
  | nil => intro c hc; cases hc
  | cons e rest =>
    simp only [isExponentOpt] at h
    split at h
    · rename_i he
      have he1 : isNumChar e = true := by
        rcases he with he | he <;> subst he <;> decide
      cases rest with
      | nil => simp at h
      | cons s ds =>
        simp only at h
        split at h
        · rename_i hs
          have hs1 : isNumChar s = true := by
            rcases hs with hs | hs <;> subst hs <;> decide
          intro c hc
          simp only [List.mem_cons] at hc
          rcases hc with hc | hc | hc
          · rw [hc]; exact he1
          · rw [hc]; exact hs1
          · exact all_numChar_of_isDigits h c hc
        · intro c hc
          simp only [List.mem_cons] at hc
          rcases hc with hc | hc
          · rw [hc]; exact he1
          · exact all_numChar_of_isDigits h c (by simpa using hc)
    · simp at h

theorem all_numChar_of_isFractionOpt {r : List Char} (h : isFractionOpt r = true) :
    ∀ c ∈ r, isNumChar c = true := by
  unfold isFractionOpt at h
  split at h
  · rename_i d rest
    split at h
    · rename_i hd
      intro c hc
      simp only [List.mem_cons] at hc
      rcases hc with hc | hc | hc
      · rw [hc]; decide
      · rw [hc]; exact isNumChar_of_isDigit hd
      · exact all_numChar_of_dropWhile rest (all_numChar_of_isExponentOpt h) c hc
    · simp at h
  · exact all_numChar_of_isExponentOpt h

theorem unsignedLiteral_chars {b : List Char} (h : isUnsignedLiteral b = true) :
    (∀ c ∈ b, isNumChar c = true) ∧ ∃ c tl, b = c :: tl ∧ c.isDigit = true := by
  cases b with
  | nil => simp [isUnsignedLiteral] at h
  | cons d rest =>
    simp only [isUnsignedLiteral] at h
    split at h
    · rename_i hd
      subst hd
      refine ⟨?_, _, _, rfl, by decide⟩
      intro c hc
      simp only [List.mem_cons] at hc
      rcases hc with hc | hc
      · rw [hc]; decide
      · exact all_numChar_of_isFractionOpt h c hc
    · split at h
      · rename_i hd
        refine ⟨?_, _, _, rfl, hd⟩
        intro c hc
        simp only [List.mem_cons] at hc
        rcases hc with hc | hc
        · rw [hc]; exact isNumChar_of_isDigit hd
        · exact all_numChar_of_dropWhile rest (all_numChar_of_isFractionOpt h) c hc
      · simp at h

theorem numberLiteral_chars {s : List Char} (h : isNumberLiteral s = true) :
    (∀ c ∈ s, isNumChar c = true) ∧ ∃ c tl, s = c :: tl ∧ (c = '-' ∨ c.isDigit = true) := by
  unfold isNumberLiteral at h
  split at h
  · rename_i t
    obtain ⟨h1, _⟩ := unsignedLiteral_chars h
    refine ⟨?_, _, _, rfl, Or.inl rfl⟩
    intro c hc
    simp only [List.mem_cons] at hc
    rcases hc with hc | hc
    · rw [hc]; decide
    · exact h1 c hc
  · obtain ⟨h1, c, tl, e, hc⟩ := unsignedLiteral_chars h
    exact ⟨h1, c, tl, e, Or.inr hc⟩

theorem takeWhile_numChar_append {s rest : List Char} (hs : ∀ c ∈ s, isNumChar c = true)
    (hr : EndsNumber rest) :
    (s ++ rest).takeWhile isNumChar = s ∧ (s ++ rest).dropWhile isNumChar = rest := by
  induction s with
  | nil =>
    cases rest with
    | nil => simp
    | cons r rest =>
      have := hr r rfl
      simp [List.takeWhile, List.dropWhile, this]
  | cons c s ih =>
    have hc := hs c (List.mem_cons_self _ _)
    have := ih (fun d hd => hs d (List.mem_cons_of_mem _ hd))
    simp [List.takeWhile, List.dropWhile, hc, this]

end Json

/-! ## White space and single tokens -/

namespace Json

theorem skipWS_ws_append {ws : List Char} (h : ∀ c ∈ ws, isWS c = true) (rest : List Char) :
    skipWS (ws ++ rest) = skipWS rest := by
  induction ws with
  | nil => rfl
  | cons c ws ih =>
    have hc := h c (List.mem_cons_self _ _)
    simp only [skipWS, List.cons_append, List.dropWhile_cons, hc, if_true] at ih ⊢
    exact ih (fun d hd => h d (List.mem_cons_of_mem _ hd))

theorem skipWS_cons {c : Char} (h : isWS c = false) (rest : List Char) :
    skipWS (c :: rest) = c :: rest := by
  simp [skipWS, List.dropWhile_cons, h]

theorem skipWS_ws_cons {ws : List Char} (h : ∀ c ∈ ws, isWS c = true) {c : Char}
    (hc : isWS c = false) (rest : List Char) : skipWS (ws ++ c :: rest) = c :: rest := by
  rw [skipWS_ws_append h, skipWS_cons hc]

theorem isWS_iff {c : Char} : isWS c = true ↔ c = ' ' ∨ c = '\t' ∨ c = '\r' ∨ c = '\n' := by
  simp [isWS]

theorem isValueStart_facts {c : Char} (h : isValueStart c = true) :
    isWS c = false ∧ c ≠ ']' ∧ c ≠ '}' ∧ c ≠ ',' ∧ c ≠ ':' := by
  refine ⟨?_, ?_, ?_, ?_, ?_⟩
  · by_contra hc
    rw [Bool.not_eq_false, isWS_iff] at hc
    rcases hc with hc | hc | hc | hc <;> subst hc <;> exact absurd h (by decide)
  all_goals (rintro rfl; exact absurd h (by decide))

theorem endsNumber_cons {c : Char} (h : isNumChar c = false) (rest : List Char) :
    EndsNumber (c :: rest) := by
  intro d hd
  simp only [List.head?_cons, Option.some.injEq] at hd
  rw [← hd]; exact h

theorem isNumChar_of_isWS {c : Char} (h : isWS c = true) : isNumChar c = false := by
  rw [isWS_iff] at h
  rcases h with h | h | h | h <;> subst h <;> decide

theorem endsNumber_ws_cons {ws : List Char} (h : ∀ c ∈ ws, isWS c = true) {c : Char}
    (hc : isNumChar c = false) (rest : List Char) : EndsNumber (ws ++ c :: rest) := by
  cases ws with
  | nil => exact endsNumber_cons hc rest
  | cons w ws => exact endsNumber_cons (isNumChar_of_isWS (h w (List.mem_cons_self _ _))) _

theorem parseValue_number {F : Type} (num : List Char → Option F) (m : Nat) (s rest : List Char)
    (f : F) (h : isNumberLiteral s = true) (hn : num s = some f) (hr : EndsNumber rest) :
    parseValue num (m + 1) (s ++ rest) = some (.num f, rest) := by
  obtain ⟨hall, c, tl, rfl, hc⟩ := numberLiteral_chars h
  obtain ⟨h1, h2⟩ := takeWhile_numChar_append hall hr
  have k1 : c ≠ '{' := by rcases hc with hc | hc <;> rintro rfl <;> exact absurd hc (by decide)
  have k2 : c ≠ '[' := by rcases hc with hc | hc <;> rintro rfl <;> exact absurd hc (by decide)
  have k3 : c ≠ '"' := by rcases hc with hc | hc <;> rintro rfl <;> exact absurd hc (by decide)
  have k4 : c ≠ 't' := by rcases hc with hc | hc <;> rintro rfl <;> exact absurd hc (by decide)
  have k5 : c ≠ 'f' := by rcases hc with hc | hc <;> rintro rfl <;> exact absurd hc (by decide)
  have k6 : c ≠ 'n' := by rcases hc with hc | hc <;> rintro rfl <;> exact absurd hc (by decide)
  have p4 : List.isPrefixOf ['t', 'r', 'u', 'e'] (c :: (tl ++ rest)) = false := by
    simp [List.isPrefixOf, Ne.symm k4]
  have p5 : List.isPrefixOf ['f', 'a', 'l', 's', 'e'] (c :: (tl ++ rest)) = false := by
    simp [List.isPrefixOf, Ne.symm k5]
  have p6 : List.isPrefixOf ['n', 'u', 'l', 'l'] (c :: (tl ++ rest)) = false := by
    simp [List.isPrefixOf, Ne.symm k6]
  rw [List.cons_append] at h1 h2 ⊢
  rw [parseValue, if_neg k1, if_neg k2, if_neg k3, if_neg (by simp [p4]), if_neg (by simp [p5]),
    if_neg (by simp [p6]), if_pos hc]
  simp only [h1, h2, h, hn, if_true]

theorem length_le_flatMap_escape (esc : Bool) : ∀ s : List Char,
    s.length ≤ (s.flatMap (escapeChar esc)).length
  | [] => by simp
  | c :: s => by
    have ih := length_le_flatMap_escape esc s
    rw [List.flatMap_cons, List.length_append, List.length_cons]
    rcases unescape_escapeChar esc c [] with ⟨e, _⟩ | ⟨tl, e, _⟩
    · rw [e, List.length_singleton]; omega
    · rw [e, List.length_cons]; omega

theorem parseValue_string {F : Type} (num : List Char → Option F) (esc : Bool) (m : Nat)
    (s rest : List Char) :
    parseValue num (m + 1) (encodeString esc s ++ rest) = some (.str s, rest) := by
  have e : encodeString esc s ++ rest = '"' :: (s.flatMap (escapeChar esc) ++ '"' :: rest) := by
    simp [encodeString]
  have hp := parseString_escaped esc s rest
    ((s.flatMap (escapeChar esc) ++ '"' :: rest).length + 1)
    (by
      have := length_le_flatMap_escape esc s
      simp only [List.length_append, List.length_cons]
      omega)
  rw [e, parseValue, if_neg (by decide), if_neg (by decide), if_pos rfl, hp]

end Json

/-! ## The shape of encoder output -/

namespace Json

variable {F : Type}

theorem encodeString_head (esc : Bool) (s : List Char) :
    ∃ tl, encodeString esc s = '"' :: tl := ⟨_, rfl⟩

theorem encode_head (C : FloatCodec F) (hC : C.Lawful) (esc : Bool) (lay : Layout) (d : Nat)
    (v : Value F) (t : List Char) (h : encode C esc lay d v = some t) :
    ∃ c tl, t = c :: tl ∧ isValueStart c = true := by
  cases v with
  | null => simp only [encode, Option.some.injEq] at h; subst h; exact ⟨_, _, rfl, by decide⟩
  | bool b =>
    simp only [encode, Option.some.injEq] at h; subst h
    cases b
    · exact ⟨_, _, rfl, by decide⟩
    · exact ⟨_, _, rfl, by decide⟩
  | num f =>
    simp only [encode] at h
    obtain ⟨_, c, tl, e, hc⟩ := numberLiteral_chars (hC.format_literal f t h)
    refine ⟨c, tl, e, ?_⟩
    rcases hc with hc | hc
    · subst hc; decide
    · simp [isValueStart, hc]
  | str s => simp only [encode, Option.some.injEq] at h; subst h; exact ⟨_, _, rfl, by decide⟩
  | arr xs =>
    cases xs with
    | nil => simp only [encode, Option.some.injEq] at h; subst h; exact ⟨_, _, rfl, by decide⟩
    | cons x xs =>
      simp only [encode] at h
      split at h
      · simp only [Option.some.injEq] at h; subst h; exact ⟨_, _, rfl, by decide⟩
      · exact absurd h (by simp)
  | obj ms =>
    cases ms with
    | nil => simp only [encode, Option.some.injEq] at h; subst h; exact ⟨_, _, rfl, by decide⟩
    | cons x xs =>
      simp only [encode] at h
      split at h
      · simp only [Option.some.injEq] at h; subst h; exact ⟨_, _, rfl, by decide⟩
      · exact absurd h (by simp)

theorem encodeElems_cons (C : FloatCodec F) (esc : Bool) (lay : Layout) (d : Nat)
    (x : Value F) (xs : List (Value F)) (body : List Char)
    (h : encodeElems C esc lay d (x :: xs) = some body) :
    ∃ a, encode C esc lay d x = some a ∧
      ((xs = [] ∧ body = a) ∨
        (xs ≠ [] ∧ ∃ b, encodeElems C esc lay d xs = some b ∧
          body = a ++ ',' :: lay.lineBreak d ++ b)) := by
  rw [encodeElems] at h
  split at h
  · exact absurd h (by simp)
  · rename_i a ha
    refine ⟨a, ha, ?_⟩
    split at h
    · left; exact ⟨rfl, by simpa using h.symm⟩
    · right
      refine ⟨by simp, ?_⟩
      split at h
      · rename_i b hb; exact ⟨b, hb, by simpa using h.symm⟩
      · exact absurd h (by simp)

theorem encodeMembers_cons (C : FloatCodec F) (esc : Bool) (lay : Layout) (d : Nat)
    (k : List Char) (v : Value F) (ms : List (List Char × Value F)) (body : List Char)
    (h : encodeMembers C esc lay d ((k, v) :: ms) = some body) :
    ∃ a, encode C esc lay d v = some a ∧
      ((ms = [] ∧ body = encodeString esc k ++ lay.colon ++ a) ∨
        (ms ≠ [] ∧ ∃ b, encodeMembers C esc lay d ms = some b ∧
          body = encodeString esc k ++ lay.colon ++ a ++ ',' :: lay.lineBreak d ++ b)) := by
  rw [encodeMembers] at h
  split at h
  · exact absurd h (by simp)
  · rename_i a ha
    refine ⟨a, ha, ?_⟩
    split at h
    · left; exact ⟨rfl, by simpa using h.symm⟩
    · right
      refine ⟨by simp, ?_⟩
      split at h
      · rename_i b hb; exact ⟨b, hb, by simpa using h.symm⟩
      · exact absurd h (by simp)

theorem encodeElems_head (C : FloatCodec F) (hC : C.Lawful) (esc : Bool) (lay : Layout)
    (d : Nat) (xs : List (Value F)) (hne : xs ≠ []) (body : List Char)
    (h : encodeElems C esc lay d xs = some body) :
    ∃ c tl, body = c :: tl ∧ isValueStart c = true := by
  cases xs with
  | nil => exact absurd rfl hne
  | cons x xs =>
    obtain ⟨a, ha, h1 | h1⟩ := encodeElems_cons C esc lay d x xs body h
    · rw [h1.2]; exact encode_head C hC esc lay d x a ha
    · obtain ⟨_, b, _, e⟩ := h1
      obtain ⟨c, tl, e1, hc⟩ := encode_head C hC esc lay d x a ha
      exact ⟨c, tl ++ ',' :: lay.lineBreak d ++ b, by rw [e, e1]; simp, hc⟩

theorem encodeMembers_head (C : FloatCodec F) (esc : Bool) (lay : Layout)
    (d : Nat) (ms : List (List Char × Value F)) (hne : ms ≠ []) (body : List Char)
    (h : encodeMembers C esc lay d ms = some body) :
    ∃ tl, body = '"' :: tl := by
  cases ms with
  | nil => exact absurd rfl hne
  | cons p ms =>
    obtain ⟨k, v⟩ := p
    obtain ⟨a, _, h1 | h1⟩ := encodeMembers_cons C esc lay d k v ms body h
    · rw [h1.2]; exact ⟨k.flatMap (escapeChar esc) ++ '"' :: (lay.colon ++ a), by
        simp [encodeString]⟩
    · obtain ⟨_, b, _, e⟩ := h1
      rw [e]
      exact ⟨k.flatMap (escapeChar esc) ++
        '"' :: (lay.colon ++ (a ++ ',' :: (lay.lineBreak d ++ b))), by simp [encodeString]⟩

end Json

/-! ## Decoder steps on arrays and objects -/

namespace Json

variable {F : Type}

theorem parseValue_open_array (num : List Char → Option F) (n : Nat) (ws : List Char)
    (c0 : Char) (tl : List Char) (hws : ∀ c ∈ ws, isWS c = true) (hc0 : isWS c0 = false)
    (hne : c0 ≠ ']') (xs : List (Value F)) (r : List Char)
    (h : parseElems num n (c0 :: tl) = some (xs, r)) :
    parseValue num (n + 1) ('[' :: (ws ++ c0 :: tl)) = some (.arr xs, r) := by
  rw [parseValue, if_neg (by decide), if_pos rfl, skipWS_ws_cons hws hc0]
  simp only [if_neg hne, h]

theorem parseValue_open_object (num : List Char → Option F) (n : Nat) (ws : List Char)
    (c0 : Char) (tl : List Char) (hws : ∀ c ∈ ws, isWS c = true) (hc0 : isWS c0 = false)
    (hne : c0 ≠ '}') (ms : List (List Char × Value F)) (r : List Char)
    (h : parseMembers num n (c0 :: tl) = some (ms, r)) :
    parseValue num (n + 1) ('{' :: (ws ++ c0 :: tl)) = some (.obj ms, r) := by
  rw [parseValue, if_pos rfl, skipWS_ws_cons hws hc0]
  simp only [if_neg hne, h]

theorem parseElems_last (num : List Char → Option F) (n : Nat) (cs r rest : List Char)
    (v : Value F) (hv : parseValue num n cs = some (v, r)) (hr : skipWS r = ']' :: rest) :
    parseElems num (n + 1) cs = some ([v], rest) := by
  rw [parseElems, hv]
  simp only [hr, if_neg (show ¬ (']' : Char) = ',' by decide), if_true]

theorem parseElems_more (num : List Char → Option F) (n : Nat) (cs r r1 rest : List Char)
    (v : Value F) (vs : List (Value F)) (hv : parseValue num n cs = some (v, r))
    (hr : skipWS r = ',' :: r1) (hrest : parseElems num n (skipWS r1) = some (vs, rest)) :
    parseElems num (n + 1) cs = some (v :: vs, rest) := by
  rw [parseElems, hv]
  simp only [hr, if_true, hrest]

theorem parseMembers_last (num : List Char → Option F) (n : Nat) (tl r1 r2 r3 rest : List Char)
    (k : List Char) (v : Value F)
    (hk : parseString (tl.length + 1) tl = some (k, r1)) (h1 : skipWS r1 = ':' :: r2)
    (hv : parseValue num n (skipWS r2) = some (v, r3)) (h3 : skipWS r3 = '}' :: rest) :
    parseMembers num (n + 1) ('"' :: tl) = some ([(k, v)], rest) := by
  rw [parseMembers, if_pos rfl, hk]
  simp only [h1, if_true, hv, h3, if_neg (show ¬ ('}' : Char) = ',' by decide)]

theorem parseMembers_more (num : List Char → Option F) (n : Nat)
    (tl r1 r2 r3 r4 rest : List Char) (k : List Char) (v : Value F)
    (ms : List (List Char × Value F))
    (hk : parseString (tl.length + 1) tl = some (k, r1)) (h1 : skipWS r1 = ':' :: r2)
    (hv : parseValue num n (skipWS r2) = some (v, r3)) (h3 : skipWS r3 = ',' :: r4)
    (hrest : parseMembers num n (skipWS r4) = some (ms, rest)) :
    parseMembers num (n + 1) ('"' :: tl) = some ((k, v) :: ms, rest) := by
  rw [parseMembers, if_pos rfl, hk]
  simp only [h1, if_true, hv, h3, hrest]

theorem putMember_of_increasing (k : List Char) (v : Value F)
    (ms : List (List Char × Value F)) (h : membersIncreasing ((k, v) :: ms) = true) :
    putMember k v ms = (k, v) :: ms := by
  cases ms with
  | nil => rfl
  | cons p ms =>
    obtain ⟨k2, v2⟩ := p
    simp only [membersIncreasing, Bool.and_eq_true] at h
    rw [putMember, if_pos h.1]

theorem membersIncreasing_tail {α : Type} (p : List Char × α) (ms : List (List Char × α))
    (h : membersIncreasing (p :: ms) = true) : membersIncreasing ms = true := by
  cases ms with
  | nil => rfl
  | cons q ms =>
    obtain ⟨k1, v1⟩ := p
    obtain ⟨k2, v2⟩ := q
    simp only [membersIncreasing, Bool.and_eq_true] at h
    exact h.2

end Json

/-! ## Decoding the encoding of a value -/

namespace Json

variable {F G : Type}

theorem parseValue_null (num : List Char → Option F) (m : Nat) (rest : List Char) :
    parseValue num (m + 1) (['n', 'u', 'l', 'l'] ++ rest) = some (.null, rest) := by
  rw [List.cons_append, parseValue, if_neg (by decide), if_neg (by decide), if_neg (by decide),
    if_neg (by simp [List.isPrefixOf]), if_neg (by simp [List.isPrefixOf]),
    if_pos (by simp [List.isPrefixOf])]
  rfl

theorem parseValue_true (num : List Char → Option F) (m : Nat) (rest : List Char) :
    parseValue num (m + 1) (['t', 'r', 'u', 'e'] ++ rest) = some (.bool true, rest) := by
  rw [List.cons_append, parseValue, if_neg (by decide), if_neg (by decide), if_neg (by decide),
    if_pos (by simp [List.isPrefixOf])]
  rfl

theorem parseValue_false (num : List Char → Option F) (m : Nat) (rest : List Char) :
    parseValue num (m + 1) (['f', 'a', 'l', 's', 'e'] ++ rest) = some (.bool false, rest) := by
  rw [List.cons_append, parseValue, if_neg (by decide), if_neg (by decide), if_neg (by decide),
    if_neg (by simp [List.isPrefixOf]), if_pos (by simp [List.isPrefixOf])]
  rfl

theorem parseValue_empty_array (num : List Char → Option F) (m : Nat) (rest : List Char) :
    parseValue num (m + 1) (['[', ']'] ++ rest) = some (.arr [], rest) := by
  rw [List.cons_append, parseValue, if_neg (by decide), if_pos rfl, List.cons_append,
    skipWS_cons (by decide)]
  rfl

theorem parseValue_empty_object (num : List Char → Option F) (m : Nat) (rest : List Char) :
    parseValue num (m + 1) (['{', '}'] ++ rest) = some (.obj [], rest) := by
  rw [List.cons_append, parseValue, if_pos rfl, List.cons_append, skipWS_cons (by decide)]
  rfl

mutual
theorem parseValue_encode (C : FloatCodec F) (hC : C.Lawful) (esc : Bool) (lay : Layout)
    (hlay : lay.Valid) (num : List Char → Option G) (g : F → G)
    (hg : ∀ f s, C.format f = some s → num s = some (g f)) :
    ∀ (v : Value F) (d n : Nat) (t rest : List Char), encode C esc lay d v = some t →
      v.fuel ≤ n → EndsNumber rest →
      parseValue num n (t ++ rest) = some (v.mapNum g, rest)
  | .null, d, n, t, rest, h, hf, _ => by
    simp only [encode, Option.some.injEq] at h; subst h
    obtain ⟨m, rfl⟩ : ∃ m, n = m + 1 := ⟨n - 1, by simp only [Value.fuel] at hf; omega⟩
    simp only [Value.mapNum]
    exact parseValue_null num m rest
  | .bool b, d, n, t, rest, h, hf, _ => by
    simp only [encode, Option.some.injEq] at h; subst h
    obtain ⟨m, rfl⟩ : ∃ m, n = m + 1 := ⟨n - 1, by simp only [Value.fuel] at hf; omega⟩
    simp only [Value.mapNum]
    cases b
    · exact parseValue_false num m rest
    · exact parseValue_true num m rest
  | .num f, d, n, t, rest, h, hf, hr => by
    simp only [encode] at h
    obtain ⟨m, rfl⟩ : ∃ m, n = m + 1 := ⟨n - 1, by simp only [Value.fuel] at hf; omega⟩
    simp only [Value.mapNum]
    exact parseValue_number num m t rest (g f) (hC.format_literal f t h) (hg f t h) hr
  | .str s, d, n, t, rest, h, hf, _ => by
    simp only [encode, Option.some.injEq] at h; subst h
    obtain ⟨m, rfl⟩ : ∃ m, n = m + 1 := ⟨n - 1, by simp only [Value.fuel] at hf; omega⟩
    simp only [Value.mapNum]
    exact parseValue_string num esc m s rest
  | .arr [], d, n, t, rest, h, hf, _ => by
    simp only [encode, Option.some.injEq] at h; subst h
    obtain ⟨m, rfl⟩ : ∃ m, n = m + 1 := ⟨n - 1, by simp only [Value.fuel] at hf; omega⟩
    simp only [Value.mapNum, elemsMapNum]
    exact parseValue_empty_array num m rest
  | .arr (x :: xs), d, n, t, rest, h, hf, _ => by
    obtain ⟨m, rfl⟩ : ∃ m, n = m + 1 := ⟨n - 1, by simp only [Value.fuel] at hf; omega⟩
    simp only [encode] at h
    split at h
    · rename_i body hbody
      simp only [Option.some.injEq] at h; subst h
      obtain ⟨c0, tl0, e0, hc0⟩ := encodeElems_head C hC esc lay (d + 1) (x :: xs) (by simp)
        body hbody
      obtain ⟨w1, w2, _, _, _⟩ := isValueStart_facts hc0
      have ih := parseElems_encode C hC esc lay hlay num g hg (x :: xs) (d + 1) m body
        (lay.lineBreak d) rest (by simp) hbody
        (by simp only [Value.fuel] at hf; omega) (hlay.lineBreak_ws d)
      have e : ('[' :: lay.lineBreak (d + 1) ++ body ++ lay.lineBreak d ++ [']']) ++ rest =
          '[' :: (lay.lineBreak (d + 1) ++ c0 :: (tl0 ++ (lay.lineBreak d ++ ']' :: rest))) := by
        rw [e0]; simp
      rw [e, Value.mapNum]
      refine parseValue_open_array num m _ c0 _ (hlay.lineBreak_ws _) w1 w2 _ _ ?_
      rw [← ih, e0]; simp
    · exact absurd h (by simp)
  | .obj [], d, n, t, rest, h, hf, _ => by
    simp only [encode, Option.some.injEq] at h; subst h
    obtain ⟨m, rfl⟩ : ∃ m, n = m + 1 := ⟨n - 1, by simp only [Value.fuel] at hf; omega⟩
    simp only [Value.mapNum, membersMapNum]
    exact parseValue_empty_object num m rest
  | .obj (p :: ms), d, n, t, rest, h, hf, _ => by
    obtain ⟨m, rfl⟩ : ∃ m, n = m + 1 := ⟨n - 1, by simp only [Value.fuel] at hf; omega⟩
    simp only [encode] at h
    split at h
    · rename_i body hbody
      simp only [Option.some.injEq] at h; subst h
      obtain ⟨tl0, e0⟩ := encodeMembers_head C esc lay (d + 1) (p :: ms) (by simp) body hbody
      have ih := parseMembers_encode C hC esc lay hlay num g hg (p :: ms) (d + 1) m body
        (lay.lineBreak d) rest (by simp) hbody
        (by simp only [Value.fuel] at hf; omega) (hlay.lineBreak_ws d)
      have e : ('{' :: lay.lineBreak (d + 1) ++ body ++ lay.lineBreak d ++ ['}']) ++ rest =
          '{' :: (lay.lineBreak (d + 1) ++ '"' :: (tl0 ++ (lay.lineBreak d ++ '}' :: rest))) := by
        rw [e0]; simp
      rw [e, Value.mapNum]
      refine parseValue_open_object num m _ '"' _ (hlay.lineBreak_ws _) (by decide)
        (by decide) _ _ ?_
      rw [← ih, e0]; simp
    · exact absurd h (by simp)
theorem parseElems_encode (C : FloatCodec F) (hC : C.Lawful) (esc : Bool) (lay : Layout)
    (hlay : lay.Valid) (num : List Char → Option G) (g : F → G)
    (hg : ∀ f s, C.format f = some s → num s = some (g f)) :
    ∀ (xs : List (Value F)) (d n : Nat) (body ws rest : List Char), xs ≠ [] →
      encodeElems C esc lay d xs = some body → elemsFuel xs ≤ n →
      (∀ c ∈ ws, isWS c = true) →
      parseElems num n (body ++ (ws ++ ']' :: rest)) = some (elemsMapNum g xs, rest)
  | [], _, _, _, _, _, hne, _, _, _ => absurd rfl hne
  | x :: xs, d, n, body, ws, rest, _, h, hf, hws => by
    obtain ⟨m, rfl⟩ : ∃ m, n = m + 1 := ⟨n - 1, by simp only [elemsFuel] at hf; omega⟩
    simp only [elemsFuel] at hf
    obtain ⟨a, ha, ⟨hxs, hb⟩ | ⟨hxs, b, hb, e⟩⟩ := encodeElems_cons C esc lay d x xs body h
    · subst hb; subst hxs
      have hv := parseValue_encode C hC esc lay hlay num g hg x d m body (ws ++ ']' :: rest) ha
        (by omega) (endsNumber_ws_cons hws (by decide) rest)
      simp only [elemsMapNum]
      exact parseElems_last num m _ _ rest _ hv (skipWS_ws_cons hws (by decide) rest)
    · subst e
      obtain ⟨c0, tl0, e0, hc0⟩ := encodeElems_head C hC esc lay d xs hxs b hb
      have hv := parseValue_encode C hC esc lay hlay num g hg x d m a
        (',' :: (lay.lineBreak d ++ (b ++ (ws ++ ']' :: rest)))) ha
        (by omega) (endsNumber_cons (by decide) _)
      have ih := parseElems_encode C hC esc lay hlay num g hg xs d m b ws rest hxs hb
        (by omega) hws
      have e1 : (a ++ ',' :: lay.lineBreak d ++ b) ++ (ws ++ ']' :: rest) =
          a ++ ',' :: (lay.lineBreak d ++ (b ++ (ws ++ ']' :: rest))) := by simp
      rw [e1, elemsMapNum]
      refine parseElems_more num m _ _ (lay.lineBreak d ++ (b ++ (ws ++ ']' :: rest))) rest
        _ _ hv (skipWS_cons (by decide) _) ?_
      rw [e0, List.cons_append, skipWS_ws_cons (hlay.lineBreak_ws d) (isValueStart_facts hc0).1,
        ← List.cons_append, ← e0]
      exact ih
theorem parseMembers_encode (C : FloatCodec F) (hC : C.Lawful) (esc : Bool) (lay : Layout)
    (hlay : lay.Valid) (num : List Char → Option G) (g : F → G)
    (hg : ∀ f s, C.format f = some s → num s = some (g f)) :
    ∀ (ms : List (List Char × Value F)) (d n : Nat) (body ws rest : List Char), ms ≠ [] →
      encodeMembers C esc lay d ms = some body → membersFuel ms ≤ n →
      (∀ c ∈ ws, isWS c = true) →
      parseMembers num n (body ++ (ws ++ '}' :: rest)) = some (membersMapNum g ms, rest)
  | [], _, _, _, _, _, hne, _, _, _ => absurd rfl hne
  | (k, v) :: ms, d, n, body, ws, rest, _, h, hf, hws => by
    obtain ⟨m, rfl⟩ : ∃ m, n = m + 1 := ⟨n - 1, by simp only [membersFuel] at hf; omega⟩
    simp only [membersFuel] at hf
    obtain ⟨wsc, hcolon, hwsc⟩ := hlay.colon_ws
    obtain ⟨a, ha, ⟨hms, hb⟩ | ⟨hms, b, hb, e⟩⟩ := encodeMembers_cons C esc lay d k v ms body h
    · subst hb; subst hms
      obtain ⟨c0, tl0, e0, hc0⟩ := encode_head C hC esc lay d v a ha
      have hv := parseValue_encode C hC esc lay hlay num g hg v d m a (ws ++ '}' :: rest) ha
        (by omega) (endsNumber_ws_cons hws (by decide) rest)
      have e1 : (encodeString esc k ++ lay.colon ++ a) ++ (ws ++ '}' :: rest) =
          '"' :: (k.flatMap (escapeChar esc) ++
            '"' :: (':' :: (wsc ++ (a ++ (ws ++ '}' :: rest))))) := by
        rw [hcolon]; simp [encodeString]
      rw [e1]
      simp only [membersMapNum]
      refine parseMembers_last num m _ _ _ (ws ++ '}' :: rest) rest k _
        (parseString_escaped esc k _ _ ?_) (skipWS_cons (by decide) _) ?_
        (skipWS_ws_cons hws (by decide) rest)
      · have := length_le_flatMap_escape esc k
        simp only [List.length_append, List.length_cons]
        omega
      · rw [e0, List.cons_append, skipWS_ws_cons hwsc (isValueStart_facts hc0).1,
          ← List.cons_append, ← e0]
        exact hv
    · subst e
      obtain ⟨c0, tl0, e0, hc0⟩ := encode_head C hC esc lay d v a ha
      obtain ⟨tl1, e2⟩ := encodeMembers_head C esc lay d ms hms b hb
      have hv := parseValue_encode C hC esc lay hlay num g hg v d m a
        (',' :: (lay.lineBreak d ++ (b ++ (ws ++ '}' :: rest)))) ha
        (by omega) (endsNumber_cons (by decide) _)
      have ih := parseMembers_encode C hC esc lay hlay num g hg ms d m b ws rest hms hb
        (by omega) hws
      have e1 : (encodeString esc k ++ lay.colon ++ a ++ ',' :: lay.lineBreak d ++ b) ++
            (ws ++ '}' :: rest) =
          '"' :: (k.flatMap (escapeChar esc) ++
            '"' :: (':' :: (wsc ++ (a ++
              ',' :: (lay.lineBreak d ++ (b ++ (ws ++ '}' :: rest))))))) := by
        rw [hcolon]; simp [encodeString]
      rw [e1, membersMapNum]
      refine parseMembers_more num m _ _ _
        (',' :: (lay.lineBreak d ++ (b ++ (ws ++ '}' :: rest))))
        (lay.lineBreak d ++ (b ++ (ws ++ '}' :: rest))) rest k _ _
        (parseString_escaped esc k _ _ ?_) (skipWS_cons (by decide) _) ?_
        (skipWS_cons (by decide) _) ?_
      · have := length_le_flatMap_escape esc k
        simp only [List.length_append, List.length_cons]
        omega
      · rw [e0, List.cons_append, skipWS_ws_cons hwsc (isValueStart_facts hc0).1,
          ← List.cons_append, ← e0]
        exact hv
      · rw [e2, List.cons_append, skipWS_ws_cons (hlay.lineBreak_ws d) (by decide),
          ← List.cons_append, ← e2]
        exact ih
end

end Json

/-! ## Fuel, layouts and whole documents -/

namespace Json

variable {F G : Type}

mutual
theorem fuel_le_encode (C : FloatCodec F) (hC : C.Lawful) (esc : Bool) (lay : Layout) :
    ∀ (v : Value F) (d : Nat) (t : List Char), encode C esc lay d v = some t →
      v.fuel ≤ 2 * t.length
  | .null, d, t, h => by
    simp only [encode, Option.some.injEq] at h; subst h; simp [Value.fuel]
  | .bool b, d, t, h => by
    simp only [encode, Option.some.injEq] at h; subst h; cases b <;> simp [Value.fuel]
  | .num f, d, t, h => by
    simp only [encode] at h
    obtain ⟨_, c, tl, e, _⟩ := numberLiteral_chars (hC.format_literal f t h)
    subst e; simp only [Value.fuel, List.length_cons]; omega
  | .str s, d, t, h => by
    simp only [encode, Option.some.injEq] at h; subst h
    simp only [Value.fuel, encodeString, List.length_cons, List.length_append]; omega
  | .arr [], d, t, h => by
    simp only [encode, Option.some.injEq] at h; subst h; simp [Value.fuel, elemsFuel]
  | .arr (x :: xs), d, t, h => by
    simp only [encode] at h
    split at h
    · rename_i body hbody
      simp only [Option.some.injEq] at h; subst h
      have := elemsFuel_le_encode C hC esc lay (x :: xs) (d + 1) body (by simp) hbody
      simp only [Value.fuel, List.length_cons, List.length_append, List.length_nil]
      omega
    · exact absurd h (by simp)
  | .obj [], d, t, h => by
    simp only [encode, Option.some.injEq] at h; subst h; simp [Value.fuel, membersFuel]
  | .obj (p :: ms), d, t, h => by
    simp only [encode] at h
    split at h
    · rename_i body hbody
      simp only [Option.some.injEq] at h; subst h
      have := membersFuel_le_encode C hC esc lay (p :: ms) (d + 1) body (by simp) hbody
      simp only [Value.fuel, List.length_cons, List.length_append, List.length_nil]
      omega
    · exact absurd h (by simp)
theorem elemsFuel_le_encode (C : FloatCodec F) (hC : C.Lawful) (esc : Bool) (lay : Layout) :
    ∀ (xs : List (Value F)) (d : Nat) (body : List Char), xs ≠ [] →
      encodeElems C esc lay d xs = some body → elemsFuel xs ≤ 2 * body.length + 1
  | [], _, _, hne, _ => absurd rfl hne
  | x :: xs, d, body, _, h => by
    obtain ⟨a, ha, ⟨hxs, hb⟩ | ⟨hxs, b, hb, e⟩⟩ := encodeElems_cons C esc lay d x xs body h
    · subst hb; subst hxs
      have := fuel_le_encode C hC esc lay x d body ha
      simp only [elemsFuel]; omega
    · subst e
      have h1 := fuel_le_encode C hC esc lay x d a ha
      have h2 := elemsFuel_le_encode C hC esc lay xs d b hxs hb
      simp only [elemsFuel, List.length_cons, List.length_append]
      omega
theorem membersFuel_le_encode (C : FloatCodec F) (hC : C.Lawful) (esc : Bool) (lay : Layout) :
    ∀ (ms : List (List Char × Value F)) (d : Nat) (body : List Char), ms ≠ [] →
      encodeMembers C esc lay d ms = some body → membersFuel ms ≤ 2 * body.length + 1
  | [], _, _, hne, _ => absurd rfl hne
  | (k, v) :: ms, d, body, _, h => by
    obtain ⟨a, ha, ⟨hms, hb⟩ | ⟨hms, b, hb, e⟩⟩ := encodeMembers_cons C esc lay d k v ms body h
    · subst hb; subst hms
      have := fuel_le_encode C hC esc lay v d a ha
      simp only [membersFuel, List.length_append]; omega
    · subst e
      have h1 := fuel_le_encode C hC esc lay v d a ha
      have h2 := membersFuel_le_encode C hC esc lay ms d b hms hb
      simp only [membersFuel, List.length_cons, List.length_append]
      omega
end

theorem compact_valid : Layout.compact.Valid :=
  ⟨fun _ c hc => by simp [Layout.compact] at hc, ⟨[], rfl, fun c hc => by cases hc⟩⟩

theorem indented_valid (pfx indent : List Char) (hp : ∀ c ∈ pfx, isWS c = true)
    (hi : ∀ c ∈ indent, isWS c = true) : (Layout.indented pfx indent).Valid := by
  refine ⟨fun d c hc => ?_, ⟨[' '], rfl, fun c hc => ?_⟩⟩
  · simp only [Layout.indented, List.mem_cons, List.mem_append, List.mem_flatten,
      List.mem_replicate] at hc
    rcases hc with (hc | hc) | ⟨l, ⟨_, hl⟩, hc⟩
    · subst hc; decide
    · exact hp c hc
    · subst hl; exact hi c hc
  · simp only [List.mem_singleton] at hc; subst hc; decide

theorem indented4_valid : (Layout.indented [] "    ".toList).Valid :=
  indented_valid _ _ (fun c hc => by cases hc) (fun c hc => by
    simp only [String.toList, List.mem_cons, List.mem_nil_iff, or_false] at hc
    rcases hc with hc | hc | hc | hc <;> subst hc <;> decide)

/-- Scanning the encoding of a value gives its syntax tree. -/
theorem parseDocument_encode (C : FloatCodec F) (hC : C.Lawful) (esc : Bool) (lay : Layout)
    (hlay : lay.Valid) (num : List Char → Option G) (g : F → G)
    (hg : ∀ f s, C.format f = some s → num s = some (g f)) (v : Value F) (t : List Char)
    (h : encode C esc lay 0 v = some t) : parseDocument num t = some (v.mapNum g) := by
  obtain ⟨c, tl, e, hc⟩ := encode_head C hC esc lay 0 v t h
  have hfuel := fuel_le_encode C hC esc lay v 0 t h
  have hp := parseValue_encode C hC esc lay hlay num g hg v 0 (2 * t.length + 2) t [] h
    (by omega) (fun c hc => by simp at hc)
  rw [List.append_nil] at hp
  have hs : skipWS t = t := by rw [e]; exact skipWS_cons (isValueStart_facts hc).1 tl
  simp only [parseDocument, hs, hp]
  rfl

end Json

/-! ## Insertion of members and encodability -/

namespace Json

variable {F : Type}

theorem char_eq_of_toNat_eq {x y : Char} (e : x.toNat = y.toNat) : x = y :=
  calc x = Char.ofNat x.toNat := (Char.ofNat_toNat x).symm
    _ = Char.ofNat y.toNat := by rw [e]
    _ = y := Char.ofNat_toNat y

theorem keyLt_total : ∀ (a b : List Char), keyLt a b = false → a ≠ b → keyLt b a = true
  | [], [], _, h => absurd rfl h
  | [], _ :: _, h, _ => by simp [keyLt] at h
  | _ :: _, [], _, _ => by simp [keyLt]
  | x :: xs, y :: ys, h, hne => by
    simp only [keyLt, Bool.decide_or, Bool.decide_and, Bool.or_eq_false_iff,
      decide_eq_false_iff_not, Bool.and_eq_false_iff, not_lt] at h
    simp only [keyLt, Bool.decide_or, Bool.decide_and, Bool.or_eq_true, decide_eq_true_eq,
      Bool.and_eq_true]
    by_cases hxy : x = y
    · subst hxy
      right
      refine ⟨rfl, keyLt_total xs ys ?_ (fun e => hne (by rw [e]))⟩
      rcases h.2 with h2 | h2
      · exact absurd rfl h2
      · exact Bool.eq_false_iff.mpr h2
    · left
      have : x.toNat ≠ y.toNat := fun e => hxy (char_eq_of_toNat_eq e)
      omega

theorem membersIncreasing_cons {α : Type} (k : List Char) (v : α)
    (ms : List (List Char × α)) (h1 : membersIncreasing ms = true)
    (h2 : ∀ p, ms.head? = some p → keyLt k p.1 = true) :
    membersIncreasing ((k, v) :: ms) = true := by
  cases ms with
  | nil => rfl
  | cons q ms =>
    obtain ⟨k2, v2⟩ := q
    simp only [membersIncreasing, Bool.and_eq_true]
    exact ⟨h2 (k2, v2) rfl, h1⟩

theorem putMember_head (k : List Char) (v : Value F) (k0 : List Char) (h0 : keyLt k0 k = true) :
    ∀ (ms : List (List Char × Value F)),
      (∀ p, ms.head? = some p → keyLt k0 p.1 = true) →
      ∀ p, (putMember k v ms).head? = some p → keyLt k0 p.1 = true
  | [], _, p, hp => by
    simp only [putMember, List.head?_cons, Option.some.injEq] at hp
    subst hp; exact h0
  | (k1, v1) :: ms, h, p, hp => by
    have hk1 := h (k1, v1) rfl
    rw [putMember] at hp
    split at hp
    · simp only [List.head?_cons, Option.some.injEq] at hp; subst hp; exact h0
    · split at hp
      · simp only [List.head?_cons, Option.some.injEq] at hp; subst hp; exact hk1
      · simp only [List.head?_cons, Option.some.injEq] at hp; subst hp; exact hk1

theorem putMember_increasing (k : List Char) (v : Value F) :
    ∀ (ms : List (List Char × Value F)), membersIncreasing ms = true →
      membersIncreasing (putMember k v ms) = true
  | [], _ => rfl
  | (k1, v1) :: ms, h => by
    rw [putMember]
    split
    · rename_i hlt
      exact membersIncreasing_cons k v _ h (fun p hp => by
        simp only [List.head?_cons, Option.some.injEq] at hp; subst hp; exact hlt)
    · rename_i hlt
      split
      · exact h
      · rename_i hne
        have hgt : keyLt k1 k = true :=
          keyLt_total k k1 (Bool.eq_false_iff.mpr hlt) hne
        refine membersIncreasing_cons k1 v1 _
          (putMember_increasing k v ms (membersIncreasing_tail _ _ h))
          (putMember_head k v k1 hgt ms ?_)
        intro p hp
        cases ms with
        | nil => simp at hp
        | cons q ms =>
          obtain ⟨k2, v2⟩ := q
          simp only [List.head?_cons, Option.some.injEq] at hp
          subst hp
          simp only [membersIncreasing, Bool.and_eq_true] at h
          exact h.1

theorem putMember_canonical (k : List Char) (v : Value F) (hv : v.canonical = true) :
    ∀ (ms : List (List Char × Value F)), membersCanonical ms = true →
      membersCanonical (putMember k v ms) = true
  | [], _ => by simp [putMember, membersCanonical, hv]
  | (k1, v1) :: ms, h => by
    simp only [membersCanonical, Bool.and_eq_true] at h
    rw [putMember]
    split
    · simp [membersCanonical, hv, h.1, h.2]
    · split
      · simp [membersCanonical, h.1, h.2]
      · simp [membersCanonical, h.1, putMember_canonical k v hv ms h.2]

theorem putMember_encodable (C : FloatCodec F) (k : List Char) (v : Value F)
    (hv : v.encodable C = true) :
    ∀ (ms : List (List Char × Value F)), membersEncodable C ms = true →
      membersEncodable C (putMember k v ms) = true
  | [], _ => by simp [putMember, membersEncodable, hv]
  | (k1, v1) :: ms, h => by
    simp only [membersEncodable, Bool.and_eq_true] at h
    rw [putMember]
    split
    · simp [membersEncodable, hv, h.1, h.2]
    · split
      · simp [membersEncodable, h.1, h.2]
      · simp [membersEncodable, h.1, putMember_encodable C k v hv ms h.2]

mutual
theorem encode_isSome (C : FloatCodec F) (esc : Bool) (lay : Layout) :
    ∀ (v : Value F) (d : Nat), v.encodable C = true → (encode C esc lay d v).isSome = true
  | .null, _, _ => rfl
  | .bool _, _, _ => rfl
  | .num f, _, h => by simpa [encode, Value.encodable] using h
  | .str _, _, _ => rfl
  | .arr [], _, _ => rfl
  | .arr (x :: xs), d, h => by
    have := encodeElems_isSome C esc lay (x :: xs) (d + 1) (by simpa [Value.encodable] using h)
    obtain ⟨body, hb⟩ := Option.isSome_iff_exists.mp this
    simp [encode, hb]
  | .obj [], _, _ => rfl
  | .obj (p :: ms), d, h => by
    have := encodeMembers_isSome C esc lay (p :: ms) (d + 1)
      (by simpa [Value.encodable] using h)
    obtain ⟨body, hb⟩ := Option.isSome_iff_exists.mp this
    simp [encode, hb]
theorem encodeElems_isSome (C : FloatCodec F) (esc : Bool) (lay : Layout) :
    ∀ (xs : List (Value F)) (d : Nat), elemsEncodable C xs = true →
      (encodeElems C esc lay d xs).isSome = true
  | [], _, _ => rfl
  | x :: xs, d, h => by
    simp only [elemsEncodable, Bool.and_eq_true] at h
    obtain ⟨a, ha⟩ := Option.isSome_iff_exists.mp (encode_isSome C esc lay x d h.1)
    obtain ⟨b, hb⟩ := Option.isSome_iff_exists.mp (encodeElems_isSome C esc lay xs d h.2)
    cases xs with
    | nil => rw [encodeElems, ha]; rfl
    | cons y ys => rw [encodeElems, ha]; simp only [hb]; rfl
theorem encodeMembers_isSome (C : FloatCodec F) (esc : Bool) (lay : Layout) :
    ∀ (ms : List (List Char × Value F)) (d : Nat), membersEncodable C ms = true →
      (encodeMembers C esc lay d ms).isSome = true
  | [], _, _ => rfl
  | (k, v) :: ms, d, h => by
    simp only [membersEncodable, Bool.and_eq_true] at h
    obtain ⟨a, ha⟩ := Option.isSome_iff_exists.mp (encode_isSome C esc lay v d h.1)
    obtain ⟨b, hb⟩ := Option.isSome_iff_exists.mp (encodeMembers_isSome C esc lay ms d h.2)
    cases ms with
    | nil => rw [encodeMembers, ha]; rfl
    | cons y ys => rw [encodeMembers, ha]; simp only [hb]; rfl
end

end Json

/-! ## The conversion of a scanned document -/

namespace Json

variable {F G : Type}

mutual
theorem depth_mapNum (g : F → G) : ∀ v : Value F, (v.mapNum g).depth = v.depth
  | .null => rfl
  | .bool _ => rfl
  | .num _ => rfl
  | .str _ => rfl
  | .arr xs => by simp only [Value.mapNum, Value.depth, elemsDepth_mapNum g xs]
  | .obj ms => by simp only [Value.mapNum, Value.depth, membersDepth_mapNum g ms]
theorem elemsDepth_mapNum (g : F → G) :
    ∀ xs : List (Value F), elemsDepth (elemsMapNum g xs) = elemsDepth xs
  | [] => rfl
  | x :: xs => by
    simp only [elemsMapNum, elemsDepth, depth_mapNum g x, elemsDepth_mapNum g xs]
theorem membersDepth_mapNum (g : F → G) :
    ∀ ms : List (List Char × Value F), membersDepth (membersMapNum g ms) = membersDepth ms
  | [] => rfl
  | (_, v) :: ms => by
    simp only [membersMapNum, membersDepth, depth_mapNum g v, membersDepth_mapNum g ms]
end

mutual
theorem encodable_of_encode (C : FloatCodec F) (esc : Bool) (lay : Layout) :
    ∀ (v : Value F) (d : Nat) (t : List Char), encode C esc lay d v = some t →
      v.encodable C = true
  | .null, _, _, _ => rfl
  | .bool _, _, _, _ => rfl
  | .num f, _, t, h => by
    simp only [encode] at h
    simp [Value.encodable, h]
  | .str _, _, _, _ => rfl
  | .arr [], _, _, _ => rfl
  | .arr (x :: xs), d, t, h => by
    simp only [encode] at h
    split at h
    · rename_i body hbody
      simp only [Value.encodable]
      exact elemsEncodable_of_encode C esc lay (x :: xs) (d + 1) body hbody
    · exact absurd h (by simp)
  | .obj [], _, _, _ => rfl
  | .obj (p :: ms), d, t, h => by
    simp only [encode] at h
    split at h
    · rename_i body hbody
      simp only [Value.encodable]
      exact membersEncodable_of_encode C esc lay (p :: ms) (d + 1) body hbody
    · exact absurd h (by simp)
theorem elemsEncodable_of_encode (C : FloatCodec F) (esc : Bool) (lay : Layout) :
    ∀ (xs : List (Value F)) (d : Nat) (body : List Char),
      encodeElems C esc lay d xs = some body → elemsEncodable C xs = true
  | [], _, _, _ => rfl
  | x :: xs, d, body, h => by
    obtain ⟨a, ha, ⟨hxs, _⟩ | ⟨_, b, hb, _⟩⟩ := encodeElems_cons C esc lay d x xs body h
    · subst hxs
      simp [elemsEncodable, encodable_of_encode C esc lay x d a ha]
    · simp [elemsEncodable, encodable_of_encode C esc lay x d a ha,
        elemsEncodable_of_encode C esc lay xs d b hb]
theorem membersEncodable_of_encode (C : FloatCodec F) (esc : Bool) (lay : Layout) :
    ∀ (ms : List (List Char × Value F)) (d : Nat) (body : List Char),
      encodeMembers C esc lay d ms = some body → membersEncodable C ms = true
  | [], _, _, _ => rfl
  | (k, v) :: ms, d, body, h => by
    obtain ⟨a, ha, ⟨hms, _⟩ | ⟨_, b, hb, _⟩⟩ := encodeMembers_cons C esc lay d k v ms body h
    · subst hms
      simp [membersEncodable, encodable_of_encode C esc lay v d a ha]
    · simp [membersEncodable, encodable_of_encode C esc lay v d a ha,
        membersEncodable_of_encode C esc lay ms d b hb]
end

theorem parse_literal (C : FloatCodec F) (hC : C.Lawful) (f : F)
    (h : (C.format f).isSome = true) : C.parse (C.literal f) = some f := by
  obtain ⟨s, hs⟩ := Option.isSome_iff_exists.mp h
  rw [FloatCodec.literal, hs]
  exact hC.parse_format f s hs

mutual
/-- Converting the syntax tree of an encoded value gives the value back. -/
theorem decodeValue_mapNum (C : FloatCodec F) (hC : C.Lawful) :
    ∀ v : Value F, v.canonical = true → v.encodable C = true →
      decodeValue C (v.mapNum C.literal) = some v
  | .null, _, _ => rfl
  | .bool _, _, _ => rfl
  | .num f, _, h => by
    simp only [Value.encodable] at h
    simp only [Value.mapNum, decodeValue, parse_literal C hC f h]
  | .str _, _, _ => rfl
  | .arr xs, hc, he => by
    simp only [Value.canonical] at hc
    simp only [Value.encodable] at he
    simp only [Value.mapNum, decodeValue, decodeElems_mapNum C hC xs hc he]
  | .obj ms, hc, he => by
    simp only [Value.canonical, Bool.and_eq_true] at hc
    simp only [Value.encodable] at he
    simp only [Value.mapNum, decodeValue, decodeMembers_mapNum C hC ms hc.1 hc.2 he]
theorem decodeElems_mapNum (C : FloatCodec F) (hC : C.Lawful) :
    ∀ xs : List (Value F), elemsCanonical xs = true → elemsEncodable C xs = true →
      decodeElems C (elemsMapNum C.literal xs) = some xs
  | [], _, _ => rfl
  | x :: xs, hc, he => by
    simp only [elemsCanonical, Bool.and_eq_true] at hc
    simp only [elemsEncodable, Bool.and_eq_true] at he
    simp only [elemsMapNum, decodeElems, decodeValue_mapNum C hC x hc.1 he.1,
      decodeElems_mapNum C hC xs hc.2 he.2]
theorem decodeMembers_mapNum (C : FloatCodec F) (hC : C.Lawful) :
    ∀ ms : List (List Char × Value F), membersIncreasing ms = true →
      membersCanonical ms = true → membersEncodable C ms = true →
      decodeMembers C (membersMapNum C.literal ms) = some ms
  | [], _, _, _ => rfl
  | (k, v) :: ms, hi, hc, he => by
    simp only [membersCanonical, Bool.and_eq_true] at hc
    simp only [membersEncodable, Bool.and_eq_true] at he
    simp only [membersMapNum, decodeMembers, decodeValue_mapNum C hC v hc.1 he.1,
      decodeMembers_mapNum C hC ms (membersIncreasing_tail _ _ hi) hc.2 he.2,
      putMember_of_increasing k v ms hi]
end

theorem membersDepth_putMember (k : List Char) (v : Value F) :
    ∀ ms : List (List Char × Value F),
      membersDepth (putMember k v ms) ≤ max v.depth (membersDepth ms)
  | [] => by simp [putMember, membersDepth]
  | (k1, v1) :: ms => by
    have ih := membersDepth_putMember k v ms
    rw [putMember]
    split
    · simp only [membersDepth]; omega
    · split
      · simp only [membersDepth]; omega
      · simp only [membersDepth]; omega

mutual
/-- What the conversion returns: a value whose maps are sorted by key, whose floats have a
text, and that is nested no deeper than the document. -/
theorem decodeValue_sound (C : FloatCodec F) (hC : C.Lawful) :
    ∀ (t : Value (List Char)) (v : Value F), decodeValue C t = some v →
      v.canonical = true ∧ v.encodable C = true ∧ v.depth ≤ t.depth
  | .null, v, h => by
    simp only [decodeValue, Option.some.injEq] at h; subst h; exact ⟨rfl, rfl, le_refl _⟩
  | .bool _, v, h => by
    simp only [decodeValue, Option.some.injEq] at h; subst h; exact ⟨rfl, rfl, le_refl _⟩
  | .num lit, v, h => by
    simp only [decodeValue] at h
    split at h
    · rename_i f hf
      simp only [Option.some.injEq] at h; subst h
      exact ⟨rfl, by simpa [Value.encodable] using hC.format_of_parse lit f hf, le_refl _⟩
    · exact absurd h (by simp)
  | .str _, v, h => by
    simp only [decodeValue, Option.some.injEq] at h; subst h; exact ⟨rfl, rfl, le_refl _⟩
  | .arr xs, v, h => by
    simp only [decodeValue] at h
    split at h
    · rename_i ys hys
      simp only [Option.some.injEq] at h; subst h
      obtain ⟨h1, h2, h3⟩ := decodeElems_sound C hC xs ys hys
      exact ⟨by simpa [Value.canonical] using h1, by simpa [Value.encodable] using h2, by
        simp only [Value.depth]; omega⟩
    · exact absurd h (by simp)
  | .obj ms, v, h => by
    simp only [decodeValue] at h
    split at h
    · rename_i entries hms
      simp only [Option.some.injEq] at h; subst h
      obtain ⟨h0, h1, h2, h3⟩ := decodeMembers_sound C hC ms entries hms
      exact ⟨by simp [Value.canonical, h0, h1], by simpa [Value.encodable] using h2, by
        simp only [Value.depth]; omega⟩
    · exact absurd h (by simp)
theorem decodeElems_sound (C : FloatCodec F) (hC : C.Lawful) :
    ∀ (ts : List (Value (List Char))) (xs : List (Value F)), decodeElems C ts = some xs →
      elemsCanonical xs = true ∧ elemsEncodable C xs = true ∧ elemsDepth xs ≤ elemsDepth ts
  | [], xs, h => by
    simp only [decodeElems, Option.some.injEq] at h; subst h; exact ⟨rfl, rfl, le_refl _⟩
  | t :: ts, xs, h => by
    simp only [decodeElems] at h
    split at h
    · rename_i y ys hy hys
      simp only [Option.some.injEq] at h; subst h
      obtain ⟨a1, a2, a3⟩ := decodeValue_sound C hC t y hy
      obtain ⟨b1, b2, b3⟩ := decodeElems_sound C hC ts ys hys
      exact ⟨by simp [elemsCanonical, a1, b1], by simp [elemsEncodable, a2, b2], by
        simp only [elemsDepth]; omega⟩
    · exact absurd h (by simp)
theorem decodeMembers_sound (C : FloatCodec F) (hC : C.Lawful) :
    ∀ (ts : List (List Char × Value (List Char))) (ms : List (List Char × Value F)),
      decodeMembers C ts = some ms →
      membersIncreasing ms = true ∧ membersCanonical ms = true ∧
        membersEncodable C ms = true ∧ membersDepth ms ≤ membersDepth ts
  | [], ms, h => by
    simp only [decodeMembers, Option.some.injEq] at h; subst h
    exact ⟨rfl, rfl, rfl, le_refl _⟩
  | (k, t) :: ts, ms, h => by
    simp only [decodeMembers] at h
    split at h
    · rename_i y entries hy hms
      simp only [Option.some.injEq] at h; subst h
      obtain ⟨a1, a2, a3⟩ := decodeValue_sound C hC t y hy
      obtain ⟨b0, b1, b2, b3⟩ := decodeMembers_sound C hC ts entries hms
      have hd := membersDepth_putMember k y entries
      exact ⟨putMember_increasing k y entries b0, putMember_canonical k y a1 entries b1,
        putMember_encodable C k y a2 entries b2, by simp only [membersDepth]; omega⟩
    · exact absurd h (by simp)
end

/-- The text of a float the encoder writes scans as itself. -/
theorem literal_of_format (C : FloatCodec F) (f : F) (s : List Char)
    (h : C.format f = some s) : (fun lit : List Char => some lit) s = some (C.literal f) := by
  simp [FloatCodec.literal, h]

/-- Decoding the encoding of a map gives the map back, when the map is nested no deeper
than the scanner allows. -/
theorem Unmarshal_encode (C : FloatCodec F) (hC : C.Lawful) (esc : Bool) (lay : Layout)
    (hlay : lay.Valid) (m : GoMap F) (t : List Char)
    (h : encode C esc lay 0 m.toValue = some t) (hcan : m.canonical = true)
    (hdepth : m.toValue.depth ≤ maxNestingDepth) :
    Unmarshal C t = .ok m := by
  have hp := parseDocument_encode C hC esc lay hlay (fun lit => some lit) C.literal
    (literal_of_format C) m.toValue t h
  have hd : ¬ maxNestingDepth < (m.toValue.mapNum C.literal).depth := by
    rw [depth_mapNum]; omega
  have he := encodable_of_encode C esc lay m.toValue 0 t h
  have hv := decodeValue_mapNum C hC m.toValue hcan he
  unfold Unmarshal checkValid
  rw [hp]
  simp only [if_neg hd]
  cases m with
  | nil => rfl
  | mk ms =>
    simp only [GoMap.toValue, Value.mapNum, decodeValue] at hv ⊢
    split at hv
    · rename_i entries he2
      simp only [Option.some.injEq, Value.obj.injEq] at hv
      subst hv
      simp only [he2]
    · exact absurd hv (by simp)

/-- The encoding of a map nested deeper than the scanner allows is rejected. -/
theorem Unmarshal_encode_deep (C : FloatCodec F) (hC : C.Lawful) (esc : Bool) (lay : Layout)
    (hlay : lay.Valid) (m : GoMap F) (t : List Char)
    (h : encode C esc lay 0 m.toValue = some t)
    (hdepth : maxNestingDepth < m.toValue.depth) :
    Unmarshal C t = .error .malformed := by
  have hp := parseDocument_encode C hC esc lay hlay (fun lit => some lit) C.literal
    (literal_of_format C) m.toValue t h
  have hd : maxNestingDepth < (m.toValue.mapNum C.literal).depth := by
    rw [depth_mapNum]; exact hdepth
  unfold Unmarshal checkValid
  rw [hp]
  simp only [if_pos hd]

/-- What `Unmarshal` returns: a map sorted by key at every level, whose floats have a
text, nested no deeper than the scanner allows. -/
theorem Unmarshal_sound (C : FloatCodec F) (hC : C.Lawful) (data : List Char) (m : GoMap F)
    (h : Unmarshal C data = .ok m) :
    m.canonical = true ∧ m.toValue.encodable C = true ∧
      m.toValue.depth ≤ maxNestingDepth := by
  unfold Unmarshal at h
  split at h
  · exact absurd h (by simp)
  · rename_i tree hp
    have hd : tree.depth ≤ maxNestingDepth := by
      unfold checkValid at hp
      split at hp
      · exact absurd hp (by simp)
      · split at hp
        · exact absurd hp (by simp)
        · rename_i hd
          simp only [Option.some.injEq] at hp
          subst hp
          omega
    split at h
    · simp only [Except.ok.injEq] at h; subst h
      exact ⟨rfl, rfl, by simp [GoMap.toValue, Value.depth]⟩
    · rename_i ms
      split at h
      · rename_i entries he
        simp only [Except.ok.injEq] at h; subst h
        obtain ⟨h0, h1, h2, h3⟩ := decodeMembers_sound C hC ms entries he
        refine ⟨by simp [GoMap.canonical, GoMap.toValue, Value.canonical, h0, h1],
          by simpa [GoMap.toValue, Value.encodable] using h2, ?_⟩
        simp only [GoMap.toValue, Value.depth] at hd ⊢
        omega
      · exact absurd h (by simp)
    all_goals exact absurd h (by simp)

end Json

/-! ## The bound on nested calls -/

namespace Json

variable {F : Type}

theorem skipWS_length_le (s : List Char) : (skipWS s).length ≤ s.length := by
  unfold skipWS
  exact (List.dropWhile_sublist _).length_le

theorem getu4_length {cs r : List Char} {x : Nat} (h : getu4 cs = some (x, r)) :
    r.length < cs.length := by
  unfold getu4 at h
  split at h
  · split at h
    · simp only [Option.some.injEq, Prod.mk.injEq] at h
      rw [← h.2]; simp only [List.length_cons]; omega
    · exact absurd h (by simp)
  · exact absurd h (by simp)

theorem unescape_length {cs r : List Char} {x : Char} (h : unescape cs = some (x, r)) :
    r.length < cs.length := by
  unfold unescape at h
  split at h
  · exact absurd h (by simp)
  · rename_i c rest
    split at h
    · split at h
      · exact absurd h (by simp)
      · rename_i rr rest1 hg
        have h1 := getu4_length hg
        split at h
        · split at h
          · rename_i rest2
            split at h
            · rename_i rr1 rest3 hg2
              have h2 := getu4_length hg2
              split at h
              · simp only [Option.some.injEq, Prod.mk.injEq] at h
                rw [← h.2]; simp only [List.length_cons] at h1 ⊢; omega
              · simp only [Option.some.injEq, Prod.mk.injEq] at h
                rw [← h.2]; simp only [List.length_cons] at h1 ⊢; omega
            · simp only [Option.some.injEq, Prod.mk.injEq] at h
              rw [← h.2]; simp only [List.length_cons] at h1 ⊢; omega
          · simp only [Option.some.injEq, Prod.mk.injEq] at h
            rw [← h.2]; simp only [List.length_cons]; omega
        · simp only [Option.some.injEq, Prod.mk.injEq] at h
          rw [← h.2]; simp only [List.length_cons]; omega
    · have hlen : ∀ y : Char, some (y, rest) = some (x, r) → r.length < (c :: rest).length := by
        intro y hy
        simp only [Option.some.injEq, Prod.mk.injEq] at hy
        rw [← hy.2]; simp
      split at h
      · exact hlen _ h
      · split at h
        · exact hlen _ h
        · split at h
          · exact hlen _ h
          · split at h
            · exact hlen _ h
            · split at h
              · exact hlen _ h
              · split at h
                · exact hlen _ h
                · exact absurd h (by simp)

theorem parseString_length : ∀ (n : Nat) (cs s r : List Char),
    parseString n cs = some (s, r) → r.length < cs.length
  | 0, _, _, _, h => by simp [parseString] at h
  | _ + 1, [], _, _, h => by simp [parseString] at h
  | n + 1, c :: rest, s, r, h => by
    rw [parseString] at h
    split at h
    · simp only [Option.some.injEq, Prod.mk.injEq] at h
      rw [← h.2]; simp
    · split at h
      · split at h
        · exact absurd h (by simp)
        · rename_i x rest1 hu
          have h1 := unescape_length hu
          split at h
          · rename_i s1 rest2 hp
            have h2 := parseString_length n rest1 s1 rest2 hp
            simp only [Option.some.injEq, Prod.mk.injEq] at h
            rw [← h.2]; simp only [List.length_cons]; omega
          · exact absurd h (by simp)
      · split at h
        · exact absurd h (by simp)
        · split at h
          · rename_i s1 rest1 hp
            have h2 := parseString_length n rest s1 rest1 hp
            simp only [Option.some.injEq, Prod.mk.injEq] at h
            rw [← h.2]; simp only [List.length_cons]; omega
          · exact absurd h (by simp)

theorem dropWhile_numChar_length (c : Char) (cs : List Char) (h : c = '-' ∨ c.isDigit = true) :
    ((c :: cs).dropWhile isNumChar).length < (c :: cs).length := by
  have hc : isNumChar c = true := by
    rcases h with h | h
    · subst h; rfl
    · simp [isNumChar, h]
  rw [List.dropWhile_cons_of_pos hc]
  have := (List.dropWhile_sublist isNumChar (l := cs)).length_le
  simp only [List.length_cons]; omega

mutual
theorem parseValue_fuel (num : List Char → Option F) :
    ∀ (n : Nat) (cs : List Char) (v : Value F) (rest : List Char),
      parseValue num n cs = some (v, rest) →
      rest.length < cs.length ∧
        ∀ m, 2 * (cs.length - rest.length) ≤ m → parseValue num m cs = some (v, rest)
  | 0, _, _, _, h => by simp [parseValue] at h
  | _ + 1, [], _, _, h => by simp [parseValue] at h
  | n + 1, c :: cs, v, rest, h => by
    rw [parseValue] at h
    have hws := skipWS_length_le cs
    split at h
    · rename_i hc
      split at h
      · exact absurd h (by simp)
      · rename_i c1 rest1 hsk
        rw [hsk] at hws
        simp only [List.length_cons] at hws
        split at h
        · rename_i hc1
          simp only [Option.some.injEq, Prod.mk.injEq] at h
          obtain ⟨h1, h2⟩ := h
          subst h1 h2
          refine ⟨by simp only [List.length_cons]; omega, fun m hm => ?_⟩
          obtain ⟨m1, rfl⟩ : ∃ m1, m = m1 + 1 := ⟨m - 1, by
            simp only [List.length_cons] at hm; omega⟩
          rw [parseValue, if_pos hc, hsk]
          simp only [if_pos hc1]
        · rename_i hc1
          split at h
          · rename_i ms r hm
            simp only [Option.some.injEq, Prod.mk.injEq] at h
            obtain ⟨h1, h2⟩ := h
            subst h1 h2
            obtain ⟨hl, hf⟩ := parseMembers_fuel num n _ ms r hm
            simp only [List.length_cons] at hl
            refine ⟨by simp only [List.length_cons]; omega, fun m hm => ?_⟩
            obtain ⟨m1, rfl⟩ : ∃ m1, m = m1 + 1 := ⟨m - 1, by
              simp only [List.length_cons] at hm; omega⟩
            rw [parseValue, if_pos hc, hsk]
            simp only [if_neg hc1]
            rw [hf m1 (by simp only [List.length_cons] at hm ⊢; omega)]
          · exact absurd h (by simp)
    · rename_i hc
      split at h
      · rename_i hb
        split at h
        · exact absurd h (by simp)
        · rename_i c1 rest1 hsk
          rw [hsk] at hws
          simp only [List.length_cons] at hws
          split at h
          · rename_i hc1
            simp only [Option.some.injEq, Prod.mk.injEq] at h
            obtain ⟨h1, h2⟩ := h
            subst h1 h2
            refine ⟨by simp only [List.length_cons]; omega, fun m hm => ?_⟩
            obtain ⟨m1, rfl⟩ : ∃ m1, m = m1 + 1 := ⟨m - 1, by
              simp only [List.length_cons] at hm; omega⟩
            rw [parseValue, if_neg hc, if_pos hb, hsk]
            simp only [if_pos hc1]
          · rename_i hc1
            split at h
            · rename_i xs r hm
              simp only [Option.some.injEq, Prod.mk.injEq] at h
              obtain ⟨h1, h2⟩ := h
              subst h1 h2
              obtain ⟨hl, hf⟩ := parseElems_fuel num n _ xs r hm
              simp only [List.length_cons] at hl
              refine ⟨by simp only [List.length_cons]; omega, fun m hm => ?_⟩
              obtain ⟨m1, rfl⟩ : ∃ m1, m = m1 + 1 := ⟨m - 1, by
                simp only [List.length_cons] at hm; omega⟩
              rw [parseValue, if_neg hc, if_pos hb, hsk]
              simp only [if_neg hc1]
              rw [hf m1 (by simp only [List.length_cons] at hm ⊢; omega)]
            · exact absurd h (by simp)
      · -- every other value is a leaf: the parse does not depend on the bound
        rename_i hb
        have hleaf : ∀ m, parseValue num (m + 1) (c :: cs) = parseValue num (n + 1) (c :: cs) := by
          intro m
          rw [parseValue, parseValue, if_neg hc, if_neg hb, if_neg hc, if_neg hb]
        have hlen : rest.length < (c :: cs).length := by
          split at h
          · split at h
            · rename_i s r hp
              simp only [Option.some.injEq, Prod.mk.injEq] at h
              have := parseString_length _ _ _ _ hp
              rw [← h.2]; simp only [List.length_cons]; omega
            · exact absurd h (by simp)
          · split at h
            · simp only [Option.some.injEq, Prod.mk.injEq] at h
              rw [← h.2]; simp only [List.length_cons, List.length_drop]; omega
            · split at h
              · simp only [Option.some.injEq, Prod.mk.injEq] at h
                rw [← h.2]; simp only [List.length_cons, List.length_drop]; omega
              · split at h
                · simp only [Option.some.injEq, Prod.mk.injEq] at h
                  rw [← h.2]; simp only [List.length_cons, List.length_drop]; omega
                · split at h
                  · rename_i hd
                    simp only at h
                    split at h
                    · split at h
                      · simp only [Option.some.injEq, Prod.mk.injEq] at h
                        rw [← h.2]
                        exact dropWhile_numChar_length c cs hd
                      · exact absurd h (by simp)
                    · exact absurd h (by simp)
                  · exact absurd h (by simp)
        refine ⟨hlen, fun m hm => ?_⟩
        obtain ⟨m1, rfl⟩ : ∃ m1, m = m1 + 1 := ⟨m - 1, by omega⟩
        rw [hleaf m1, parseValue, if_neg hc, if_neg hb]
        exact h
theorem parseElems_fuel (num : List Char → Option F) :
    ∀ (n : Nat) (cs : List Char) (xs : List (Value F)) (rest : List Char),
      parseElems num n cs = some (xs, rest) →
      rest.length < cs.length ∧
        ∀ m, 2 * (cs.length - rest.length) + 1 ≤ m → parseElems num m cs = some (xs, rest)
  | 0, _, _, _, h => by simp [parseElems] at h
  | n + 1, cs, xs, rest, h => by
    rw [parseElems] at h
    split at h
    · exact absurd h (by simp)
    · rename_i v r hv
      obtain ⟨hl, hf⟩ := parseValue_fuel num n cs v r hv
      have hws := skipWS_length_le r
      split at h
      · exact absurd h (by simp)
      · rename_i c rest1 hsk
        rw [hsk] at hws
        simp only [List.length_cons] at hws
        split at h
        · rename_i hc
          split at h
          · rename_i vs r2 hvs
            simp only [Option.some.injEq, Prod.mk.injEq] at h
            obtain ⟨h1, h2⟩ := h
            subst h1 h2
            obtain ⟨hl2, hf2⟩ := parseElems_fuel num n _ vs r2 hvs
            have hws2 := skipWS_length_le rest1
            refine ⟨by omega, fun m hm => ?_⟩
            obtain ⟨m1, rfl⟩ : ∃ m1, m = m1 + 1 := ⟨m - 1, by omega⟩
            rw [parseElems, hf m1 (by omega)]
            simp only [hsk, if_pos hc]
            rw [hf2 m1 (by omega)]
          · exact absurd h (by simp)
        · rename_i hc
          split at h
          · rename_i hc2
            simp only [Option.some.injEq, Prod.mk.injEq] at h
            obtain ⟨h1, h2⟩ := h
            subst h1 h2
            refine ⟨by omega, fun m hm => ?_⟩
            obtain ⟨m1, rfl⟩ : ∃ m1, m = m1 + 1 := ⟨m - 1, by omega⟩
            rw [parseElems, hf m1 (by omega)]
            simp only [hsk, if_neg hc, if_pos hc2]
          · exact absurd h (by simp)
theorem parseMembers_fuel (num : List Char → Option F) :
    ∀ (n : Nat) (cs : List Char) (ms : List (List Char × Value F)) (rest : List Char),
      parseMembers num n cs = some (ms, rest) →
      rest.length < cs.length ∧
        ∀ m, 2 * (cs.length - rest.length) + 1 ≤ m → parseMembers num m cs = some (ms, rest)
  | 0, _, _, _, h => by simp [parseMembers] at h
  | _ + 1, [], _, _, h => by simp [parseMembers] at h
  | n + 1, q :: cs, ms, rest, h => by
    rw [parseMembers] at h
    split at h
    · rename_i hq
      split at h
      · exact absurd h (by simp)
      · rename_i k r1 hk
        have hkl := parseString_length _ _ _ _ hk
        have hws1 := skipWS_length_le r1
        split at h
        · exact absurd h (by simp)
        · rename_i c r2 hsk1
          rw [hsk1] at hws1
          simp only [List.length_cons] at hws1
          have hws2 := skipWS_length_le r2
          split at h
          · rename_i hc
            split at h
            · exact absurd h (by simp)
            · rename_i v r3 hv
              obtain ⟨hl, hf⟩ := parseValue_fuel num n _ v r3 hv
              have hws3 := skipWS_length_le r3
              split at h
              · exact absurd h (by simp)
              · rename_i c1 r4 hsk3
                rw [hsk3] at hws3
                simp only [List.length_cons] at hws3
                split at h
                · rename_i hc1
                  split at h
                  · rename_i ms1 r5 hms
                    simp only [Option.some.injEq, Prod.mk.injEq] at h
                    obtain ⟨h1, h2⟩ := h
                    subst h1 h2
                    obtain ⟨hl2, hf2⟩ := parseMembers_fuel num n _ ms1 r5 hms
                    have hws4 := skipWS_length_le r4
                    refine ⟨by simp only [List.length_cons]; omega, fun m hm => ?_⟩
                    simp only [List.length_cons] at hm
                    obtain ⟨m1, rfl⟩ : ∃ m1, m = m1 + 1 := ⟨m - 1, by omega⟩
                    rw [parseMembers, if_pos hq, hk]
                    simp only [hsk1, if_pos hc]
                    rw [hf m1 (by omega)]
                    simp only [hsk3, if_pos hc1]
                    rw [hf2 m1 (by omega)]
                  · exact absurd h (by simp)
                · rename_i hc1
                  split at h
                  · rename_i hc2
                    simp only [Option.some.injEq, Prod.mk.injEq] at h
                    obtain ⟨h1, h2⟩ := h
                    subst h1 h2
                    refine ⟨by simp only [List.length_cons]; omega, fun m hm => ?_⟩
                    simp only [List.length_cons] at hm
                    obtain ⟨m1, rfl⟩ : ∃ m1, m = m1 + 1 := ⟨m - 1, by omega⟩
                    rw [parseMembers, if_pos hq, hk]
                    simp only [hsk1, if_pos hc]
                    rw [hf m1 (by omega)]
                    simp only [hsk3, if_neg hc1, if_pos hc2]
                  · exact absurd h (by simp)
          · exact absurd h (by simp)
    · exact absurd h (by simp)
end

/-- The bound `parseDocument` passes is enough: a parse found with any bound on nested
calls is the one `parseDocument` returns. -/
theorem parseDocument_of_parseValue (num : List Char → Option F) (n : Nat) (data : List Char)
    (v : Value F) (rest : List Char)
    (h : parseValue num n (skipWS data) = some (v, rest)) (hrest : skipWS rest = []) :
    parseDocument num data = some v := by
  obtain ⟨hl, hf⟩ := parseValue_fuel num n _ v rest h
  have hws := skipWS_length_le data
  unfold parseDocument
  rw [hf _ (by omega)]
  simp only [hrest, if_true]

end Json

/-! ## The integer codec satisfies the codec laws -/

namespace Json

theorem digitChar_facts (d : Nat) (h : d < 10) :
    (Char.ofNat (48 + d)).isDigit = true ∧ (Char.ofNat (48 + d)).toNat - 48 = d ∧
      (Char.ofNat (48 + d) = '0' → d = 0) ∧ Char.ofNat (48 + d) ≠ '-' := by
  interval_cases d <;> exact ⟨by decide, by decide, by decide, by decide⟩

theorem intDigits_shape : ∀ (fuel n : Nat) (acc : List Char), n < fuel →
    ∃ d ds, intDigits fuel n acc = d :: (ds ++ acc) ∧ d.isDigit = true ∧
      (∀ c ∈ ds, c.isDigit = true) ∧ d ≠ '-' ∧ (n ≠ 0 → d ≠ '0') ∧ (n = 0 → ds = [])
  | 0, _, _, h => absurd h (Nat.not_lt_zero _)
  | fuel + 1, n, acc, h => by
    obtain ⟨f1, _, f3, f4⟩ := digitChar_facts (n % 10) (Nat.mod_lt _ (by decide))
    rw [intDigits]
    split
    · rename_i h0
      refine ⟨_, [], rfl, f1, ?_, f4, fun hn hc => ?_, fun _ => rfl⟩
      · intro c hc; cases hc
      · have := f3 hc
        omega
    · rename_i h0
      obtain ⟨d, ds, e, hd, hds, hm, hnz, _⟩ :=
        intDigits_shape fuel (n / 10) (Char.ofNat (48 + n % 10) :: acc) (by omega)
      refine ⟨d, ds ++ [Char.ofNat (48 + n % 10)], by rw [e]; simp, hd, ?_, hm,
        fun _ => hnz h0, fun hn => ?_⟩
      · intro c hc
        simp only [List.mem_append, List.mem_singleton] at hc
        rcases hc with hc | hc
        · exact hds c hc
        · rw [hc]; exact f1
      · subst hn; exact absurd rfl h0

theorem intDigits_value : ∀ (fuel n : Nat) (acc : List Char), n < fuel →
    List.foldl (fun a c => a * 10 + (c.toNat - 48)) 0 (intDigits fuel n acc) =
      List.foldl (fun a c => a * 10 + (c.toNat - 48)) n acc
  | 0, _, _, h => absurd h (Nat.not_lt_zero _)
  | fuel + 1, n, acc, h => by
    obtain ⟨_, f2, _, _⟩ := digitChar_facts (n % 10) (Nat.mod_lt _ (by decide))
    rw [intDigits]
    split
    · rename_i h0
      simp only [List.foldl_cons, f2]
      congr 1
      omega
    · rw [intDigits_value fuel (n / 10) _ (by omega)]
      simp only [List.foldl_cons, f2]
      congr 1
      omega

theorem natToText_spec (n : Nat) :
    isDigits (natToText n) = true ∧ isUnsignedLiteral (natToText n) = true ∧
      textToNat (natToText n) = n ∧ ∃ d ds, natToText n = d :: ds ∧ d ≠ '-' := by
  obtain ⟨d, ds, e, hd, hds, hm, hnz, hz⟩ := intDigits_shape (n + 1) n [] (Nat.lt_succ_self n)
  have hv := intDigits_value (n + 1) n [] (Nat.lt_succ_self n)
  rw [List.append_nil] at e
  have hall : ∀ c ∈ d :: ds, c.isDigit = true := by
    intro c hc
    simp only [List.mem_cons] at hc
    rcases hc with hc | hc
    · rw [hc]; exact hd
    · exact hds c hc
  refine ⟨?_, ?_, ?_, d, ds, e, hm⟩
  · rw [natToText, e]
    simp only [isDigits, ne_eq, reduceCtorEq, not_false_eq_true, List.all_eq_true, true_and,
      decide_eq_true_eq]
    exact hall
  · rw [natToText, e, isUnsignedLiteral]
    split
    · rename_i h0
      have : ds = [] := by
        by_cases hn : n = 0
        · exact hz hn
        · exact absurd h0 (hnz hn)
      subst this; rfl
    · have : ds.dropWhile Char.isDigit = [] := by
        rw [List.dropWhile_eq_nil_iff]; exact hds
      rw [this]; rfl
  · simpa [textToNat, natToText] using hv

theorem intCodec_lawful : intCodec.Lawful := by
  refine ⟨fun f s h => ?_, fun f s h => ?_, fun _ f _ => rfl⟩
  · simp only [intCodec, Option.some.injEq] at h
    subst h
    split
    · exact (natToText_spec _).2.1
    · obtain ⟨_, h2, _, d, ds, e, hm⟩ := natToText_spec f.toNat
      rw [e] at h2 ⊢
      unfold isNumberLiteral
      split
      · rename_i t heq
        simp only [List.cons.injEq] at heq
        exact absurd heq.1 hm
      · exact h2
  · simp only [intCodec, Option.some.injEq] at h
    subst h
    split
    · rename_i hneg
      obtain ⟨h1, _, h3, _⟩ := natToText_spec f.natAbs
      simp only [intCodec, h1, if_true, h3, Option.some.injEq]
      omega
    · rename_i hneg
      obtain ⟨h1, _, h3, d, ds, e, hm⟩ := natToText_spec f.toNat
      simp only [intCodec]
      split
      · rename_i t heq
        rw [e] at heq
        simp only [List.cons.injEq] at heq
        exact absurd heq.1 hm
      · simp only [h1, if_true, h3, Option.some.injEq]
        omega

end Json

/-! ## The scanner on texts of the grammar -/

namespace Json

variable {F : Type}

theorem getu4_hex4 (a b c d : Char) (rest : List Char)
    (h : (StrItem.unicode a b c d).wellFormed = true) :
    getu4 (a :: b :: c :: d :: rest) = some (hex4 a b c d, rest) := by
  simp only [StrItem.wellFormed, Bool.decide_and, Bool.and_eq_true, decide_eq_true_eq] at h
  obtain ⟨ha, hb, hc, hd⟩ := h
  obtain ⟨x, hx⟩ := Option.isSome_iff_exists.mp ha
  obtain ⟨y, hy⟩ := Option.isSome_iff_exists.mp hb
  obtain ⟨z, hz⟩ := Option.isSome_iff_exists.mp hc
  obtain ⟨w, hw⟩ := Option.isSome_iff_exists.mp hd
  simp only [getu4, hex4, hx, hy, hz, hw, Option.getD_some]

theorem unescape_escape (c : Char) (rest : List Char)
    (h : (StrItem.escape c).wellFormed = true) :
    unescape (c :: rest) = some (escapeValue c, rest) := by
  simp only [StrItem.wellFormed, Bool.decide_or, Bool.or_eq_true, decide_eq_true_eq] at h
  rcases h with h | h | h | h | h | h | h | h <;> subst h <;> rfl

theorem escape_ne_u (c : Char) (h : (StrItem.escape c).wellFormed = true) : c ≠ 'u' := by
  simp only [StrItem.wellFormed, Bool.decide_or, Bool.or_eq_true, decide_eq_true_eq] at h
  rcases h with h | h | h | h | h | h | h | h <;> subst h <;> decide

theorem itemsText_cons (x : StrItem) (t : List StrItem) :
    itemsText (x :: t) = x.text ++ itemsText t := by
  simp [itemsText]

/-- The escape `\u` of a well-formed item, read in front of well-formed items. -/
theorem unescape_unicode (a b c d : Char) (hw : (StrItem.unicode a b c d).wellFormed = true)
    (t : List StrItem) (ht : t.all StrItem.wellFormed = true) (rest : List Char) :
    unescape ('u' :: a :: b :: c :: d :: (itemsText t ++ '"' :: rest)) =
      if 0xd800 ≤ hex4 a b c d ∧ hex4 a b c d < 0xe000 then
        match surrogatePair (hex4 a b c d) t with
        | some pair => some (pair, itemsText t.tail ++ '"' :: rest)
        | none => some (Char.ofNat 0xfffd, itemsText t ++ '"' :: rest)
      else some (Char.ofNat (hex4 a b c d), itemsText t ++ '"' :: rest) := by
  rw [unescape, if_pos rfl, getu4_hex4 a b c d _ hw]
  simp only
  by_cases hs : 0xd800 ≤ hex4 a b c d ∧ hex4 a b c d < 0xe000
  · rw [if_pos hs, if_pos hs]
    cases t with
    | nil => rfl
    | cons x t1 =>
      simp only [List.all_cons, Bool.and_eq_true] at ht
      cases x with
      | plain p =>
        have hp := ht.1
        simp only [StrItem.wellFormed, Bool.decide_and, Bool.and_eq_true,
          decide_eq_true_eq] at hp
        simp only [itemsText_cons, StrItem.text, List.singleton_append, List.cons_append,
          surrogatePair]
        split
        · rename_i heq
          simp only [List.cons.injEq] at heq
          exact absurd heq.1 hp.2.1
        · rfl
      | escape e =>
        have he := escape_ne_u e ht.1
        simp only [itemsText_cons, StrItem.text, List.cons_append, List.nil_append,
          surrogatePair]
        split
        · rename_i heq
          simp only [List.cons.injEq] at heq
          exact absurd heq.2.1 he
        · rfl
      | unicode a1 b1 c1 d1 =>
        simp only [itemsText_cons, StrItem.text, List.cons_append, List.nil_append,
          surrogatePair, List.tail_cons]
        rw [getu4_hex4 a1 b1 c1 d1 _ ht.1]
        simp only
        by_cases hp : hex4 a b c d < 0xdc00 ∧ 0xdc00 ≤ hex4 a1 b1 c1 d1 ∧
            hex4 a1 b1 c1 d1 < 0xe000
        · rw [if_pos hp, if_pos hp]
        · rw [if_neg hp, if_neg hp]
  · rw [if_neg hs, if_neg hs]

theorem itemsValueGo_true (x : StrItem) (t : List StrItem) :
    itemsValueGo true (x :: t) = itemsValueGo false t := by
  cases x <;> rfl

theorem surrogatePair_cons {rr : Nat} {t : List StrItem} {pair : Char}
    (h : surrogatePair rr t = some pair) : ∃ x t1, t = x :: t1 := by
  cases t with
  | nil => simp [surrogatePair] at h
  | cons x t1 => exact ⟨x, t1, rfl⟩

/-- Reading a string literal of the grammar gives the string it stands for. -/
theorem parseString_items (rest : List Char) : ∀ (k : Nat) (items : List StrItem) (n : Nat),
    items.length ≤ k → items.all StrItem.wellFormed = true → (itemsText items).length < n →
    parseString n (itemsText items ++ '"' :: rest) = some (itemsValue items, rest)
  | _, [], n + 1, _, _, _ => by simp [itemsText, parseString, itemsValue, itemsValueGo]
  | k + 1, x :: t, n + 1, hk, hw, hn => by
    simp only [List.all_cons, Bool.and_eq_true] at hw
    simp only [List.length_cons, Nat.add_le_add_iff_right] at hk
    have hlen : (itemsText (x :: t)).length = x.text.length + (itemsText t).length := by
      rw [itemsText_cons, List.length_append]
    cases x with
    | plain p =>
      have hp := hw.1
      simp only [StrItem.wellFormed, Bool.decide_and, Bool.and_eq_true,
        decide_eq_true_eq] at hp
      have ih := parseString_items rest k t n hk hw.2 (by
        simp only [hlen, StrItem.text, List.length_singleton] at hn; omega)
      simp only [itemsText_cons, StrItem.text, List.singleton_append, List.cons_append]
      rw [parseString, if_neg hp.1, if_neg hp.2.1, if_neg (by omega), List.nil_append, ih]
      rfl
    | escape e =>
      have ih := parseString_items rest k t n hk hw.2 (by
        simp only [hlen, StrItem.text, List.length_cons, List.length_nil] at hn; omega)
      simp only [itemsText_cons, StrItem.text, List.cons_append, List.nil_append]
      rw [parseString, if_neg (by decide), if_pos rfl, unescape_escape e _ hw.1]
      simp only [ih]
      rfl
    | unicode a b c d =>
      have hn' : (itemsText t).length + 6 ≤ n + 1 := by
        simp only [hlen, StrItem.text, List.length_cons, List.length_nil] at hn; omega
      simp only [itemsText_cons, StrItem.text, List.cons_append, List.nil_append]
      rw [parseString, if_neg (by decide), if_pos rfl, unescape_unicode a b c d hw.1 t hw.2]
      by_cases hs : 0xd800 ≤ hex4 a b c d ∧ hex4 a b c d < 0xe000
      · rw [if_pos hs]
        cases hp : surrogatePair (hex4 a b c d) t with
        | none =>
          have ih := parseString_items rest k t n hk hw.2 (by omega)
          simp only [ih, itemsValue, itemsValueGo, if_pos hs, hp]
        | some pair =>
          obtain ⟨y, t1, rfl⟩ := surrogatePair_cons hp
          simp only [List.all_cons, Bool.and_eq_true] at hw
          have hl1 : (itemsText t1).length ≤ (itemsText (y :: t1)).length := by
            rw [itemsText_cons, List.length_append]; omega
          have ih := parseString_items rest k t1 n
            (by simp only [List.length_cons] at hk; omega) hw.2.2 (by omega)
          simp only [List.tail_cons, ih, itemsValue, itemsValueGo, if_pos hs, hp,
            itemsValueGo_true]
      · rw [if_neg hs]
        have ih := parseString_items rest k t n hk hw.2 (by omega)
        simp only [ih, itemsValue, itemsValueGo, if_neg hs]

theorem delimited_nil : Delimited [] := Or.inl rfl

theorem delimited_cons {c : Char} (h : c = ',' ∨ c = ']' ∨ c = '}') (tl : List Char) :
    Delimited (c :: tl) := Or.inr ⟨c, tl, rfl, h⟩

theorem skipWS_delimited {ws rest : List Char} (hws : ∀ c ∈ ws, isWS c = true)
    (h : Delimited rest) : skipWS (ws ++ rest) = rest := by
  rcases h with h | ⟨c, tl, e, hc⟩
  · subst h; rw [skipWS_ws_append hws]; rfl
  · subst e
    exact skipWS_ws_cons hws (by rcases hc with hc | hc | hc <;> subst hc <;> decide) tl

theorem endsNumber_delimited {ws rest : List Char} (hws : ∀ c ∈ ws, isWS c = true)
    (h : Delimited rest) : EndsNumber (ws ++ rest) := by
  rcases h with h | ⟨c, tl, e, hc⟩
  · subst h
    cases ws with
    | nil => intro c hc; simp at hc
    | cons w ws => exact endsNumber_cons (isNumChar_of_isWS (hws w (List.mem_cons_self _ _))) _
  · subst e
    exact endsNumber_ws_cons hws (by rcases hc with hc | hc | hc <;> subst hc <;> decide) tl

theorem all_isWS {ws : List Char} (h : ws.all isWS = true) : ∀ c ∈ ws, isWS c = true := by
  simpa using h

theorem parseValue_array_of_skip (num : List Char → Option F) (n : Nat)
    (rest0 : List Char) (c0 : Char) (tl : List Char) (h1 : skipWS rest0 = c0 :: tl)
    (hne : c0 ≠ ']') (xs : List (Value F)) (r : List Char)
    (h : parseElems num n (c0 :: tl) = some (xs, r)) :
    parseValue num (n + 1) ('[' :: rest0) = some (.arr xs, r) := by
  rw [parseValue, if_neg (by decide), if_pos rfl, h1]
  simp only [if_neg hne, h]

theorem parseValue_object_of_skip (num : List Char → Option F) (n : Nat)
    (rest0 : List Char) (c0 : Char) (tl : List Char) (h1 : skipWS rest0 = c0 :: tl)
    (hne : c0 ≠ '}') (ms : List (List Char × Value F)) (r : List Char)
    (h : parseMembers num n (c0 :: tl) = some (ms, r)) :
    parseValue num (n + 1) ('{' :: rest0) = some (.obj ms, r) := by
  rw [parseValue, if_pos rfl, h1]
  simp only [if_neg hne, h]

theorem parseValue_array_empty (num : List Char → Option F) (n : Nat)
    (rest0 r : List Char) (h1 : skipWS rest0 = ']' :: r) :
    parseValue num (n + 1) ('[' :: rest0) = some (.arr [], r) := by
  rw [parseValue, if_neg (by decide), if_pos rfl, h1]
  simp only [if_true]

theorem parseValue_object_empty (num : List Char → Option F) (n : Nat)
    (rest0 r : List Char) (h1 : skipWS rest0 = '}' :: r) :
    parseValue num (n + 1) ('{' :: rest0) = some (.obj [], r) := by
  rw [parseValue, if_pos rfl, h1]
  simp only [if_true]

/-- A document starts, after white space, with a character that starts a value. -/
theorem text_head : ∀ (s : Doc) (r : List Char), s.wellFormed = true →
    ∃ c tl, skipWS (s.text ++ r) = c :: tl ∧ isValueStart c = true
  | .null, r, _ => ⟨'n', _, rfl, by decide⟩
  | .bool true, r, _ => ⟨'t', _, rfl, by decide⟩
  | .bool false, r, _ => ⟨'f', _, rfl, by decide⟩
  | .num lit, r, h => by
    simp only [Doc.wellFormed] at h
    obtain ⟨_, c, tl, e, hc⟩ := numberLiteral_chars h
    subst e
    have hv : isValueStart c = true := by
      rcases hc with hc | hc
      · subst hc; decide
      · simp [isValueStart, hc]
    exact ⟨c, tl ++ r, by
      simp only [Doc.text, List.cons_append]
      exact skipWS_cons (isValueStart_facts hv).1 _, hv⟩
  | .str items, r, _ => ⟨'"', _, rfl, by decide⟩
  | .arr ws es, r, _ => ⟨'[', _, rfl, by decide⟩
  | .obj ws ms, r, _ => ⟨'{', _, rfl, by decide⟩
  | .pad a s b, r, h => by
    simp only [Doc.wellFormed, Bool.and_eq_true] at h
    obtain ⟨c, tl, e, hc⟩ := text_head s (b ++ r) h.1.2
    refine ⟨c, tl, ?_, hc⟩
    simp only [Doc.text, List.append_assoc]
    rw [skipWS_ws_append (all_isWS h.1.1)]
    exact e

theorem elemsText_cons (e : Doc) (es : List Doc) :
    ∃ tl, elemsText (e :: es) = e.text ++ tl := by
  cases es with
  | nil => exact ⟨[], by simp [elemsText]⟩
  | cons x xs => exact ⟨',' :: elemsText (x :: xs), by simp [elemsText]⟩

theorem membersText_cons (kb : List Char) (key : List StrItem) (ka : List Char) (v : Doc)
    (ms : List (List Char × List StrItem × List Char × Doc)) :
    ∃ tl, membersText ((kb, key, ka, v) :: ms) = kb ++ '"' :: tl := by
  cases ms with
  | nil => exact ⟨itemsText key ++ '"' :: (ka ++ ':' :: v.text), by simp [membersText]⟩
  | cons x xs =>
    exact ⟨itemsText key ++ '"' :: (ka ++ ':' :: (v.text ++ ',' :: membersText (x :: xs))),
      by simp [membersText]⟩

theorem elemsText_head (es : List Doc) (hne : es ≠ []) (h : elemsWellFormed es = true)
    (r : List Char) : ∃ c tl, skipWS (elemsText es ++ r) = c :: tl ∧ isValueStart c = true := by
  cases es with
  | nil => exact absurd rfl hne
  | cons e es =>
    simp only [elemsWellFormed, Bool.and_eq_true] at h
    obtain ⟨tl, e1⟩ := elemsText_cons e es
    rw [e1, List.append_assoc]
    exact text_head e _ h.1

theorem membersText_head (ms : List (List Char × List StrItem × List Char × Doc))
    (hne : ms ≠ []) (h : membersWellFormed ms = true) (r : List Char) :
    ∃ tl, skipWS (membersText ms ++ r) = '"' :: tl := by
  cases ms with
  | nil => exact absurd rfl hne
  | cons p ms =>
    obtain ⟨kb, key, ka, v⟩ := p
    simp only [membersWellFormed, Bool.and_eq_true] at h
    obtain ⟨tl, e1⟩ := membersText_cons kb key ka v ms
    rw [e1, List.append_assoc, List.cons_append]
    exact ⟨_, skipWS_ws_cons (all_isWS h.1.1.1.1) (by decide) _⟩

mutual
/-- The scanner reads a document of the grammar as its syntax tree. -/
theorem parseValue_text (num : List Char → Option (List Char))
    (hnum : ∀ lit, num lit = some lit) :
    ∀ (s : Doc) (n : Nat) (ws rest : List Char), s.wellFormed = true → s.tree.fuel ≤ n →
      (∀ c ∈ ws, isWS c = true) → Delimited rest →
      ∃ r, parseValue num n (skipWS (s.text ++ (ws ++ rest))) = some (s.tree, r) ∧
        skipWS r = rest
  | .null, n, ws, rest, _, hf, hws, hd => by
    obtain ⟨m, rfl⟩ : ∃ m, n = m + 1 := ⟨n - 1, by
      simp only [Doc.tree, Value.fuel] at hf; omega⟩
    refine ⟨ws ++ rest, ?_, skipWS_delimited hws hd⟩
    simp only [Doc.text, Doc.tree]
    rw [List.cons_append, skipWS_cons (by decide)]
    exact parseValue_null num m (ws ++ rest)
  | .bool b, n, ws, rest, _, hf, hws, hd => by
    obtain ⟨m, rfl⟩ : ∃ m, n = m + 1 := ⟨n - 1, by
      simp only [Doc.tree, Value.fuel] at hf; omega⟩
    refine ⟨ws ++ rest, ?_, skipWS_delimited hws hd⟩
    simp only [Doc.text, Doc.tree]
    cases b
    · rw [if_neg (by decide), List.cons_append, skipWS_cons (by decide)]
      exact parseValue_false num m (ws ++ rest)
    · rw [if_pos rfl, List.cons_append, skipWS_cons (by decide)]
      exact parseValue_true num m (ws ++ rest)
  | .num lit, n, ws, rest, hw, hf, hws, hd => by
    obtain ⟨m, rfl⟩ : ∃ m, n = m + 1 := ⟨n - 1, by
      simp only [Doc.tree, Value.fuel] at hf; omega⟩
    simp only [Doc.wellFormed] at hw
    refine ⟨ws ++ rest, ?_, skipWS_delimited hws hd⟩
    have hs : skipWS (lit ++ (ws ++ rest)) = lit ++ (ws ++ rest) := by
      obtain ⟨_, c1, tl1, e1, hc1⟩ := numberLiteral_chars hw
      subst e1
      have hv : isValueStart c1 = true := by
        rcases hc1 with hc1 | hc1
        · subst hc1; decide
        · simp [isValueStart, hc1]
      rw [List.cons_append]
      exact skipWS_cons (isValueStart_facts hv).1 _
    simp only [Doc.text, Doc.tree]
    rw [hs]
    exact parseValue_number num m lit (ws ++ rest) lit hw (hnum lit)
      (endsNumber_delimited hws hd)
  | .str items, n, ws, rest, hw, hf, hws, hd => by
    obtain ⟨m, rfl⟩ : ∃ m, n = m + 1 := ⟨n - 1, by
      simp only [Doc.tree, Value.fuel] at hf; omega⟩
    simp only [Doc.wellFormed] at hw
    refine ⟨ws ++ rest, ?_, skipWS_delimited hws hd⟩
    have e : (Doc.str items).text ++ (ws ++ rest) =
        '"' :: (itemsText items ++ '"' :: (ws ++ rest)) := by simp [Doc.text]
    have hp := parseString_items (ws ++ rest) items.length items
      ((itemsText items ++ '"' :: (ws ++ rest)).length + 1) (le_refl _) hw
      (by simp only [List.length_append, List.length_cons]; omega)
    rw [e, skipWS_cons (by decide), parseValue, if_neg (by decide), if_neg (by decide),
      if_pos rfl, hp]
    rfl
  | .arr ws0 [], n, ws, rest, hw, hf, hws, hd => by
    obtain ⟨m, rfl⟩ : ∃ m, n = m + 1 := ⟨n - 1, by
      simp only [Doc.tree, Value.fuel] at hf; omega⟩
    simp only [Doc.wellFormed, Bool.and_eq_true] at hw
    refine ⟨ws ++ rest, ?_, skipWS_delimited hws hd⟩
    have e : (Doc.arr ws0 []).text ++ (ws ++ rest) = '[' :: (ws0 ++ ']' :: (ws ++ rest)) := by
      simp [Doc.text, elemsText]
    rw [e, skipWS_cons (by decide)]
    simp only [Doc.tree, elemsTree]
    exact parseValue_array_empty num m _ _ (skipWS_ws_cons (all_isWS hw.1) (by decide) _)
  | .arr ws0 (x :: xs), n, ws, rest, hw, hf, hws, hd => by
    obtain ⟨m, rfl⟩ : ∃ m, n = m + 1 := ⟨n - 1, by
      simp only [Doc.tree, Value.fuel] at hf; omega⟩
    simp only [Doc.wellFormed, Bool.and_eq_true] at hw
    refine ⟨ws ++ rest, ?_, skipWS_delimited hws hd⟩
    have e : (Doc.arr ws0 (x :: xs)).text ++ (ws ++ rest) =
        '[' :: (ws0 ++ (elemsText (x :: xs) ++ ']' :: (ws ++ rest))) := by
      simp [Doc.text]
    have ih := parseElems_text num hnum (x :: xs) m (ws ++ rest) (by simp) hw.2
      (by simp only [Doc.tree, Value.fuel] at hf; omega)
    obtain ⟨c0, tl0, e0, hc0⟩ := elemsText_head (x :: xs) (by simp) hw.2 (']' :: (ws ++ rest))
    rw [e, skipWS_cons (by decide)]
    simp only [Doc.tree]
    refine parseValue_array_of_skip num m _ c0 tl0 ?_ (isValueStart_facts hc0).2.1 _ _ ?_
    · rw [skipWS_ws_append (all_isWS hw.1)]; exact e0
    · rw [← e0]; exact ih
  | .obj ws0 [], n, ws, rest, hw, hf, hws, hd => by
    obtain ⟨m, rfl⟩ : ∃ m, n = m + 1 := ⟨n - 1, by
      simp only [Doc.tree, Value.fuel] at hf; omega⟩
    simp only [Doc.wellFormed, Bool.and_eq_true] at hw
    refine ⟨ws ++ rest, ?_, skipWS_delimited hws hd⟩
    have e : (Doc.obj ws0 []).text ++ (ws ++ rest) = '{' :: (ws0 ++ '}' :: (ws ++ rest)) := by
      simp [Doc.text, membersText]
    rw [e, skipWS_cons (by decide)]
    simp only [Doc.tree, membersTree]
    exact parseValue_object_empty num m _ _ (skipWS_ws_cons (all_isWS hw.1) (by decide) _)
  | .obj ws0 (p :: ms), n, ws, rest, hw, hf, hws, hd => by
    obtain ⟨m, rfl⟩ : ∃ m, n = m + 1 := ⟨n - 1, by
      simp only [Doc.tree, Value.fuel] at hf; omega⟩
    simp only [Doc.wellFormed, Bool.and_eq_true] at hw
    refine ⟨ws ++ rest, ?_, skipWS_delimited hws hd⟩
    have e : (Doc.obj ws0 (p :: ms)).text ++ (ws ++ rest) =
        '{' :: (ws0 ++ (membersText (p :: ms) ++ '}' :: (ws ++ rest))) := by
      simp [Doc.text]
    have ih := parseMembers_text num hnum (p :: ms) m (ws ++ rest) (by simp) hw.2
      (by simp only [Doc.tree, Value.fuel] at hf; omega)
    obtain ⟨tl0, e0⟩ := membersText_head (p :: ms) (by simp) hw.2 ('}' :: (ws ++ rest))
    rw [e, skipWS_cons (by decide)]
    simp only [Doc.tree]
    refine parseValue_object_of_skip num m _ '"' tl0 ?_ (by decide) _ _ ?_
    · rw [skipWS_ws_append (all_isWS hw.1)]; exact e0
    · rw [← e0]; exact ih
  | .pad a s b, n, ws, rest, hw, hf, hws, hd => by
    simp only [Doc.wellFormed, Bool.and_eq_true] at hw
    have hb : ∀ c ∈ b ++ ws, isWS c = true := by
      intro c hc
      rcases List.mem_append.mp hc with hc | hc
      · exact all_isWS hw.2 c hc
      · exact hws c hc
    obtain ⟨r, hr, hr2⟩ := parseValue_text num hnum s n (b ++ ws) rest hw.1.2
      (by simpa [Doc.tree] using hf) hb hd
    refine ⟨r, ?_, hr2⟩
    have e : (Doc.pad a s b).text ++ (ws ++ rest) = a ++ (s.text ++ (b ++ ws ++ rest)) := by
      simp [Doc.text]
    rw [e, skipWS_ws_append (all_isWS hw.1.1)]
    simp only [Doc.tree]
    exact hr
theorem parseElems_text (num : List Char → Option (List Char))
    (hnum : ∀ lit, num lit = some lit) :
    ∀ (es : List Doc) (n : Nat) (tail : List Char), es ≠ [] → elemsWellFormed es = true →
      elemsFuel (elemsTree es) ≤ n →
      parseElems num n (skipWS (elemsText es ++ ']' :: tail)) = some (elemsTree es, tail)
  | [], _, _, hne, _, _ => absurd rfl hne
  | e :: es, n, tail, _, hw, hf => by
    obtain ⟨m, rfl⟩ : ∃ m, n = m + 1 := ⟨n - 1, by
      simp only [elemsTree, elemsFuel] at hf; omega⟩
    simp only [elemsWellFormed, Bool.and_eq_true] at hw
    simp only [elemsTree, elemsFuel] at hf
    cases es with
    | nil =>
      obtain ⟨r, hr, hr2⟩ := parseValue_text num hnum e m [] (']' :: tail) hw.1 (by omega)
        (fun c hc => by cases hc) (delimited_cons (Or.inr (Or.inl rfl)) tail)
      simp only [elemsText, elemsTree]
      rw [List.nil_append] at hr
      exact parseElems_last num m _ r tail _ hr hr2
    | cons x xs =>
      obtain ⟨r, hr, hr2⟩ := parseValue_text num hnum e m []
        (',' :: (elemsText (x :: xs) ++ ']' :: tail)) hw.1 (by omega)
        (fun c hc => by cases hc) (delimited_cons (Or.inl rfl) _)
      have ih := parseElems_text num hnum (x :: xs) m tail (by simp) hw.2 (by omega)
      have e1 : elemsText (e :: x :: xs) ++ ']' :: tail =
          e.text ++ ([] ++ ',' :: (elemsText (x :: xs) ++ ']' :: tail)) := by
        simp [elemsText]
      rw [e1]
      simp only [elemsTree] at ih ⊢
      exact parseElems_more num m _ r _ tail _ _ hr hr2 ih
theorem parseMembers_text (num : List Char → Option (List Char))
    (hnum : ∀ lit, num lit = some lit) :
    ∀ (ms : List (List Char × List StrItem × List Char × Doc)) (n : Nat) (tail : List Char),
      ms ≠ [] → membersWellFormed ms = true → membersFuel (membersTree ms) ≤ n →
      parseMembers num n (skipWS (membersText ms ++ '}' :: tail)) =
        some (membersTree ms, tail)
  | [], _, _, hne, _, _ => absurd rfl hne
  | (kb, key, ka, v) :: ms, n, tail, _, hw, hf => by
    obtain ⟨m, rfl⟩ : ∃ m, n = m + 1 := ⟨n - 1, by
      simp only [membersTree, membersFuel] at hf; omega⟩
    simp only [membersWellFormed, Bool.and_eq_true] at hw
    obtain ⟨⟨⟨⟨hkb, hkey⟩, hka⟩, hv⟩, hms⟩ := hw
    simp only [membersTree, membersFuel] at hf
    cases ms with
    | nil =>
      obtain ⟨r, hr, hr2⟩ := parseValue_text num hnum v m [] ('}' :: tail) hv (by omega)
        (fun c hc => by cases hc) (delimited_cons (Or.inr (Or.inr rfl)) tail)
      rw [List.nil_append] at hr
      have e1 : membersText [(kb, key, ka, v)] ++ '}' :: tail =
          kb ++ '"' :: (itemsText key ++ '"' :: (ka ++ ':' :: (v.text ++ '}' :: tail))) := by
        simp [membersText]
      rw [e1, skipWS_ws_cons (all_isWS hkb) (by decide)]
      simp only [membersTree]
      refine parseMembers_last num m _ _ _ r tail _ _
        (parseString_items _ key.length key _ (le_refl _) hkey ?_)
        (skipWS_ws_cons (all_isWS hka) (by decide) _) hr hr2
      simp only [List.length_append, List.length_cons]; omega
    | cons x xs =>
      obtain ⟨r, hr, hr2⟩ := parseValue_text num hnum v m []
        (',' :: (membersText (x :: xs) ++ '}' :: tail)) hv (by omega)
        (fun c hc => by cases hc) (delimited_cons (Or.inl rfl) _)
      rw [List.nil_append] at hr
      have ih := parseMembers_text num hnum (x :: xs) m tail (by simp) hms (by omega)
      have e1 : membersText ((kb, key, ka, v) :: x :: xs) ++ '}' :: tail =
          kb ++ '"' :: (itemsText key ++ '"' :: (ka ++ ':' :: (v.text ++
            ',' :: (membersText (x :: xs) ++ '}' :: tail)))) := by
        simp [membersText]
      rw [e1, skipWS_ws_cons (all_isWS hkb) (by decide)]
      simp only [membersTree] at ih ⊢
      refine parseMembers_more num m _ _ _ r _ tail _ _ _
        (parseString_items _ key.length key _ (le_refl _) hkey ?_)
        (skipWS_ws_cons (all_isWS hka) (by decide) _) hr hr2 ih
      simp only [List.length_append, List.length_cons]; omega
end

/-- The scanner reads the text of a document of the grammar as the document's tree. -/
theorem parseDocument_text (s : Doc) (h : s.wellFormed = true) :
    parseDocument (fun lit => some lit) s.text = some s.tree := by
  obtain ⟨r, hr, hr2⟩ := parseValue_text (fun lit => some lit) (fun _ => rfl) s s.tree.fuel
    [] [] h (le_refl _) (fun c hc => by cases hc) delimited_nil
  simp only [List.append_nil] at hr
  exact parseDocument_of_parseValue _ _ _ _ r hr hr2

theorem decodeElems_cons_isSome (C : FloatCodec F) (x : Value (List Char))
    (xs : List (Value (List Char))) :
    (decodeElems C (x :: xs)).isSome =
      ((decodeValue C x).isSome && (decodeElems C xs).isSome) := by
  rw [decodeElems]
  cases decodeValue C x <;> cases decodeElems C xs <;> rfl

theorem decodeMembers_cons_isSome (C : FloatCodec F) (k : List Char) (v : Value (List Char))
    (ms : List (List Char × Value (List Char))) :
    (decodeMembers C ((k, v) :: ms)).isSome =
      ((decodeValue C v).isSome && (decodeMembers C ms).isSome) := by
  rw [decodeMembers]
  cases decodeValue C v <;> cases decodeMembers C ms <;> rfl

theorem decodeValue_arr_isSome (C : FloatCodec F) (xs : List (Value (List Char))) :
    (decodeValue C (.arr xs)).isSome = (decodeElems C xs).isSome := by
  rw [decodeValue]
  cases decodeElems C xs <;> rfl

theorem decodeValue_obj_isSome (C : FloatCodec F) (ms : List (List Char × Value (List Char))) :
    (decodeValue C (.obj ms)).isSome = (decodeMembers C ms).isSome := by
  rw [decodeValue]
  cases decodeMembers C ms <;> rfl

theorem decodeValue_num_isSome (C : FloatCodec F) (lit : List Char) :
    (decodeValue C (.num lit)).isSome = (C.parse lit).isSome := by
  rw [decodeValue]
  cases C.parse lit <;> rfl

mutual
/-- A document converts to a Go value exactly when each of its number literals has a
float64 value. -/
theorem decodeValue_tree_isSome (C : FloatCodec F) : ∀ s : Doc,
    (decodeValue C s.tree).isSome = true ↔ ∀ lit ∈ s.numbers, (C.parse lit).isSome = true
  | .null => by simp [Doc.tree, Doc.numbers, decodeValue]
  | .bool _ => by simp [Doc.tree, Doc.numbers, decodeValue]
  | .num lit => by simp [Doc.tree, Doc.numbers, decodeValue_num_isSome]
  | .str _ => by simp [Doc.tree, Doc.numbers, decodeValue]
  | .arr _ es => by
    simp only [Doc.tree, Doc.numbers, decodeValue_arr_isSome]
    exact decodeElems_tree_isSome C es
  | .obj _ ms => by
    simp only [Doc.tree, Doc.numbers, decodeValue_obj_isSome]
    exact decodeMembers_tree_isSome C ms
  | .pad _ s _ => by
    simp only [Doc.tree, Doc.numbers]
    exact decodeValue_tree_isSome C s
theorem decodeElems_tree_isSome (C : FloatCodec F) : ∀ es : List Doc,
    (decodeElems C (elemsTree es)).isSome = true ↔
      ∀ lit ∈ elemsNumbers es, (C.parse lit).isSome = true
  | [] => by simp [elemsTree, elemsNumbers, decodeElems]
  | e :: es => by
    simp only [elemsTree, elemsNumbers, decodeElems_cons_isSome, Bool.and_eq_true,
      List.mem_append, decodeValue_tree_isSome C e, decodeElems_tree_isSome C es]
    constructor
    · rintro ⟨h1, h2⟩ lit (h | h)
      · exact h1 lit h
      · exact h2 lit h
    · intro h
      exact ⟨fun lit hl => h lit (Or.inl hl), fun lit hl => h lit (Or.inr hl)⟩
theorem decodeMembers_tree_isSome (C : FloatCodec F) :
    ∀ ms : List (List Char × List StrItem × List Char × Doc),
      (decodeMembers C (membersTree ms)).isSome = true ↔
        ∀ lit ∈ membersNumbers ms, (C.parse lit).isSome = true
  | [] => by simp [membersTree, membersNumbers, decodeMembers]
  | (_, _, _, v) :: ms => by
    simp only [membersTree, membersNumbers, decodeMembers_cons_isSome, Bool.and_eq_true,
      List.mem_append, decodeValue_tree_isSome C v, decodeMembers_tree_isSome C ms]
    constructor
    · rintro ⟨h1, h2⟩ lit (h | h)
      · exact h1 lit h
      · exact h2 lit h
    · intro h
      exact ⟨fun lit hl => h lit (Or.inl hl), fun lit hl => h lit (Or.inr hl)⟩
end

/-- The scanner's pass on the text of a document of the grammar: it fails exactly on
nesting deeper than `maxNestingDepth`. -/
theorem checkValid_text (s : Doc) (h : s.wellFormed = true) :
    checkValid s.text = if maxNestingDepth < s.tree.depth then none else some s.tree := by
  simp only [checkValid, parseDocument_text s h]

/-- `Unmarshal` on the text of a document of the grammar nested too deep. -/
theorem Unmarshal_text_deep (C : FloatCodec F) (s : Doc) (h : s.wellFormed = true)
    (hd : maxNestingDepth < s.tree.depth) : Unmarshal C s.text = .error .malformed := by
  simp only [Unmarshal, checkValid_text s h, if_pos hd]

/-- `Unmarshal` on the text of a document of the grammar within the nesting limit. -/
theorem Unmarshal_text (C : FloatCodec F) (s : Doc) (h : s.wellFormed = true)
    (hd : s.tree.depth ≤ maxNestingDepth) :
    Unmarshal C s.text =
      match s.tree with
      | .null => .ok .nil
      | .obj ms =>
        match decodeMembers C ms with
        | some entries => .ok (.mk entries)
        | none => .error .numberRange
      | .bool _ => .error (.cannotUnmarshal "bool")
      | .num _ => .error (.cannotUnmarshal "number")
      | .str _ => .error (.cannotUnmarshal "string")
      | .arr _ => .error (.cannotUnmarshal "array") := by
  have hd2 : ¬ maxNestingDepth < s.tree.depth := by omega
  simp only [Unmarshal, checkValid_text s h, if_neg hd2]

end Json

/-! ## ExtractResult -/

section Extract

variable {F : Type}

namespace Strings

theorem lastIndexOf_append (sep : List Char) (s : List Char) (i : Nat)
    (h : lastIndexOf sep s = some i) :
    ∀ a : List Char, lastIndexOf sep (a ++ s) = some (a.length + i)
  | [] => by simpa using h
  | c :: a => by
    rw [List.cons_append, lastIndexOf, lastIndexOf_append sep s i h a]
    simp only [List.length_cons]
    congr 1
    omega

theorem indexOf_self_append (sep rest : List Char) : indexOf sep (sep ++ rest) = some 0 := by
  have hp := isPrefixOf_self_append sep rest
  cases hs : sep ++ rest with
  | nil => rw [hs] at hp; simp [indexOf, hp]
  | cons c s => rw [hs] at hp; simp [indexOf, hp]

theorem slice_mid (a b c : List Char) :
    slice (a ++ b ++ c) (a.length : Int) ((a.length + b.length : Nat) : Int) = .ret b := by
  unfold slice
  rw [if_pos]
  · simp only [Int.toNat_ofNat]
    rw [List.append_assoc, List.take_append_eq_append_take]
    simp
  · refine ⟨by omega, by omega, ?_⟩
    simp only [List.length_append]
    omega

end Strings

/-- What a successful extraction went through. -/
theorem extractResult_ok (C : Json.FloatCodec F) (r c : List Char)
    (h : ExtractResult C r = .ret (.ok c)) :
    ∃ payload m, Json.Unmarshal C payload = .ok m ∧
      Json.MarshalIndent C m [] "    ".toList = .ok c := by
  unfold ExtractResult at h
  simp only at h
  split at h
  · exact absurd h (by simp)
  · cases hs : Strings.slice r
        (Strings.Index r "<<RESULT>>".toList + ("<<RESULT>>".toList.length : Int))
        (Strings.LastIndex r "<<RESULT>>".toList) with
    | sliceBoundsPanic lo hi len => rw [hs] at h; simp [Go.bind] at h
    | ret payload =>
      rw [hs] at h
      simp only [Go.bind] at h
      split at h
      · exact absurd h (by simp)
      · rename_i m hm
        split at h
        · exact absurd h (by simp)
        · rename_i pretty hp
          simp only [Go.ret.injEq, Except.ok.injEq] at h
          subst h
          exact ⟨payload, m, hm, hp⟩

/-- Extraction from a payload wrapped in one pair of tags. -/
theorem extractResult_wrapped (C : Json.FloatCodec F) (payload c : List Char) (m : Json.GoMap F)
    (hm : Json.Unmarshal C payload = .ok m)
    (hp : Json.MarshalIndent C m [] "    ".toList = .ok c) :
    ExtractResult C ("<<RESULT>>".toList ++ payload ++ "<<RESULT>>".toList) = .ret (.ok c) := by
  have h1 : Strings.Index ("<<RESULT>>".toList ++ payload ++ "<<RESULT>>".toList)
      "<<RESULT>>".toList = 0 := by
    simp only [Strings.Index, List.append_assoc, Strings.indexOf_self_append]
    rfl
  have h2 : Strings.LastIndex ("<<RESULT>>".toList ++ payload ++ "<<RESULT>>".toList)
      "<<RESULT>>".toList = (("<<RESULT>>".toList.length + payload.length : Nat) : Int) := by
    have := Strings.lastIndexOf_append "<<RESULT>>".toList "<<RESULT>>".toList 0 (by rfl)
      ("<<RESULT>>".toList ++ payload)
    simp only [Strings.LastIndex, this, List.length_append, Nat.add_zero]
  have h3 := Strings.slice_mid "<<RESULT>>".toList payload "<<RESULT>>".toList
  unfold ExtractResult
  simp only [h1, h2, Int.zero_add]
  rw [if_neg, h3]
  · simp only [Go.bind, hm, hp]
  · intro hc
    rcases hc with hc | hc
    · exact absurd hc (by decide)
    · omega

theorem marshalIndent_ok (C : Json.FloatCodec F) (m : Json.GoMap F) (pfx indent c : List Char)
    (h : Json.MarshalIndent C m pfx indent = .ok c) :
    Json.encode C true (Json.Layout.indented pfx indent) 0 m.toValue = some c := by
  unfold Json.MarshalIndent at h
  split at h
  · simp only [Except.ok.injEq] at h; subst h; assumption
  · exact absurd h (by simp)

/-- C8. Whenever `ExtractResult` succeeds on a raw output `r` with the canonical text `c`,
it succeeds on `"<<RESULT>>" ++ c ++ "<<RESULT>>"` and returns `c` again. -/
theorem extract_idempotent (C : Json.FloatCodec F) (hC : C.Lawful) (r c : List Char)
    (h : ExtractResult C r = .ret (.ok c)) :
    ExtractResult C ("<<RESULT>>".toList ++ c ++ "<<RESULT>>".toList) = .ret (.ok c) := by
  obtain ⟨payload, m, hm, hp⟩ := extractResult_ok C r c h
  obtain ⟨hcan, _, hdepth⟩ := Json.Unmarshal_sound C hC payload m hm
  have henc := marshalIndent_ok C m _ _ c hp
  have hrt := Json.Unmarshal_encode C hC true _ Json.indented4_valid m c henc hcan hdepth
  exact extractResult_wrapped C c c m hrt hp

end Extract

/-! ## UTF-8 and base64: decoding what was encoded -/

namespace Utf8

theorem char_valid (c : Char) :
    c.toNat < 0xd800 ∨ (0xdfff < c.toNat ∧ c.toNat < 0x110000) := c.valid

theorem decodeGo_skip : ∀ (a rest : List Nat), decodeGo a.length (a ++ rest) = decodeGo 0 rest
  | [], _ => rfl
  | _ :: a, rest => by
    rw [List.length_cons, List.cons_append, decodeGo]
    exact decodeGo_skip a rest

theorem decodeFirst_encodeChar (c : Char) (rest : List Nat) :
    ∃ b0 tl, encodeChar c = b0 :: tl ∧ decodeFirst b0 (tl ++ rest) = some (c, tl.length) := by
  have hv := char_valid c
  have hvalid : Nat.isValidChar c.toNat := c.valid
  have hc := Char.ofNat_toNat c
  unfold encodeChar
  simp only
  split
  · rename_i h1
    refine ⟨_, _, rfl, ?_⟩
    unfold decodeFirst
    rw [if_pos h1, hc]; rfl
  · rename_i h1
    split
    · rename_i h2
      refine ⟨_, _, rfl, ?_⟩
      have e : (0xC0 + c.toNat / 64 - 0xC0) * 64 + (0x80 + c.toNat % 64 - 0x80) = c.toNat := by
        omega
      unfold decodeFirst
      rw [if_neg (by omega), if_neg (by omega), if_pos (by omega)]
      simp only [List.cons_append, e, hc]
      rw [if_pos]
      · rfl
      · refine ⟨?_, by omega⟩
        simp only [isCont, Bool.decide_and, Bool.and_eq_true, decide_eq_true_eq]
        omega
    · rename_i h2
      split
      · rename_i h3
        refine ⟨_, _, rfl, ?_⟩
        have e : (0xE0 + c.toNat / 4096 - 0xE0) * 4096 + (0x80 + c.toNat / 64 % 64 - 0x80) * 64 +
            (0x80 + c.toNat % 64 - 0x80) = c.toNat := by omega
        unfold decodeFirst
        rw [if_neg (by omega), if_neg (by omega), if_neg (by omega), if_pos (by omega)]
        simp only [List.cons_append, e, hc]
        rw [if_pos]
        · rfl
        · refine ⟨?_, ?_, by omega, hvalid⟩
          · simp only [isCont, Bool.decide_and, Bool.and_eq_true, decide_eq_true_eq]; omega
          · simp only [isCont, Bool.decide_and, Bool.and_eq_true, decide_eq_true_eq]; omega
      · rename_i h3
        refine ⟨_, _, rfl, ?_⟩
        have e : (0xF0 + c.toNat / 262144 - 0xF0) * 262144 +
            (0x80 + c.toNat / 4096 % 64 - 0x80) * 4096 +
            (0x80 + c.toNat / 64 % 64 - 0x80) * 64 + (0x80 + c.toNat % 64 - 0x80) = c.toNat := by
          omega
        unfold decodeFirst
        rw [if_neg (by omega), if_neg (by omega), if_neg (by omega), if_neg (by omega),
          if_pos (by omega)]
        simp only [List.cons_append, e, hc]
        rw [if_pos]
        · rfl
        · refine ⟨?_, ?_, ?_, by omega, hvalid⟩
          · simp only [isCont, Bool.decide_and, Bool.and_eq_true, decide_eq_true_eq]; omega
          · simp only [isCont, Bool.decide_and, Bool.and_eq_true, decide_eq_true_eq]; omega
          · simp only [isCont, Bool.decide_and, Bool.and_eq_true, decide_eq_true_eq]; omega

theorem decodeGo_encode : ∀ s : List Char, decodeGo 0 (encode s) = some s
  | [] => rfl
  | c :: s => by
    have ih := decodeGo_encode s
    obtain ⟨b0, tl, e, hd⟩ := decodeFirst_encodeChar c (encode s)
    have e1 : encode (c :: s) = b0 :: (tl ++ encode s) := by
      rw [encode, List.flatMap_cons, e]; rfl
    rw [e1, decodeGo, hd]
    simp only
    rw [decodeGo_skip, ih]

theorem utf8_decode_encode (s : List Char) : decode (encode s) = some s := decodeGo_encode s

theorem encodeChar_lt (c : Char) : ∀ b ∈ encodeChar c, b < 256 := by
  have hv := char_valid c
  intro b hb
  unfold encodeChar at hb
  simp only at hb
  split at hb
  · simp only [List.mem_singleton] at hb; omega
  · split at hb
    · simp only [List.mem_cons, List.mem_singleton, List.mem_nil_iff, or_false] at hb; omega
    · split at hb
      · simp only [List.mem_cons, List.mem_singleton, List.mem_nil_iff, or_false] at hb; omega
      · simp only [List.mem_cons, List.mem_singleton, List.mem_nil_iff, or_false] at hb; omega

theorem encode_lt (s : List Char) : ∀ b ∈ encode s, b < 256 := by
  intro b hb
  simp only [encode, List.mem_flatMap] at hb
  obtain ⟨c, _, hc⟩ := hb
  exact encodeChar_lt c b hc

end Utf8

namespace Base64

theorem alphabetVal_alphabetChar (n : Nat) (h : n < 64) :
    alphabetVal (alphabetChar n) = some n ∧ alphabetChar n ≠ '=' := by
  interval_cases n <;> exact ⟨by rfl, by decide⟩

theorem base64_decode_encode : ∀ bs : List Nat, (∀ b ∈ bs, b < 256) →
    DecodeString (EncodeToString bs) = some bs
  | [], _ => rfl
  | [a], h => by
    have ha := h a (by simp)
    obtain ⟨e1, _⟩ := alphabetVal_alphabetChar (a / 4) (by omega)
    obtain ⟨e2, _⟩ := alphabetVal_alphabetChar (a % 4 * 16) (by omega)
    rw [EncodeToString, DecodeString]
    simp only [e1, e2, and_self, if_true, Option.some.injEq, List.cons.injEq, and_true]
    omega
  | [a, b], h => by
    have ha := h a (by simp)
    have hb := h b (by simp)
    obtain ⟨e1, _⟩ := alphabetVal_alphabetChar (a / 4) (by omega)
    obtain ⟨e2, _⟩ := alphabetVal_alphabetChar (a % 4 * 16 + b / 16) (by omega)
    obtain ⟨e3, n3⟩ := alphabetVal_alphabetChar (b % 16 * 4) (by omega)
    rw [EncodeToString, DecodeString]
    simp only [e1, e2, e3, and_self, if_true, if_neg n3, Option.some.injEq, List.cons.injEq,
      and_true]
    omega
  | a :: b :: c :: rest, h => by
    have ha := h a (by simp)
    have hb := h b (by simp)
    have hc := h c (by simp)
    have ih := base64_decode_encode rest (fun x hx => h x (by simp [hx]))
    obtain ⟨e1, _⟩ := alphabetVal_alphabetChar (a / 4) (by omega)
    obtain ⟨e2, _⟩ := alphabetVal_alphabetChar (a % 4 * 16 + b / 16) (by omega)
    obtain ⟨e3, _⟩ := alphabetVal_alphabetChar (b % 16 * 4 + c / 64) (by omega)
    obtain ⟨e4, n4⟩ := alphabetVal_alphabetChar (c % 64) (by omega)
    rw [EncodeToString, DecodeString]
    simp only [e1, e2, e3, e4, ih, n4, false_and, if_false, Option.some.injEq, List.cons.injEq,
      and_true]
    omega

theorem alphabetChar_ne_brace (n : Nat) : alphabetChar n ≠ '{' ∧ alphabetChar n ≠ '}' := by
  by_cases h : n < 64
  · interval_cases n <;> exact ⟨by decide, by decide⟩
  · have : alphabetChar n = '/' := by
      unfold alphabetChar
      rw [if_neg (by omega), if_neg (by omega), if_neg (by omega), if_neg (by omega)]
    rw [this]; exact ⟨by decide, by decide⟩

theorem encode_no_brace : ∀ (bs : List Nat), ∀ c ∈ EncodeToString bs, c ≠ '{' ∧ c ≠ '}'
  | [], c, hc => by simp [EncodeToString] at hc
  | [a], c, hc => by
    simp only [EncodeToString, List.mem_cons, List.mem_singleton, List.mem_nil_iff,
      or_false] at hc
    rcases hc with hc | hc | hc | hc
    · rw [hc]; exact alphabetChar_ne_brace _
    · rw [hc]; exact alphabetChar_ne_brace _
    · rw [hc]; exact ⟨by decide, by decide⟩
    · rw [hc]; exact ⟨by decide, by decide⟩
  | [a, b], c, hc => by
    simp only [EncodeToString, List.mem_cons, List.mem_singleton, List.mem_nil_iff,
      or_false] at hc
    rcases hc with hc | hc | hc | hc
    · rw [hc]; exact alphabetChar_ne_brace _
    · rw [hc]; exact alphabetChar_ne_brace _
    · rw [hc]; exact alphabetChar_ne_brace _
    · rw [hc]; exact ⟨by decide, by decide⟩
  | a :: b :: d :: rest, c, hc => by
    simp only [EncodeToString, List.mem_cons] at hc
    rcases hc with hc | hc | hc | hc | hc
    · rw [hc]; exact alphabetChar_ne_brace _
    · rw [hc]; exact alphabetChar_ne_brace _
    · rw [hc]; exact alphabetChar_ne_brace _
    · rw [hc]; exact alphabetChar_ne_brace _
    · exact encode_no_brace rest c hc

theorem base64_encode_head (a b : Nat) (bs : List Nat) :
    ∃ y tl, EncodeToString (a :: b :: bs) = alphabetChar (a / 4) :: y :: tl := by
  cases bs with
  | nil => exact ⟨_, _, rfl⟩
  | cons c rest => exact ⟨_, _, by rw [EncodeToString]⟩

end Base64

/-! ## The encoded inputs -/

section Inputs

variable {F : Type}

namespace Strings

theorem TrimSpace_append_newline (t : List Char) (c : Char) (tl init : List Char) (l : Char)
    (h1 : t = c :: tl) (hc : isSpace c = false) (h2 : t = init ++ [l])
    (hl : isSpace l = false) : TrimSpace (t ++ ['\n']) = t := by
  unfold TrimSpace
  have e1 : (t ++ ['\n']).dropWhile isSpace = t ++ ['\n'] := by
    rw [h1, List.cons_append, List.dropWhile_cons, hc]; rfl
  have e2 : (t ++ ['\n']).reverse = '\n' :: l :: init.reverse := by
    rw [h2]; simp
  have hn : isSpace '\n' = true := by decide
  rw [e1, e2, List.dropWhile_cons, hn, if_pos rfl, List.dropWhile_cons, hl]
  rw [h2]; simp

end Strings

/-- The encoding of a map starts with `n` or a brace and ends with `l` or a brace. -/
theorem encode_map_ends (C : Json.FloatCodec F) (esc : Bool) (lay : Json.Layout) (d : Nat)
    (m : Json.GoMap F) (t : List Char) (h : Json.encode C esc lay d m.toValue = some t) :
    ∃ c c1 tl init l, t = c :: c1 :: tl ∧ t = init ++ [l] ∧ (c = 'n' ∨ c = '{') ∧
      (l = 'l' ∨ l = '}') := by
  cases m with
  | nil =>
    simp only [Json.GoMap.toValue, Json.encode, Option.some.injEq] at h
    subst h
    exact ⟨'n', 'u', ['l', 'l'], ['n', 'u', 'l'], 'l', rfl, rfl, Or.inl rfl, Or.inl rfl⟩
  | mk ms =>
    cases ms with
    | nil =>
      simp only [Json.GoMap.toValue, Json.encode, Option.some.injEq] at h
      subst h
      exact ⟨'{', '}', [], ['{'], '}', rfl, rfl, Or.inr rfl, Or.inr rfl⟩
    | cons p ms =>
      simp only [Json.GoMap.toValue, Json.encode] at h
      split at h
      · rename_i body hbody
        simp only [Option.some.injEq] at h
        subst h
        have : ∃ c1 tl, lay.lineBreak (d + 1) ++ body ++ lay.lineBreak d ++ ['}'] = c1 :: tl := by
          cases hx : lay.lineBreak (d + 1) ++ body ++ lay.lineBreak d ++ ['}'] with
          | nil => simp at hx
          | cons c1 tl => exact ⟨c1, tl, rfl⟩
        obtain ⟨c1, tl, e⟩ := this
        refine ⟨'{', c1, tl, '{' :: lay.lineBreak (d + 1) ++ body ++ lay.lineBreak d, '}', ?_,
          by simp, Or.inr rfl, Or.inr rfl⟩
        rw [← e]; simp
      · exact absurd h (by simp)

/-- What `inputsBase64` returns: the base64 text of the compact encoding, HTML characters
unescaped, without the newline the encoder appends. -/
theorem inputsBase64_ok (C : Json.FloatCodec F) (inputs : Json.GoMap F) (b64 : List Char)
    (h : inputsBase64 C inputs = .ok b64) :
    ∃ json, Json.encode C false Json.Layout.compact 0 inputs.toValue = some json ∧
      b64 = Base64.EncodeToString (Utf8.encode json) := by
  unfold inputsBase64 at h
  split at h
  · exact absurd h (by simp)
  · unfold Json.EncoderEncode at h
    split at h
    · exact absurd h (by simp)
    · rename_i buf hbuf
      split at hbuf
      · rename_i json hjson
        simp only [Except.ok.injEq] at hbuf
        subst hbuf
        refine ⟨json, hjson, ?_⟩
        obtain ⟨c, c1, tl, init, l, e1, e2, hc, hl⟩ :=
          encode_map_ends C false Json.Layout.compact 0 inputs json hjson
        have := Strings.TrimSpace_append_newline json c (c1 :: tl) init l e1
          (by rcases hc with hc | hc <;> subst hc <;> decide) e2
          (by rcases hl with hl | hl <;> subst hl <;> decide)
        simp only [Except.ok.injEq] at h
        rw [← h, this]
      · exact absurd hbuf (by simp)

/-- The base64 text of encoded inputs starts with `e` or `b` and holds no brace. -/
theorem inputsBase64_shape (C : Json.FloatCodec F) (inputs : Json.GoMap F) (b64 : List Char)
    (h : inputsBase64 C inputs = .ok b64) :
    ∃ a y tl, b64 = a :: y :: tl ∧ (a = 'e' ∨ a = 'b') ∧ ∀ c ∈ b64, c ≠ '{' ∧ c ≠ '}' := by
  obtain ⟨json, hjson, e⟩ := inputsBase64_ok C inputs b64 h
  obtain ⟨c, c1, tl, init, l, e1, _, hc, _⟩ :=
    encode_map_ends C false Json.Layout.compact 0 inputs json hjson
  have hbrace := Base64.encode_no_brace (Utf8.encode json)
  rw [← e] at hbrace
  have hne : ∃ b1 bs, Utf8.encode (c1 :: tl) = b1 :: bs := by
    obtain ⟨b0, t0, e0, _⟩ := Utf8.decodeFirst_encodeChar c1 []
    exact ⟨b0, t0 ++ Utf8.encode tl, by rw [Utf8.encode, List.flatMap_cons, e0]; rfl⟩
  obtain ⟨b1, bs, e3⟩ := hne
  have henc : Utf8.encode json = c.toNat :: b1 :: bs := by
    have hc1 : Utf8.encodeChar c = [c.toNat] := by
      rcases hc with hc | hc <;> subst hc <;> rfl
    rw [e1, Utf8.encode, List.flatMap_cons, hc1]
    rw [Utf8.encode] at e3
    rw [e3]; rfl
  obtain ⟨y, tl2, e4⟩ := Base64.base64_encode_head c.toNat b1 bs
  refine ⟨_, y, tl2, by rw [e, henc, e4], ?_, hbrace⟩
  rcases hc with hc | hc <;> subst hc
  · right; rfl
  · left; rfl

end Inputs

/-! ## ExtractResult on fewer than two tags -/

section SingleTag

variable {F : Type}

namespace Strings

theorem lastIndexOf_eq_none_of_indexOf (sep : List Char) : ∀ s : List Char,
    indexOf sep s = none → lastIndexOf sep s = none
  | [], h => by
    simp only [indexOf] at h
    split at h
    · exact absurd h (by simp)
    · rename_i hp; simp [lastIndexOf, hp]
  | c :: s, h => by
    obtain ⟨h1, h2⟩ := indexOf_eq_none_cons h
    rw [lastIndexOf, lastIndexOf_eq_none_of_indexOf sep s h2]
    simp [h1]

end Strings

/-- Without any result tag in the response `ExtractResult` returns its format error. -/
theorem extractResult_without_tag (C : Json.FloatCodec F) (response : List Char)
    (h : Strings.indexOf "<<RESULT>>".toList response = none) :
    ExtractResult C response = .ret (.error (.text "invalid result format".toList)) := by
  have h2 := Strings.lastIndexOf_eq_none_of_indexOf _ _ h
  unfold ExtractResult
  simp only [Strings.LastIndex, h2]
  rw [if_pos (Or.inr trivial)]

/-- When the first and the last occurrence of the result tag are the same one, the check of
`ExtractResult` passes and its slice expression panics. -/
theorem extractResult_single_tag (C : Json.FloatCodec F) (response : List Char) (i : Nat)
    (h1 : Strings.indexOf "<<RESULT>>".toList response = some i)
    (h2 : Strings.lastIndexOf "<<RESULT>>".toList response = some i) :
    ExtractResult C response = .sliceBoundsPanic ((i : Int) + 10) i response.length := by
  unfold ExtractResult
  simp only [Strings.Index, Strings.LastIndex, h1, h2]
  have hten : (("<<RESULT>>".toList.length : Nat) : Int) = 10 := rfl
  rw [hten, if_neg (by omega)]
  unfold Strings.slice
  rw [if_neg (by omega)]
  rfl

end SingleTag

/-! ## Extraction and the inputs round trip -/

section Extraction

variable {F : Type}

theorem extractResult_between (C : Json.FloatCodec F) (a payload b : List Char)
    (hfirst : Strings.Index (a ++ "<<RESULT>>".toList ++ payload ++ "<<RESULT>>".toList ++ b)
      "<<RESULT>>".toList = (a.length : Int))
    (hlast : Strings.LastIndex (a ++ "<<RESULT>>".toList ++ payload ++ "<<RESULT>>".toList ++ b)
      "<<RESULT>>".toList = ((a.length + 10 + payload.length : Nat) : Int)) :
    ExtractResult C (a ++ "<<RESULT>>".toList ++ payload ++ "<<RESULT>>".toList ++ b) =
      match Json.Unmarshal C payload with
      | .error err => .ret (.error (.wrapped "failed to parse JSON: ".toList (.json err)))
      | .ok result =>
        match Json.MarshalIndent C result [] "    ".toList with
        | .error err => .ret (.error (.wrapped "failed to format JSON: ".toList err))
        | .ok prettyJSON => .ret (.ok prettyJSON) := by
  have h3 := Strings.slice_mid (a ++ "<<RESULT>>".toList) payload ("<<RESULT>>".toList ++ b)
  have e : a ++ "<<RESULT>>".toList ++ payload ++ ("<<RESULT>>".toList ++ b) =
      a ++ "<<RESULT>>".toList ++ payload ++ "<<RESULT>>".toList ++ b := by simp
  rw [e] at h3
  have hl : ((a ++ "<<RESULT>>".toList).length : Int) = (a.length : Int) + 10 := by
    simp only [List.length_append]; rfl
  have hl2 : (((a ++ "<<RESULT>>".toList).length + payload.length : Nat) : Int) =
      ((a.length + 10 + payload.length : Nat) : Int) := by
    simp only [List.length_append]; rfl
  rw [hl, hl2] at h3
  unfold ExtractResult
  simp only [hfirst, hlast]
  rw [if_neg]
  · have hten : (("<<RESULT>>".toList.length : Nat) : Int) = 10 := rfl
    rw [hten, h3]
    rfl
  · intro hc
    rcases hc with hc | hc
    · have hten : (("<<RESULT>>".toList.length : Nat) : Int) = 10 := rfl
      rw [hten] at hc; omega
    · omega

theorem marshalIndent_of_unmarshal (C : Json.FloatCodec F) (hC : C.Lawful) (payload : List Char)
    (m : Json.GoMap F) (hm : Json.Unmarshal C payload = .ok m) (pfx indent : List Char) :
    ∃ c, Json.MarshalIndent C m pfx indent = .ok c := by
  obtain ⟨_, henc, _⟩ := Json.Unmarshal_sound C hC payload m hm
  obtain ⟨c, hc⟩ := Option.isSome_iff_exists.mp
    (Json.encode_isSome C true (Json.Layout.indented pfx indent) m.toValue 0 henc)
  exact ⟨c, by simp [Json.MarshalIndent, hc]⟩

/-- C4 (amended). Let the raw output be `a ++ tag ++ payload ++ tag ++ b`, the first
occurrence of the tag standing after `a` and the last one before `b`, where the payload is
a JSON text: the text of a document `doc` of the JSON grammar (white space around it
included).

When the document nests arrays and objects at most `maxNestingDepth` (10000) deep:
* if it is an object and each of its number literals has a float64 value,
  `ExtractResult` succeeds and returns the map the object stands for, re-encoded by
  `MarshalIndent` with four-space indentation;
* if it is `null`, `ExtractResult` succeeds and returns `null`;
* if it is an object and one of its number literals has no float64 value,
  `ExtractResult` returns the error `failed to parse JSON: …number…`;
* if it is a boolean, a number, a string or an array, `ExtractResult` returns the error
  `failed to parse JSON: …cannot unmarshal <kind>…`.

When the document is nested deeper, `ExtractResult` returns the error
`failed to parse JSON: …exceeded max depth`. -/
theorem extract_object (C : Json.FloatCodec F) (hC : C.Lawful) (a b raw : List Char)
    (doc : Json.Doc) (hwf : doc.wellFormed = true)
    (hraw : raw = a ++ "<<RESULT>>".toList ++ doc.text ++ "<<RESULT>>".toList ++ b)
    (hfirst : Strings.Index raw "<<RESULT>>".toList = (a.length : Int))
    (hlast : Strings.LastIndex raw "<<RESULT>>".toList =
      ((a.length + 10 + doc.text.length : Nat) : Int)) :
    (doc.tree.depth ≤ Json.maxNestingDepth →
      (∀ ms, doc.tree = .obj ms → (∀ lit ∈ doc.numbers, (C.parse lit).isSome = true) →
        ∃ entries c, Json.decodeMembers C ms = some entries ∧
          Json.MarshalIndent C (.mk entries) [] "    ".toList = .ok c ∧
          ExtractResult C raw = .ret (.ok c)) ∧
      (doc.tree = .null → ExtractResult C raw = .ret (.ok "null".toList)) ∧
      (∀ ms, doc.tree = .obj ms → (∃ lit ∈ doc.numbers, C.parse lit = none) →
        ExtractResult C raw =
          .ret (.error (.wrapped "failed to parse JSON: ".toList (.json .numberRange)))) ∧
      (∀ v, doc.tree = .bool v →
        ExtractResult C raw = .ret (.error (.wrapped "failed to parse JSON: ".toList
          (.json (.cannotUnmarshal "bool"))))) ∧
      (∀ lit, doc.tree = .num lit →
        ExtractResult C raw = .ret (.error (.wrapped "failed to parse JSON: ".toList
          (.json (.cannotUnmarshal "number"))))) ∧
      (∀ s, doc.tree = .str s →
        ExtractResult C raw = .ret (.error (.wrapped "failed to parse JSON: ".toList
          (.json (.cannotUnmarshal "string"))))) ∧
      (∀ xs, doc.tree = .arr xs →
        ExtractResult C raw = .ret (.error (.wrapped "failed to parse JSON: ".toList
          (.json (.cannotUnmarshal "array")))))) ∧
    (Json.maxNestingDepth < doc.tree.depth →
      ExtractResult C raw =
        .ret (.error (.wrapped "failed to parse JSON: ".toList (.json .malformed)))) := by
  subst hraw
  have hx := extractResult_between C a doc.text b hfirst hlast
  constructor
  · intro hd
    have hu := Json.Unmarshal_text C doc hwf hd
    refine ⟨?_, ?_, ?_, ?_, ?_, ?_, ?_⟩
    · intro ms hms hnum
      have hsome := (Json.decodeValue_tree_isSome C doc).mpr hnum
      rw [hms, Json.decodeValue_obj_isSome] at hsome
      obtain ⟨entries, he⟩ := Option.isSome_iff_exists.mp hsome
      rw [hms] at hu
      simp only [he] at hu
      obtain ⟨c, hc⟩ := marshalIndent_of_unmarshal C hC doc.text (.mk entries) hu []
        "    ".toList
      exact ⟨entries, c, he, hc, by rw [hx, hu]; simp only [hc]⟩
    · intro hnull
      rw [hnull] at hu
      rw [hx, hu]
      rfl
    · rintro ms hms ⟨lit, hl, hnone⟩
      have hne : (Json.decodeMembers C ms).isSome ≠ true := by
        intro hsome
        rw [← Json.decodeValue_obj_isSome, ← hms] at hsome
        have := (Json.decodeValue_tree_isSome C doc).mp hsome lit hl
        rw [hnone] at this
        exact absurd this (by simp)
      have he : Json.decodeMembers C ms = none := by
        cases h : Json.decodeMembers C ms with
        | none => rfl
        | some x => rw [h] at hne; exact absurd rfl hne
      rw [hms] at hu
      simp only [he] at hu
      rw [hx, hu]
    · intro v hv
      rw [hv] at hu
      rw [hx, hu]
    · intro lit hv
      rw [hv] at hu
      rw [hx, hu]
    · intro s hv
      rw [hv] at hu
      rw [hx, hu]
    · intro xs hv
      rw [hv] at hu
      rw [hx, hu]
  · intro hd
    rw [hx, Json.Unmarshal_text_deep C doc hwf hd]

/-- Witness of `extract_object`: the raw output `<<RESULT>>{"a": 1}<<RESULT>>`. -/
theorem extract_object_witness :
    ∃ entries c,
      Json.decodeMembers Json.intCodec [("a".toList, .num "1".toList)] = some entries ∧
      Json.MarshalIndent Json.intCodec (.mk entries) [] "    ".toList = .ok c ∧
      ExtractResult Json.intCodec "<<RESULT>>\x7b\"a\": 1\x7d<<RESULT>>".toList =
        .ret (.ok c) :=
  ((extract_object Json.intCodec Json.intCodec_lawful [] []
      "<<RESULT>>\x7b\"a\": 1\x7d<<RESULT>>".toList
      (.obj [] [([], [.plain 'a'], [], .pad [' '] (.num "1".toList) [])])
      rfl rfl rfl rfl).1 (by decide)).1 [("a".toList, .num "1".toList)] rfl (by decide)

/-- C4 (counterexample). `3` is a JSON text, a number, and on `<<RESULT>>3<<RESULT>>`
`ExtractResult` returns the error `failed to parse JSON: …cannot unmarshal number…`
instead of `3`. -/
theorem extract_rejects_number :
    (Json.Doc.num "3".toList).wellFormed = true ∧
      (Json.Doc.num "3".toList).text = "3".toList ∧
      Json.parseDocument Json.intCodec.parse "3".toList = some (.num 3) ∧
      ExtractResult Json.intCodec "<<RESULT>>3<<RESULT>>".toList =
        .ret (.error (.wrapped "failed to parse JSON: ".toList
          (.json (.cannotUnmarshal "number")))) :=
  ⟨rfl, rfl, rfl, rfl⟩

/-- The extractor on further payloads: an object with a repeated key (the later member
wins), an object holding a number the codec cannot convert, an array, and text that is
not JSON. -/
theorem extractResult_examples :
    ExtractResult Json.intCodec "<<RESULT>>\x7b\"a\":1,\"a\":2\x7d<<RESULT>>".toList =
        .ret (.ok "\x7b\n    \"a\": 2\n\x7d".toList) ∧
      ExtractResult Json.intCodec "<<RESULT>>\x7b\"a\":1e999\x7d<<RESULT>>".toList =
        .ret (.error (.wrapped "failed to parse JSON: ".toList (.json .numberRange))) ∧
      ExtractResult Json.intCodec "<<RESULT>>[1e999]<<RESULT>>".toList =
        .ret (.error (.wrapped "failed to parse JSON: ".toList
          (.json (.cannotUnmarshal "array")))) ∧
      ExtractResult Json.intCodec "<<RESULT>>\x7b\"a\":\x7d<<RESULT>>".toList =
        .ret (.error (.wrapped "failed to parse JSON: ".toList (.json .malformed))) :=
  ⟨rfl, rfl, rfl, rfl⟩

/-- Witness of `extract_idempotent`: the raw output `noise<<RESULT>> {"a":1} <<RESULT>>noise`,
extracted to the four-space-indented text of `{"a": 1}`. -/
theorem extract_idempotent_witness :
    ExtractResult Json.intCodec
        ("<<RESULT>>".toList ++ "\x7b\n    \"a\": 1\n\x7d".toList ++ "<<RESULT>>".toList) =
      .ret (.ok "\x7b\n    \"a\": 1\n\x7d".toList) :=
  extract_idempotent Json.intCodec Json.intCodec_lawful
    "noise<<RESULT>> \x7b\"a\":1\x7d <<RESULT>>noise".toList
    "\x7b\n    \"a\": 1\n\x7d".toList rfl

/-- C7. For every inputs mapping whose encoding succeeds, with `b64` the text that
`TransformCaller` substitutes for `{{inputs}}` (whatever the transformer and the code):
`b64` is the standard base64 text of the UTF-8 bytes of `json`, the compact encoding of
the inputs with HTML escaping off and no trailing newline; decoding `b64` gives those
bytes, they are the text `json`, and parsing `json` as JSON gives the inputs mapping back.
Go's own decoder, too, returns the mapping from `json` when the mapping is nested no
deeper than its scanner allows. -/
theorem inputs_round_trip (C : Json.FloatCodec F) (hC : C.Lawful) (inputs : Json.GoMap F)
    (b64 : List Char) (hcan : inputs.canonical = true)
    (h : inputsBase64 C inputs = .ok b64) :
    (∀ (t : Transformer) (code : List Char),
      TransformCaller C t code inputs =
        .ok (Strings.ReplaceAll (Strings.ReplaceAll t.GetRunnerScript CodePlaceholder code)
          InputsPlaceholder b64, GetPreloadScript)) ∧
    ∃ json, Json.encode C false Json.Layout.compact 0 inputs.toValue = some json ∧
      b64 = Base64.EncodeToString (Utf8.encode json) ∧
      Base64.DecodeString b64 = some (Utf8.encode json) ∧
      Utf8.decode (Utf8.encode json) = some json ∧
      Json.parseAsJSON C json = some inputs.toValue ∧
      (inputs.toValue.depth ≤ Json.maxNestingDepth → Json.Unmarshal C json = .ok inputs) := by
  refine ⟨fun t code => by simp only [TransformCaller, h], ?_⟩
  obtain ⟨json, hjson, e⟩ := inputsBase64_ok C inputs b64 h
  refine ⟨json, hjson, e, ?_, Utf8.utf8_decode_encode json, ?_, ?_⟩
  · rw [e]; exact Base64.base64_decode_encode _ (Utf8.encode_lt json)
  · have hp := Json.parseDocument_encode C hC false _ Json.compact_valid (fun lit => some lit)
      C.literal (Json.literal_of_format C) inputs.toValue json hjson
    have he := Json.encodable_of_encode C false _ inputs.toValue 0 json hjson
    simp only [Json.parseAsJSON, hp]
    exact Json.decodeValue_mapNum C hC inputs.toValue hcan he
  · intro hd
    exact Json.Unmarshal_encode C hC false _ Json.compact_valid inputs json hjson hcan hd

/-- Witness of `inputs_round_trip`: the inputs `{a: 1, b: 2}`, encoded as
`eyJhIjoxLCJiIjoyfQ==`. -/
theorem inputs_round_trip_witness :
    (∀ (t : Transformer) (code : List Char),
      TransformCaller Json.intCodec t code (Example.addCase "3").Inputs =
        .ok (Strings.ReplaceAll (Strings.ReplaceAll t.GetRunnerScript CodePlaceholder code)
          InputsPlaceholder "eyJhIjoxLCJiIjoyfQ==".toList, GetPreloadScript)) ∧
    ∃ json, Json.encode Json.intCodec false Json.Layout.compact 0
        (Example.addCase "3").Inputs.toValue = some json ∧
      "eyJhIjoxLCJiIjoyfQ==".toList = Base64.EncodeToString (Utf8.encode json) ∧
      Base64.DecodeString "eyJhIjoxLCJiIjoyfQ==".toList = some (Utf8.encode json) ∧
      Utf8.decode (Utf8.encode json) = some json ∧
      Json.parseAsJSON Json.intCodec json = some (Example.addCase "3").Inputs.toValue ∧
      ((Example.addCase "3").Inputs.toValue.depth ≤ Json.maxNestingDepth →
        Json.Unmarshal Json.intCodec json = .ok (Example.addCase "3").Inputs) :=
  inputs_round_trip Json.intCodec Json.intCodec_lawful (Example.addCase "3").Inputs
    "eyJhIjoxLCJiIjoyfQ==".toList rfl rfl

end Extraction

/-! ## No placeholder is left -/

section NoPlaceholder

open Strings

variable {F : Type}


theorem noStartIn_inputs_token (a y : Char) (tl : List Char) (ha : a = 'e' ∨ a = 'b') :
    noStartIn (a :: y :: tl) InputsPlaceholder = true := by
  rcases ha with ha | ha <;> subst ha <;> rfl

theorem noStartIn_code_token (a y : Char) (tl : List Char) (ha : a = 'e' ∨ a = 'b')
    (hy : y ≠ '}') : noStartIn (a :: y :: tl) CodePlaceholder = true := by
  have hy1 : (y != '}') = true := by simp [hy]
  rcases ha with ha | ha <;> subst ha
  · simp [noStartIn, clash, CodePlaceholder, hy1]
  · rfl

/-- After the second substitution no placeholder is left, when the text before it holds no
`{{code}}`. -/
theorem no_placeholder_after_inputs (s b64 : List Char) (a y : Char) (tl : List Char)
    (hb : b64 = a :: y :: tl) (ha : a = 'e' ∨ a = 'b')
    (hbrace : ∀ c ∈ b64, c ≠ '{' ∧ c ≠ '}')
    (hs : indexOf CodePlaceholder s = none) :
    Contains (ReplaceAll s InputsPlaceholder b64) CodePlaceholder = false ∧
      Contains (ReplaceAll s InputsPlaceholder b64) InputsPlaceholder = false := by
  have hne : InputsPlaceholder ≠ b64 := by
    intro e
    have := (hbrace '{' (by rw [← e]; decide)).1
    exact this rfl
  have hy : y ≠ '}' := (hbrace y (by rw [hb]; simp)).2
  have hnew : ∀ c ∈ b64, c ≠ '{' := fun c hc => (hbrace c hc).1
  unfold ReplaceAll
  rw [if_neg hne, if_neg (by decide)]
  have h1 := indexOf_replaceGo_eq_none InputsPlaceholder b64 '{' CodePlaceholder.tail
    (by rw [hb]; exact noStartIn_code_token a y tl ha hy) hnew s
    (fun b hb hp => by
      have := isPrefixOf_of_indexOf_eq_none CodePlaceholder s b hs hb
      rw [show ('{' :: CodePlaceholder.tail) = CodePlaceholder from rfl, this] at hp
      exact Bool.noConfusion hp) 0
  have h2 := indexOf_replaceGo_eq_none InputsPlaceholder b64 '{' InputsPlaceholder.tail
    (by rw [hb]; exact noStartIn_inputs_token a y tl ha) hnew s
    (fun b _ hp => hp) 0
  have h1' : indexOf CodePlaceholder (replaceGo InputsPlaceholder b64 0 s) = none := h1
  have h2' : indexOf InputsPlaceholder (replaceGo InputsPlaceholder b64 0 s) = none := h2
  constructor
  · simp only [Contains, h1']; rfl
  · simp only [Contains, h2']; rfl

theorem no_code_token_after_code (t : Transformer) (code : List Char)
    (hcode : Contains code CodePlaceholder = false) :
    indexOf CodePlaceholder
      (t.scriptPre ++ (code ++ (t.scriptMid ++ (InputsPlaceholder ++ t.scriptPost)))) = none := by
  have hnone : indexOf CodePlaceholder code = none := by simpa [Contains] using hcode
  obtain ⟨tl, htl⟩ := scriptMid_head t
  have hc : NoStart CodePlaceholder code (t.scriptMid ++ (InputsPlaceholder ++ t.scriptPost)) := by
    rw [htl]
    exact NoStart_of_not_contains _ _ (by decide) _ _ hnone
  have hrest : indexOf CodePlaceholder (t.scriptMid ++ (InputsPlaceholder ++ t.scriptPost)) =
      none := by
    cases t <;> rfl
  rw [indexOf_append_of_NoStart _ _ _ (scriptPre_noStart t _).1,
    indexOf_append_of_NoStart _ _ _ hc, hrest]
  rfl

/-- C6 (amended). For both transformers and every inputs mapping whose encoding succeeds:
when the generated code holds no occurrence of `{{code}}`, the final code returned by
`TransformCaller` holds no occurrence of `{{code}}` and no occurrence of `{{inputs}}`. -/
theorem transform_leaves_no_placeholder (C : Json.FloatCodec F) (t : Transformer)
    (code : List Char) (inputs : Json.GoMap F) (finalCode preload : List Char)
    (hcode : Strings.Contains code CodePlaceholder = false)
    (h : TransformCaller C t code inputs = .ok (finalCode, preload)) :
    Strings.Contains finalCode CodePlaceholder = false ∧
      Strings.Contains finalCode InputsPlaceholder = false := by
  unfold TransformCaller at h
  split at h
  · exact absurd h (by simp)
  · rename_i b64 hb64
    simp only [Except.ok.injEq, Prod.mk.injEq] at h
    obtain ⟨a, y, tl, hb, ha, hbrace⟩ := inputsBase64_shape C inputs b64 hb64
    rw [← h.1, replaceAll_code]
    exact no_placeholder_after_inputs _ b64 a y tl hb ha hbrace
      (no_code_token_after_code t code hcode)

/-- Witness of `transform_leaves_no_placeholder`: the JavaScript transformer with the code
`function main(o) { return o }` and the inputs `{a: 1, b: 2}`. -/
theorem transform_leaves_no_placeholder_witness :
    Strings.Contains
        (Transformer.javascript.scriptPre ++ "function main(o) \x7b return o \x7d".toList ++
          Transformer.javascript.scriptMid ++ "eyJhIjoxLCJiIjoyfQ==".toList ++
          Transformer.javascript.scriptPost) CodePlaceholder = false ∧
      Strings.Contains
        (Transformer.javascript.scriptPre ++ "function main(o) \x7b return o \x7d".toList ++
          Transformer.javascript.scriptMid ++ "eyJhIjoxLCJiIjoyfQ==".toList ++
          Transformer.javascript.scriptPost) InputsPlaceholder = false :=
  transform_leaves_no_placeholder Json.intCodec .javascript
    "function main(o) \x7b return o \x7d".toList (Example.addCase "3").Inputs _ [] rfl rfl

end NoPlaceholder

end Dify
